import Mathlib

/-!
# decimal128: encoding, canonical form, construction and text rendering

A shallow embedding of `decimal.go`, `format.go` and `Reduce` of `helper.go`.

* A `uint64` word is a `Nat` below `2^64`; a `Decimal` is the pair `lo`, `hi`
  of such words, a `uint128` the pair `sig[0]`, `sig[1]`.
* The `int16` exponent is an `Int`.  Every exponent the code handles comes out
  of a 14-bit field, is decremented only while above the bias and incremented
  only while below it, so it never leaves the `int16` range; the conversions
  `uint64(exp)` and `int16(...)` are modelled with their wrap-around.
* Go's `&`, `|`, `^`, `<<`, `>>` are the `Nat` operators, with `% 2^64` where a
  shift can leave the word.
* A byte is a `Nat`, a byte string a `List Nat`; a run-time panic is `none`.
* A loop is a structural recursion on a bound for its number of rounds, and comes
  with a lemma that the bound it is run with is enough: the loop stops by its own
  test, and a larger bound changes nothing.
* `uint128.mul64`, `div10`, `div100` and `Decimal.isNeg`, `isNaN`, `IsZero` are not among
  the sources; they are the exact operations and tests the specification lists. `reduce64`
  is not among them either: it is a parameter of `New`, as the package variable `Zero` is a
  parameter of `Reduce`.
* An `fmt.State` is the record of what `Format` reads from it: width, precision and flags;
  what `Format` writes is its result.
-/

namespace decimal128

/-! ## Data model -/

/-- The Go type `uint128`, `[2]uint64`: `w0` is `sig[0]` (low word), `w1` is `sig[1]`. -/
structure uint128 where
  w0 : Nat
  w1 : Nat
deriving DecidableEq, Repr

/-- Both words of a `uint128` are 64-bit words. -/
def uint128.wf (u : uint128) : Prop := u.w0 < 2 ^ 64 ∧ u.w1 < 2 ^ 64

instance (u : uint128) : Decidable u.wf := by unfold uint128.wf; infer_instance

/-- The number a `uint128` stands for. -/
def uint128.toNat (u : uint128) : Nat := u.w1 * 2 ^ 64 + u.w0

/-- The `uint128` holding the low 128 bits of `n`; inverse to `uint128.toNat` below `2^128`. -/
def uint128.ofNat (n : Nat) : uint128 := ⟨n % 2 ^ 64, n / 2 ^ 64 % 2 ^ 64⟩

/-- The Go type `Decimal`, `struct { lo, hi uint64 }`. -/
structure Decimal where
  lo : Nat
  hi : Nat
deriving DecidableEq, Repr

/-- Both words of a `Decimal` are 64-bit words: `d` is a 128-bit pattern. -/
def Decimal.wf (d : Decimal) : Prop := d.lo < 2 ^ 64 ∧ d.hi < 2 ^ 64

instance (d : Decimal) : Decidable d.wf := by unfold Decimal.wf; infer_instance

/-- The constant `exponentBias = 6176`. -/
def exponentBias : Int := 6176

/-- The constant `maxBiasedExponent = 12287`. -/
def maxBiasedExponent : Int := 12287

/-- The conversion `uint64(exp)` of an `int16`: sign extension, the residue mod `2^64`. -/
def uint64 (e : Int) : Nat := (e % 2 ^ 64).toNat

/-- The conversion `int16(x)` of a `uint64`: the low 16 bits, read as two's complement. -/
def int16 (n : Nat) : Int :=
  if n % 2 ^ 16 < 2 ^ 15 then (n % 2 ^ 16 : Nat) else ((n % 2 ^ 16 : Nat) : Int) - 2 ^ 16

/-! ## `decimal.go` -/

/-- Go `Abs`: `Decimal{d.lo, d.hi & 0x7fff_ffff_ffff_ffff}`. -/
def Abs (d : Decimal) : Decimal := ⟨d.lo, d.hi &&& 0x7fffffffffffffff⟩

/-- Go `compose`. -/
def compose (neg : Bool) (sig : uint128) (exp : Int) : Decimal :=
  let hi : Nat :=
    if sig.w1 > 0x0001ffffffffffff then
      (0x6000000000000000 ||| ((uint64 exp <<< 47) % 2 ^ 64)) ||| (sig.w1 &&& 0x7fffffffffff)
    else
      ((uint64 exp <<< 49) % 2 ^ 64) ||| sig.w1
  let hi : Nat := if neg then hi ||| 0x8000000000000000 else hi
  ⟨sig.w0, hi⟩

/-- Go `inf`. -/
def inf (neg : Bool) : Decimal :=
  if neg then ⟨0, 0xf800000000000000⟩ else ⟨0, 0x7800000000000000⟩

/-- Go `nan`: `Decimal{uint64(op | lhs<<8 | rhs<<16), 0x7c00_0000_0000_0000}`. The type
`Payload` is not among the sources; the payloads are taken as numbers that the shifts do
not truncate. `Canonical` calls `nan` with zeros only. -/
def nan (op lhs rhs : Nat) : Decimal :=
  ⟨((op ||| (lhs <<< 8)) ||| (rhs <<< 16)) % 2 ^ 64, 0x7c00000000000000⟩

/-- Go `zero`. -/
def zero (neg : Bool) : Decimal :=
  if neg then ⟨0, 0x8000000000000000⟩ else ⟨0, 0⟩

/-- Go `Decimal.IsNaN`. -/
def Decimal.IsNaN (d : Decimal) : Bool :=
  d.hi &&& 0x7c00000000000000 == 0x7c00000000000000

/-- Go `Decimal.Neg`: `Decimal{d.lo, d.hi ^ 0x8000_0000_0000_0000}`. -/
def Decimal.Neg (d : Decimal) : Decimal := ⟨d.lo, d.hi ^^^ 0x8000000000000000⟩

/-- Go `Decimal.Signbit`. -/
def Decimal.Signbit (d : Decimal) : Bool :=
  d.hi &&& 0x8000000000000000 == 0x8000000000000000

/-- Go `Decimal.decompose`. -/
def Decimal.decompose (d : Decimal) : uint128 × Int :=
  if d.hi &&& 0x6000000000000000 = 0x6000000000000000 then
    (⟨d.lo, (d.hi &&& 0x7fffffffffff) ||| 0x0002000000000000⟩,
      int16 ((d.hi &&& 0x1fff800000000000) >>> 47))
  else
    (⟨d.lo, d.hi &&& 0x0001ffffffffffff⟩,
      int16 ((d.hi &&& 0x7ffe000000000000) >>> 49))

/-- Go `Decimal.isInf`. -/
def Decimal.isInf (d : Decimal) : Bool :=
  d.hi &&& 0x7c00000000000000 == 0x7800000000000000

/-- Go `Decimal.isSpecial`. -/
def Decimal.isSpecial (d : Decimal) : Bool :=
  d.hi &&& 0x7800000000000000 == 0x7800000000000000

/-- Modelled from the spec: `uint128.mul64` is not among the sources. Section 4.1 lists
`mul64(u64) → u128`, the product by a 64-bit word, which "may overflow into high bits but
never above 128": the exact product, kept to its low 128 bits. -/
def uint128.mul64 (u : uint128) (n : Nat) : uint128 := uint128.ofNat (u.toNat * n)

/-- Modelled from the spec: `uint128.div10` is not among the sources. Section 4.1 lists
`div10 → (quot:u128, rem:u64 ∈ [0,9])` and requires exactness. -/
def uint128.div10 (u : uint128) : uint128 × Nat := (uint128.ofNat (u.toNat / 10), u.toNat % 10)

/-- Modelled from the spec: `uint128.div100` is not among the sources. Section 4.1 lists
`div100 → (quot:u128, rem:u64 ∈ [0,99])` and requires exactness. -/
def uint128.div100 (u : uint128) : uint128 × Nat :=
  (uint128.ofNat (u.toNat / 100), u.toNat % 100)

/-- The first loop of `Canonical`:
`for exp > exponentBias { tmp := sig.mul64(10); if tmp[1] > 0x0002_7fff_ffff_ffff { break };
sig = tmp; exp-- }`.
The first argument bounds the number of rounds; the loop makes at most `exp - exponentBias`. -/
def canonicalMulLoop : Nat → uint128 → Int → uint128 × Int
  | 0, sig, exp => (sig, exp)
  | fuel + 1, sig, exp =>
    if exp > exponentBias then
      if (sig.mul64 10).w1 > 0x00027fffffffffff then (sig, exp)
      else canonicalMulLoop fuel (sig.mul64 10) (exp - 1)
    else (sig, exp)

/-- The second loop of `Canonical`:
`for exp < exponentBias { tmp, rem := sig.div10(); if rem != 0 { break }; sig = tmp; exp++ }`.
The first argument bounds the number of rounds; the loop makes at most `exponentBias - exp`. -/
def canonicalDivLoop : Nat → uint128 → Int → uint128 × Int
  | 0, sig, exp => (sig, exp)
  | fuel + 1, sig, exp =>
    if exp < exponentBias then
      if sig.div10.2 ≠ 0 then (sig, exp)
      else canonicalDivLoop fuel sig.div10.1 (exp + 1)
    else (sig, exp)

/-- The two loops of `Canonical` in sequence, on a decomposed pair. -/
def canonicalLoops (sig : uint128) (exp : Int) : uint128 × Int :=
  canonicalDivLoop
    (exponentBias - (canonicalMulLoop (exp - exponentBias).toNat sig exp).2).toNat
    (canonicalMulLoop (exp - exponentBias).toNat sig exp).1
    (canonicalMulLoop (exp - exponentBias).toNat sig exp).2

/-- Where the loops of `Canonical` come to rest: at the bias, or above it with no room for
another factor 10 in the encoding, or below it with a last digit that is not 0. -/
def IsCanonicalPair (c : Nat) (q : Int) : Prop :=
  c < 2 ^ 113 + 2 ^ 111 ∧
    (q = exponentBias ∨ (exponentBias < q ∧ 2 ^ 113 + 2 ^ 111 ≤ c * 10) ∨
      (q < exponentBias ∧ c % 10 ≠ 0))

/-- Go `Decimal.Canonical`. -/
def Decimal.Canonical (d : Decimal) : Decimal :=
  if d.isSpecial then
    if d.IsNaN then nan 0 0 0 else inf d.Signbit
  else
    let r0 := d.decompose
    let r1 := canonicalMulLoop (r0.2 - exponentBias).toNat r0.1 r0.2
    let r2 := canonicalDivLoop (exponentBias - r1.2).toNat r1.1 r1.2
    compose d.Signbit r2.1 r2.2

/-- The constant `maxUnbiasedExponent = maxBiasedExponent - exponentBias`. -/
def maxUnbiasedExponent : Int := maxBiasedExponent - exponentBias

/-- The constant `minBiasedExponent = 0`. -/
def minBiasedExponent : Int := 0

/-- The constant `minUnbiasedExponent = minBiasedExponent - exponentBias`. -/
def minUnbiasedExponent : Int := minBiasedExponent - exponentBias

/-- The value an `int64` computation keeps: the residue in `[-2^63, 2^63)`. -/
def toInt64 (x : Int) : Int := (x + 2 ^ 63) % 2 ^ 64 - 2 ^ 63

/-- The conversion `int16(x)` of an `int`: the residue in `[-2^15, 2^15)`. -/
def toInt16 (x : Int) : Int := (x + 2 ^ 15) % 2 ^ 16 - 2 ^ 15

/-- Go `New`. The method `reduce64` of the rounding mode is not among the sources; it is the
parameter `reduce64`, with `DefaultRoundingMode` applied. The argument `sig` is an `int64`,
`exp` an `int`. -/
def New (reduce64 : Bool → Nat → Int → uint128 × Int) (sig : Int) (exp : Int) : Decimal :=
  if sig = 0 then zero false
  else
    let neg : Bool := decide (sig < 0)
    let sig : Int := if sig < 0 then toInt64 (sig * -1) else sig
    if exp < minUnbiasedExponent + 19 then zero neg
    else if exp > maxUnbiasedExponent + 39 then inf neg
    else
      let r := reduce64 neg (uint64 sig) (toInt16 (exp + exponentBias))
      if exp > maxBiasedExponent then inf neg
      else compose neg r.1 r.2

/-- Modelled from the spec: `Decimal.IsZero` is not among the sources. Section 3 has the
finite numbers `(-1)^s * c * 10^(q-bias)` and the zeros of both signs among them; the test
`TestDecimalIsZero` expects `true` exactly for a regular (finite) value whose coefficient is
zero. -/
def Decimal.IsZero (d : Decimal) : Bool :=
  !d.isSpecial && decide (d.decompose.1 = ⟨0, 0⟩)

/-- Go `Decimal.Sign`; `none` is the panic `Decimal(NaN).Sign()`. -/
def Decimal.Sign (d : Decimal) : Option Int :=
  if d.IsNaN then none
  else if d.IsZero then some 0
  else if d.Signbit then some (-1)
  else some 1

/-! ## `format.go` -/

/-- A byte written as a character: its code. -/
def byte (c : Char) : Nat := c.toNat

/-- The table `digitPairs`. -/
def digitPairs : List (Char × Char) := [
  ('0', '0'), ('0', '1'), ('0', '2'), ('0', '3'), ('0', '4'),
  ('0', '5'), ('0', '6'), ('0', '7'), ('0', '8'), ('0', '9'),
  ('1', '0'), ('1', '1'), ('1', '2'), ('1', '3'), ('1', '4'),
  ('1', '5'), ('1', '6'), ('1', '7'), ('1', '8'), ('1', '9'),
  ('2', '0'), ('2', '1'), ('2', '2'), ('2', '3'), ('2', '4'),
  ('2', '5'), ('2', '6'), ('2', '7'), ('2', '8'), ('2', '9'),
  ('3', '0'), ('3', '1'), ('3', '2'), ('3', '3'), ('3', '4'),
  ('3', '5'), ('3', '6'), ('3', '7'), ('3', '8'), ('3', '9'),
  ('4', '0'), ('4', '1'), ('4', '2'), ('4', '3'), ('4', '4'),
  ('4', '5'), ('4', '6'), ('4', '7'), ('4', '8'), ('4', '9'),
  ('5', '0'), ('5', '1'), ('5', '2'), ('5', '3'), ('5', '4'),
  ('5', '5'), ('5', '6'), ('5', '7'), ('5', '8'), ('5', '9'),
  ('6', '0'), ('6', '1'), ('6', '2'), ('6', '3'), ('6', '4'),
  ('6', '5'), ('6', '6'), ('6', '7'), ('6', '8'), ('6', '9'),
  ('7', '0'), ('7', '1'), ('7', '2'), ('7', '3'), ('7', '4'),
  ('7', '5'), ('7', '6'), ('7', '7'), ('7', '8'), ('7', '9'),
  ('8', '0'), ('8', '1'), ('8', '2'), ('8', '3'), ('8', '4'),
  ('8', '5'), ('8', '6'), ('8', '7'), ('8', '8'), ('8', '9'),
  ('9', '0'), ('9', '1'), ('9', '2'), ('9', '3'), ('9', '4'),
  ('9', '5'), ('9', '6'), ('9', '7'), ('9', '8'), ('9', '9')]

/-- Modelled from the spec: `Decimal.isNeg` is not among the sources; the sign test of
section 3 ("Bit 127: sign"), the same bit `Signbit` reads. -/
def Decimal.isNeg (d : Decimal) : Bool := d.Signbit

/-- Modelled from the spec: `Decimal.isNaN` is not among the sources; the NaN test of
section 3 ("bits 126-122 = 11111"), the same bits `IsNaN` reads. -/
def Decimal.isNaN (d : Decimal) : Bool := d.IsNaN

/-- The Go type `digits`. The array `dig [39]byte` is a list of 39 bytes. -/
structure digits where
  neg : Bool
  dig : List Nat
  exp : Int
  ndig : Int
deriving DecidableEq, Repr

/-- The assignment `dig[i] = b`; `none` is the run-time panic on an index outside the
array. -/
def setDig (dig : List Nat) (i : Nat) (b : Nat) : Option (List Nat) :=
  if i < dig.length then some (dig.set i b) else none

/-- The division loop of `Decimal.digits`, on the variables `sig`, `n`, `digs.exp` and
`digs.dig`; it returns the last three. `none` is a run-time panic (an index outside
`digitPairs` or outside `dig`). The first argument bounds the number of rounds. -/
def digitsLoop : Nat → uint128 → Nat → Int → List Nat → Option (Nat × Int × List Nat)
  | 0, _, n, exp, dig => some (n, exp, dig)
  | fuel + 1, sig, n, exp, dig =>
    if sig ≠ ⟨0, 0⟩ then
      if n = 0 ∧ sig.div100.2 = 0 then
        digitsLoop fuel sig.div100.1 n (exp + 2) dig
      else
        match digitPairs[sig.div100.2]? with
        | none => none
        | some pair =>
          if n = 0 ∧ pair.2 = '0' then
            (setDig dig n (byte pair.1)).bind fun dig1 =>
              digitsLoop fuel sig.div100.1 (n + 1) (exp + 1) dig1
          else if pair.1 = '0' ∧ sig.div100.1 = ⟨0, 0⟩ then
            (setDig dig n (byte pair.2)).bind fun dig1 =>
              digitsLoop fuel sig.div100.1 (n + 1) exp dig1
          else
            (setDig dig n (byte pair.2)).bind fun dig1 =>
              (setDig dig1 (n + 1) (byte pair.1)).bind fun dig2 =>
                digitsLoop fuel sig.div100.1 (n + 2) exp dig2
    else some (n, exp, dig)

/-- The reversal loop of `Decimal.digits`:
`for i, j := 0, n-1; i < j; i, j = i+1, j-1 { dig[i], dig[j] = dig[j], dig[i] }`.
The indices stay inside `0 .. n-1`, so no access can fail. -/
def reverseLoop : Nat → Int → Int → List Nat → List Nat
  | 0, _, _, dig => dig
  | fuel + 1, i, j, dig =>
    if i < j then
      reverseLoop fuel (i + 1) (j - 1)
        ((dig.set i.toNat (dig.getD j.toNat 0)).set j.toNat (dig.getD i.toNat 0))
    else dig

/-- Go `Decimal.digits`. The division loop makes at most `sig` rounds (`sig` falls in every
round), the reversal loop at most `n`. -/
def Decimal.digits (d : Decimal) : Option digits :=
  let sig := d.decompose.1
  let exp := d.decompose.2
  if sig ≠ ⟨0, 0⟩ then
    (digitsLoop sig.toNat sig 0 (exp - exponentBias) (List.replicate 39 0)).bind fun r =>
      some ⟨d.isNeg, reverseLoop r.1 0 ((r.1 : Int) - 1) r.2.2, r.2.1, r.1⟩
  else some ⟨d.isNeg, List.replicate 39 0, 0, 0⟩

/-- Go `Decimal.fmtSpecial`. The flag `copyBuf` only decides whether the result shares its
storage with the text constants. -/
def Decimal.fmtSpecial (d : Decimal) (pad : Int) (printSign padSign padRight : Bool)
    (_copyBuf : Bool) : List Nat :=
  let buf : List Nat :=
    if d.isNaN then
      if printSign then "+NaN".toList.map byte
      else if padSign then " NaN".toList.map byte
      else "NaN".toList.map byte
    else
      if d.isNeg then "-Inf".toList.map byte
      else if padSign ∧ ¬ printSign then " Inf".toList.map byte
      else "+Inf".toList.map byte
  let p : Int := pad - buf.length
  if p > 0 then
    if padRight then buf ++ List.replicate p.toNat (byte ' ')
    else List.replicate p.toNat (byte ' ') ++ buf
  else buf

/-- The Go slice `dig[lo:hi]`, for `0 ≤ lo ≤ hi ≤ len(dig)`. -/
def slice (dig : List Nat) (lo hi : Int) : List Nat := (dig.take hi.toNat).drop lo.toNat

/-- The loop `for ; i < prec; i++ { buf = append(buf, '0') }` of `fmtE` and `fmtF`. -/
def appendZeros : Nat → Int → Int → List Nat → List Nat
  | 0, _, _, buf => buf
  | fuel + 1, i, prec, buf =>
    if i < prec then appendZeros fuel (i + 1) prec (buf ++ [byte '0']) else buf

/-- The sign prefix common to `fmtE` and `fmtF`. -/
def signPrefix (neg printSign padSign : Bool) : List Nat :=
  if neg then [byte '-']
  else if printSign then [byte '+']
  else if padSign then [byte ' ']
  else []

/-- The byte `'0' + byte(x)`: the conversion keeps the low 8 bits, the sum wraps at 256. -/
def digitByte (x : Int) : Nat := (byte '0' + (x % 256).toNat) % 256

/-- The bytes the last statement of `fmtE` appends for the exponent, made non-negative
before: `if exp < 10 { ... } else if exp < 100 { ... } else if exp < 1000 { ... } else
{ ... }`. The exponent is not negative here, so Go's truncated division is the division
used. -/
def expBytes (exp : Int) (padExp : Bool) : List Nat :=
  if exp < 10 then
    if padExp then [byte '0', digitByte exp] else [digitByte exp]
  else if exp < 100 then [digitByte (exp / 10), digitByte (exp % 10)]
  else if exp < 1000 then
    [digitByte (exp / 100), digitByte (exp / 10 % 10), digitByte (exp % 10)]
  else
    [digitByte (exp / 1000), digitByte (exp / 100 % 10), digitByte (exp / 10 % 10),
      digitByte (exp % 10)]

/-- Go `digits.fmtE`. -/
def digits.fmtE (d : digits) (prec : Int) (forceDP printSign padSign padExp : Bool)
    (e : Nat) : List Nat :=
  let buf := signPrefix d.neg printSign padSign
  let buf := if d.ndig = 0 then buf ++ [byte '0'] else buf ++ [d.dig.getD 0 0]
  let buf :=
    if prec > 0 then
      let buf := buf ++ [byte '.']
      if d.ndig > 1 then
        appendZeros (prec - (d.ndig - 1)).toNat (d.ndig - 1) prec (buf ++ slice d.dig 1 d.ndig)
      else appendZeros (prec - 0).toNat 0 prec buf
    else if forceDP then buf ++ [byte '.']
    else buf
  let buf := buf ++ [e]
  let exp := if d.ndig > 1 then d.exp + (d.ndig - 1) else d.exp
  let buf := if exp < 0 then buf ++ [byte '-'] else buf ++ [byte '+']
  let exp := if exp < 0 then -exp else exp
  buf ++ expBytes exp padExp

/-- The loop `for ; dp < 0; dp++ { prec--; buf = append(buf, '0') }` of `fmtF`, on the
variables `dp`, `prec` and `buf`. -/
def leadZeros : Nat → Int → Int → List Nat → Int × Int × List Nat
  | 0, dp, prec, buf => (dp, prec, buf)
  | fuel + 1, dp, prec, buf =>
    if dp < 0 then leadZeros fuel (dp + 1) (prec - 1) (buf ++ [byte '0'])
    else (dp, prec, buf)

/-- Go `digits.fmtF`. -/
def digits.fmtF (d : digits) (prec : Int) (forceDP printSign padSign : Bool) : List Nat :=
  let buf := signPrefix d.neg printSign padSign
  let dp : Int := if d.ndig = 0 then 0 else d.ndig + d.exp
  let buf :=
    if d.ndig = 0 then buf ++ [byte '0']
    else if dp > 0 then
      if d.ndig > dp then buf ++ slice d.dig 0 dp
      else appendZeros (dp - d.ndig).toNat d.ndig dp (buf ++ slice d.dig 0 d.ndig)
    else buf ++ [byte '0']
  if prec > 0 then
    let buf := buf ++ [byte '.']
    let r := leadZeros (0 - dp).toNat dp prec buf
    if d.ndig > r.1 then
      appendZeros (r.2.1 - (d.ndig - r.1)).toNat (d.ndig - r.1) r.2.1
        (r.2.2 ++ slice d.dig r.1 d.ndig)
    else appendZeros (r.2.1 - 0).toNat 0 r.2.1 r.2.2
  else if forceDP then buf ++ [byte '.']
  else buf

/-- Go `Decimal.String`, as the bytes of the string; `none` is a run-time panic. -/
def Decimal.String (d : Decimal) : Option (List Nat) :=
  if d.isSpecial then some (d.fmtSpecial 0 false false false false)
  else
    d.digits.bind fun digs =>
      if digs.exp + (digs.ndig - 1) < -4 ∨ digs.exp + (digs.ndig - 1) > digs.ndig - 1 then
        some (digs.fmtE (digs.ndig - 1) false false false true (byte 'e'))
      else if digs.exp < 0 then some (digs.fmtF (-digs.exp) false false false)
      else some (digs.fmtF 0 false false false)

/-- A Go `error`: `none` is `nil`, otherwise the message. -/
@[reducible]
def error : Type := Option String

/-- Go `Decimal.MarshalText`: the bytes and the error; the outer `none` is a run-time
panic. -/
def Decimal.MarshalText (d : Decimal) : Option (List Nat × error) :=
  if d.isSpecial then some (d.fmtSpecial 0 false false false true, none)
  else
    d.digits.bind fun digs =>
      if digs.exp + (digs.ndig - 1) < -4 ∨ digs.exp + (digs.ndig - 1) > digs.ndig - 1 then
        some (digs.fmtE (digs.ndig - 1) false false false true (byte 'e'), none)
      else if digs.exp < 0 then some (digs.fmtF (-digs.exp) false false false, none)
      else some (digs.fmtF 0 false false false, none)

/-- The loop `for i >= 0 && d.dig[i] == c { i-- }` of `round`, with `c` one of `'9'`, `'0'`.
The first argument bounds the number of rounds; the loop makes at most `i + 1`. -/
def scanDown (dig : List Nat) (c : Nat) : Nat → Int → Int
  | 0, i => i
  | fuel + 1, i =>
    if i ≥ 0 ∧ dig.getD i.toNat 0 = c then scanDown dig c fuel (i - 1) else i

/-- The flag `up` of `round`: whether the kept digits are rounded up. A byte difference
wraps at 256. -/
def digits.roundsUp (d : digits) (prec : Int) : Bool :=
  if d.ndig > 1 ∧ d.ndig = prec + 1 ∧ d.dig.getD prec.toNat 0 = byte '5' then
    decide ((d.dig.getD (prec - 1).toNat 0 + 256 - byte '0') % 256 % 2 ≠ 0)
  else decide (d.dig.getD prec.toNat 0 ≥ byte '5')

/-- The branch `if up { ... }` of `round`. The increment of a byte wraps at 256. -/
def digits.roundUp (d : digits) (prec : Int) : digits :=
  if scanDown d.dig (byte '9') prec.toNat (prec - 1) = -1 then
    { d with dig := d.dig.set 0 (byte '1'), exp := d.exp + d.ndig, ndig := 1 }
  else
    { d with
      dig := d.dig.set (scanDown d.dig (byte '9') prec.toNat (prec - 1)).toNat
        ((d.dig.getD (scanDown d.dig (byte '9') prec.toNat (prec - 1)).toNat 0 + 1) % 256),
      exp := d.exp + (d.ndig - (scanDown d.dig (byte '9') prec.toNat (prec - 1) + 1)),
      ndig := scanDown d.dig (byte '9') prec.toNat (prec - 1) + 1 }

/-- The branch `else { ... }` of `round`, for `up` false. -/
def digits.roundDown (d : digits) (prec : Int) : digits :=
  { d with
    exp := d.exp + (d.ndig - (scanDown d.dig (byte '0') prec.toNat (prec - 1) + 1)),
    ndig := scanDown d.dig (byte '0') prec.toNat (prec - 1) + 1 }

/-- Go `digits.round`, returning the structure it updates in place. Every index read or
written is below `d.ndig`. -/
def digits.round (d : digits) (prec : Int) : digits :=
  if d.ndig ≤ prec then d
  else if prec < 0 then { d with exp := d.exp + d.ndig, ndig := 0 }
  else if d.roundsUp prec then d.roundUp prec
  else d.roundDown prec

/-- What `Format` reads of its `fmt.State`: `Width()`, `Precision()` (`none` when not set)
and the flags. -/
structure State where
  width : Option Int
  prec : Option Int
  plus : Bool
  minus : Bool
  sharp : Bool
  space : Bool
  zero : Bool
deriving DecidableEq, Repr

/-- The method `Flag` of `fmt.State`. -/
def State.Flag (f : State) (c : Char) : Bool :=
  if c = '+' then f.plus
  else if c = '-' then f.minus
  else if c = '#' then f.sharp
  else if c = ' ' then f.space
  else if c = '0' then f.zero
  else false

/-- The bytes of a string constant. -/
def bytesOf (s : String) : List Nat := s.toList.map byte

/-- The bytes `%c` writes for a rune: its UTF-8 encoding. -/
def runeBytes (c : Char) : List Nat := (String.utf8EncodeChar c).map UInt8.toNat

/-- Go `Decimal.Format`, as the bytes it writes to the state; `none` is a run-time panic.
The verb is a rune; the `switch` is the chain of tests. -/
def Decimal.Format (d : Decimal) (f : State) (verb : Char) : Option (List Nat) :=
  if d.isSpecial then
    let printSign : Bool := if verb ≠ 'v' then f.Flag '+' else false
    let padSign : Bool := if verb ≠ 'v' then f.Flag ' ' else false
    let pad : Int := if verb ≠ 'v' then (match f.width with | some w => w | none => 0) else 0
    some (d.fmtSpecial pad printSign padSign (f.Flag '-') false)
  else
    d.digits.bind fun digs =>
      if verb = 'e' ∨ verb = 'E' then
        let prec : Int := match f.prec with | some p => p | none => 6
        some ((digs.round (prec + 1)).fmtE prec (f.Flag '#') (f.Flag '+') (f.Flag ' ') true
          (byte verb))
      else if verb = 'f' ∨ verb = 'F' then
        let prec : Int := match f.prec with | some p => p | none => 6
        let digs := if digs.exp < 0 then digs.round (digs.ndig + digs.exp + prec) else digs
        some (digs.fmtF prec (f.Flag '#') (f.Flag '+') (f.Flag ' '))
      else if verb = 'g' ∨ verb = 'G' then
        let prec : Int :=
          match f.prec with
          | some p => p
          | none => if f.Flag '#' then 6 else digs.ndig - 1
        let digs := digs.round prec
        if digs.exp + prec < -4 ∨ digs.exp + prec > prec then
          some (digs.fmtE prec (f.Flag '#') (f.Flag '+') (f.Flag ' ') true
            (if verb = 'G' then byte 'E' else byte 'e'))
        else if digs.ndig = 0 then
          some (digs.fmtF (prec - 1) (f.Flag '#') (f.Flag '+') (f.Flag ' '))
        else some (digs.fmtF (prec - digs.ndig) (f.Flag '#') (f.Flag '+') (f.Flag ' '))
      else if verb = 'v' then
        if digs.exp + (digs.ndig - 1) < -4 ∨ digs.exp + (digs.ndig - 1) > digs.ndig - 1 then
          some (digs.fmtE (digs.ndig - 1) false false false true (byte 'e'))
        else if digs.exp < 0 then some (digs.fmtF (-digs.exp) false false false)
        else some (digs.fmtF 0 false false false)
      else
        d.String.bind fun str =>
          some (bytesOf "%!" ++ runeBytes verb ++ bytesOf "(decimal128.Decimal=" ++ str
            ++ bytesOf ")")

/-! ## `helper.go` -/

/-- The loop `for i := 1; i < len(values); i++ { r = reducer(r, values[i]) }` of `Reduce`, on
the variables `i` and `r`; `none` is the run-time panic on an index outside `values`. The
first argument bounds the number of rounds. -/
def reduceLoop (values : List Decimal) (reducer : Decimal → Decimal → Decimal) :
    Nat → Nat → Decimal → Option Decimal
  | 0, _, r => some r
  | fuel + 1, i, r =>
    if i < values.length then
      values[i]?.bind fun v => reduceLoop values reducer fuel (i + 1) (reducer r v)
    else some r

/-- Go `Reduce`. The package variable `Zero = FromInt32(0)` is the first argument:
`FromInt32` is not among the sources. The variadic `a ...Decimal` is the list `a`; `none` is
the run-time panic on an index outside a slice. The loop makes `len(values) - 1` rounds. -/
def Reduce (Zero : Decimal) (values : List Decimal) (reducer : Decimal → Decimal → Decimal)
    (a : List Decimal) : Option Decimal :=
  (if a.length > 0 then a[0]? else some Zero).bind fun init =>
    if values.length = 0 then some init
    else values[0]?.bind fun v0 =>
      reduceLoop values reducer values.length 1 (reducer init v0)

/-! ## Numerals -/

/-- A byte is one of `'0'` .. `'9'`. -/
def isDigitByte (b : Nat) : Prop := byte '0' ≤ b ∧ b ≤ byte '9'

instance (b : Nat) : Decidable (isDigitByte b) := by unfold isDigitByte; infer_instance

/-- A digit string as `Decimal.digits` and `round` leave it: `ndig` bytes inside the array,
all of them digits, the first one not `'0'`. -/
def digits.wf (d : digits) : Prop :=
  0 ≤ d.ndig ∧ (d.dig.take d.ndig.toNat).length = d.ndig.toNat ∧
    (∀ b ∈ d.dig.take d.ndig.toNat, isDigitByte b) ∧
    (0 < d.ndig → d.dig.getD 0 0 ≠ byte '0')

/-- The number a string of digit bytes writes, most significant digit first. -/
def digitsValue (l : List Nat) : Nat := l.foldl (fun acc b => acc * 10 + (b - byte '0')) 0

/-- The number a string of digit bytes writes, least significant digit first: the order in
which `Decimal.digits` produces them. -/
def leValue : List Nat → Nat
  | [] => 0
  | b :: l => (b - byte '0') + 10 * leValue l

/-- The parts of a numeral `[-] digits ['.' digits] ['e' ('+'|'-') exp-digits]`: the sign,
the digits before the point, the digits after it (none: no point), and the exponent part
(its sign is `true` for `'-'`). -/
structure Numeral where
  neg : Bool
  ip : List Nat
  fp : List Nat
  ex : Option (Bool × List Nat)

/-- The text of a numeral. -/
def Numeral.text (n : Numeral) : List Nat :=
  (if n.neg then [byte '-'] else []) ++ n.ip ++
    (if n.fp = [] then [] else byte '.' :: n.fp) ++
    (match n.ex with
      | none => []
      | some (s, ed) => byte 'e' :: (if s then byte '-' else byte '+') :: ed)

/-- The parts are digit strings, with at least one digit before the point and at least one
exponent digit when there is an exponent part. -/
def Numeral.wf (n : Numeral) : Prop :=
  n.ip ≠ [] ∧ (∀ b ∈ n.ip, isDigitByte b) ∧ (∀ b ∈ n.fp, isDigitByte b) ∧
    (∀ s ed, n.ex = some (s, ed) → ed ≠ [] ∧ ∀ b ∈ ed, isDigitByte b)

/-- The exponent a numeral writes; 0 without an exponent part. -/
def Numeral.exponent (n : Numeral) : Int :=
  match n.ex with
  | none => 0
  | some (s, ed) => if s then -(digitsValue ed : Int) else (digitsValue ed : Int)

/-- The exact value of the numeral without its sign. -/
def Numeral.value (n : Numeral) : ℚ :=
  (digitsValue (n.ip ++ n.fp) : ℚ) * (10 : ℚ) ^ (n.exponent - (n.fp.length : Int))

/-! ## Words as arithmetic -/

/-- Masking with a run of `b` one-bits starting at bit `a` extracts that field in place. -/
theorem and_field (h a b : Nat) :
    h &&& ((2 ^ b - 1) * 2 ^ a) = (h / 2 ^ a % 2 ^ b) * 2 ^ a := by
  apply Nat.eq_of_testBit_eq
  intro i
  rw [Nat.testBit_and, Nat.mul_comm _ (2 ^ a), Nat.mul_comm _ (2 ^ a),
    Nat.testBit_mul_pow_two, Nat.testBit_mul_pow_two, Nat.testBit_two_pow_sub_one,
    Nat.testBit_mod_two_pow, ← Nat.shiftRight_eq_div_pow, Nat.testBit_shiftRight]
  by_cases hia : a ≤ i
  · have : a + (i - a) = i := by omega
    simp [hia, this, Bool.and_comm]
  · simp [hia]

theorem and_6000 (h : Nat) : h &&& 0x6000000000000000 = (h / 2 ^ 61 % 4) * 2 ^ 61 :=
  and_field h 61 2

theorem and_7fff47 (h : Nat) : h &&& 0x7fffffffffff = h % 2 ^ 47 :=
  Nat.and_pow_two_sub_one_eq_mod h 47

theorem and_1fff8 (h : Nat) : h &&& 0x1fff800000000000 = (h / 2 ^ 47 % 2 ^ 14) * 2 ^ 47 :=
  and_field h 47 14

theorem and_0001f (h : Nat) : h &&& 0x0001ffffffffffff = h % 2 ^ 49 :=
  Nat.and_pow_two_sub_one_eq_mod h 49

theorem and_7ffe (h : Nat) : h &&& 0x7ffe000000000000 = (h / 2 ^ 49 % 2 ^ 14) * 2 ^ 49 :=
  and_field h 49 14

theorem and_7c00 (h : Nat) : h &&& 0x7c00000000000000 = (h / 2 ^ 58 % 32) * 2 ^ 58 :=
  and_field h 58 5

theorem and_7800 (h : Nat) : h &&& 0x7800000000000000 = (h / 2 ^ 59 % 16) * 2 ^ 59 :=
  and_field h 59 4

theorem and_8000 (h : Nat) : h &&& 0x8000000000000000 = (h / 2 ^ 63 % 2) * 2 ^ 63 :=
  and_field h 63 1

theorem and_7fff63 (h : Nat) : h &&& 0x7fffffffffffffff = h % 2 ^ 63 :=
  Nat.and_pow_two_sub_one_eq_mod h 63

/-- Or-ing a value below `2^i` under a multiple of `2^i` adds it. -/
theorem or_low (i a b : Nat) (hb : b < 2 ^ i) : (a * 2 ^ i) ||| b = a * 2 ^ i + b := by
  rw [Nat.mul_comm a]
  exact (Nat.mul_add_lt_is_or hb a).symm

theorem int16_small (n : Nat) (h : n < 2 ^ 15) : int16 n = n := by
  unfold int16
  have h1 : n % 2 ^ 16 = n := Nat.mod_eq_of_lt (by omega)
  rw [h1, if_pos h]

theorem uint64_nat (e : Nat) (h : e < 2 ^ 64) : uint64 (e : Int) = e := by
  unfold uint64
  omega

/-! ## The accessors, read arithmetically -/

theorem Signbit_eq (d : Decimal) : d.Signbit = decide (d.hi / 2 ^ 63 % 2 = 1) := by
  unfold Decimal.Signbit
  rw [and_8000]
  rcases Nat.mod_two_eq_zero_or_one (d.hi / 2 ^ 63) with h | h <;> rw [h] <;> simp

theorem isSpecial_eq (d : Decimal) : d.isSpecial = decide (d.hi / 2 ^ 59 % 16 = 15) := by
  unfold Decimal.isSpecial
  rw [and_7800, Bool.eq_iff_iff]
  simp only [beq_iff_eq, decide_eq_true_eq]
  omega

theorem IsNaN_eq (d : Decimal) : d.IsNaN = decide (d.hi / 2 ^ 58 % 32 = 31) := by
  unfold Decimal.IsNaN
  rw [and_7c00, Bool.eq_iff_iff]
  simp only [beq_iff_eq, decide_eq_true_eq]
  omega

theorem isInf_eq (d : Decimal) : d.isInf = decide (d.hi / 2 ^ 58 % 32 = 30) := by
  unfold Decimal.isInf
  rw [and_7c00, Bool.eq_iff_iff]
  simp only [beq_iff_eq, decide_eq_true_eq]
  omega

theorem decompose_eq (d : Decimal) :
    d.decompose =
      if d.hi / 2 ^ 61 % 4 = 3 then
        (⟨d.lo, 2 ^ 49 + d.hi % 2 ^ 47⟩, ((d.hi / 2 ^ 47 % 2 ^ 14 : Nat) : Int))
      else
        (⟨d.lo, d.hi % 2 ^ 49⟩, ((d.hi / 2 ^ 49 % 2 ^ 14 : Nat) : Int)) := by
  unfold Decimal.decompose
  rw [and_6000, and_7fff47, and_1fff8, and_0001f, and_7ffe, Nat.shiftRight_eq_div_pow,
    Nat.shiftRight_eq_div_pow, Nat.mul_div_cancel _ (by norm_num : 0 < 2 ^ 47),
    Nat.mul_div_cancel _ (by norm_num : 0 < 2 ^ 49)]
  have hor : (d.hi % 2 ^ 47) ||| 0x0002000000000000 = 2 ^ 49 + d.hi % 2 ^ 47 := by
    rw [Nat.or_comm]
    have := or_low 49 1 (d.hi % 2 ^ 47) (by omega)
    simpa using this
  rw [hor, int16_small _ (by omega), int16_small _ (by omega)]
  have hc : (d.hi / 2 ^ 61 % 4 * 2 ^ 61 = 0x6000000000000000) ↔ d.hi / 2 ^ 61 % 4 = 3 := by
    omega
  simp only [hc]

/-- The word `hi` that `compose` builds, for an exponent in the 14-bit range and a
coefficient word in the form-A or form-B range. -/
theorem compose_eq (neg : Bool) (sig : uint128) (e : Nat) (he : e < 2 ^ 14)
    (hs : sig.w1 < 2 ^ 49 + 2 ^ 47) :
    compose neg sig (e : Int) =
      ⟨sig.w0, (if neg then 2 ^ 63 else 0) +
        (if 2 ^ 49 ≤ sig.w1 then 3 * 2 ^ 61 + e * 2 ^ 47 + sig.w1 % 2 ^ 47
         else e * 2 ^ 49 + sig.w1)⟩ := by
  unfold compose
  rw [uint64_nat e (by omega), Nat.shiftLeft_eq, Nat.shiftLeft_eq, and_7fff47]
  have h1 : e * 2 ^ 47 % 2 ^ 64 = e * 2 ^ 47 := Nat.mod_eq_of_lt (by omega)
  have h2 : e * 2 ^ 49 % 2 ^ 64 = e * 2 ^ 49 := Nat.mod_eq_of_lt (by omega)
  rw [h1, h2]
  have hB : (0x6000000000000000 ||| e * 2 ^ 47) ||| sig.w1 % 2 ^ 47
      = 3 * 2 ^ 61 + e * 2 ^ 47 + sig.w1 % 2 ^ 47 := by
    have a1 := or_low 61 3 (e * 2 ^ 47) (by omega)
    have e1 : (0x6000000000000000 : Nat) = 3 * 2 ^ 61 := by norm_num
    rw [e1, a1]
    have e2 : 3 * 2 ^ 61 + e * 2 ^ 47 = (3 * 2 ^ 14 + e) * 2 ^ 47 := by ring
    rw [e2]
    exact or_low 47 _ _ (by omega)
  by_cases hw : 2 ^ 49 ≤ sig.w1
  · have hgt : sig.w1 > 0x0001ffffffffffff := by omega
    simp only [hgt, hw, if_true, hB]
    cases neg
    · simp
    · have hlt : 3 * 2 ^ 61 + e * 2 ^ 47 + sig.w1 % 2 ^ 47 < 2 ^ 63 := by omega
      have := or_low 63 1 _ hlt
      simp only [if_true]
      rw [Nat.or_comm]
      simpa using this
  · have hgt : ¬ sig.w1 > 0x0001ffffffffffff := by omega
    have hA : e * 2 ^ 49 ||| sig.w1 = e * 2 ^ 49 + sig.w1 := or_low 49 _ _ (by omega)
    simp only [hgt, hw, if_false, hA]
    cases neg
    · simp
    · have hlt : e * 2 ^ 49 + sig.w1 < 2 ^ 63 := by omega
      have := or_low 63 1 _ hlt
      simp only [if_true]
      rw [Nat.or_comm]
      simpa using this

theorem Signbit_true_iff (d : Decimal) : d.Signbit = true ↔ d.hi / 2 ^ 63 % 2 = 1 := by
  rw [Signbit_eq]; simp

theorem isSpecial_false_iff (d : Decimal) : d.isSpecial = false ↔ d.hi / 2 ^ 59 % 16 ≠ 15 := by
  rw [isSpecial_eq]; simp

/-! ## `compose` and `decompose` -/

theorem toNat_lt_iff_w1 (sig : uint128) (h : sig.wf) :
    sig.toNat < 2 ^ 113 + 2 ^ 111 ↔ sig.w1 < 2 ^ 49 + 2 ^ 47 := by
  unfold uint128.toNat
  unfold uint128.wf at h
  omega

/-- Reading back what `compose` wrote. -/
theorem compose_roundtrip (neg : Bool) (sig : uint128) (e : Nat) (hwf : sig.wf)
    (hs : sig.toNat < 2 ^ 113 + 2 ^ 111) (he : e ≤ 12287) :
    (compose neg sig (e : Int)).decompose = (sig, (e : Int)) ∧
    (compose neg sig (e : Int)).Signbit = neg ∧
    (compose neg sig (e : Int)).isSpecial = false ∧
    (compose neg sig (e : Int)).wf := by
  have hw1 := (toNat_lt_iff_w1 sig hwf).1 hs
  have hw0 := hwf.1
  rw [compose_eq neg sig e (by omega) hw1, decompose_eq, Signbit_eq, isSpecial_eq]
  unfold Decimal.wf
  obtain ⟨w0, w1⟩ := sig
  simp only at hw1 hw0 ⊢
  by_cases hB : 2 ^ 49 ≤ w1
  · simp only [hB, if_true]
    cases neg
    · have h3 : (0 + (3 * 2 ^ 61 + e * 2 ^ 47 + w1 % 2 ^ 47)) / 2 ^ 61 % 4 = 3 := by omega
      simp only [Bool.false_eq_true, if_false, h3, if_true]
      refine ⟨?_, ?_, ?_, hw0, ?_⟩
      · congr 2
        · omega
        · omega
      · simp; omega
      · simp; omega
      · omega
    · have h3 : (2 ^ 63 + (3 * 2 ^ 61 + e * 2 ^ 47 + w1 % 2 ^ 47)) / 2 ^ 61 % 4 = 3 := by omega
      simp only [if_true, h3]
      refine ⟨?_, ?_, ?_, hw0, ?_⟩
      · congr 2
        · omega
        · omega
      · simp; omega
      · simp; omega
      · omega
  · simp only [hB, if_false]
    cases neg
    · have h3 : ¬ (0 + (e * 2 ^ 49 + w1)) / 2 ^ 61 % 4 = 3 := by omega
      simp only [Bool.false_eq_true, if_false, h3]
      refine ⟨?_, ?_, ?_, hw0, ?_⟩
      · congr 2
        · omega
        · omega
      · simp; omega
      · simp; omega
      · omega
    · have h3 : ¬ (2 ^ 63 + (e * 2 ^ 49 + w1)) / 2 ^ 61 % 4 = 3 := by omega
      simp only [if_true, if_false, h3]
      refine ⟨?_, ?_, ?_, hw0, ?_⟩
      · congr 2
        · omega
        · omega
      · simp; omega
      · simp; omega
      · omega

/-- C1. `decompose` undoes `compose`: for every sign flag, every biased exponent in
`[0, 12287]` and every 128-bit coefficient below `2^113 + 2^111` (in particular every
coefficient of at most 34 decimal digits), decomposing the composed value gives back the
coefficient and the exponent, `Signbit` gives back the sign flag, and the composed value is
not special: neither `Inf` nor `NaN`. -/
theorem decompose_compose (neg : Bool) (sig : uint128) (exp : Int) (hwf : sig.wf)
    (hsig : sig.toNat < 2 ^ 113 + 2 ^ 111 ∨ sig.toNat ≤ 10 ^ 34 - 1)
    (hlo : 0 ≤ exp) (hhi : exp ≤ maxBiasedExponent) :
    (compose neg sig exp).decompose = (sig, exp) ∧
    (compose neg sig exp).Signbit = neg ∧
    (compose neg sig exp).isSpecial = false ∧
    (compose neg sig exp).isInf = false ∧
    (compose neg sig exp).IsNaN = false := by
  have hs : sig.toNat < 2 ^ 113 + 2 ^ 111 := by
    rcases hsig with h | h
    · exact h
    · exact lt_of_le_of_lt h (by norm_num)
  obtain ⟨e, rfl⟩ := Int.eq_ofNat_of_zero_le hlo
  have he : e ≤ 12287 := by unfold maxBiasedExponent at hhi; omega
  obtain ⟨h1, h2, h3, _⟩ := compose_roundtrip neg sig e hwf hs he
  refine ⟨h1, h2, h3, ?_, ?_⟩
  · rw [isSpecial_false_iff] at h3
    rw [isInf_eq]; simp; omega
  · rw [isSpecial_false_iff] at h3
    rw [IsNaN_eq]; simp; omega

/-- The round trip of C1 on a form-B coefficient: sign set, coefficient `2^113 + 12345`,
biased exponent 6176. -/
theorem decompose_compose_witness :
    (compose true ⟨12345, 2 ^ 49⟩ 6176).decompose = (⟨12345, 2 ^ 49⟩, 6176) ∧
    (compose true ⟨12345, 2 ^ 49⟩ 6176).Signbit = true ∧
    (compose true ⟨12345, 2 ^ 49⟩ 6176).isSpecial = false ∧
    (compose true ⟨12345, 2 ^ 49⟩ 6176).isInf = false ∧
    (compose true ⟨12345, 2 ^ 49⟩ 6176).IsNaN = false :=
  decompose_compose true ⟨12345, 2 ^ 49⟩ 6176 (by decide) (Or.inl (by decide)) (by decide)
    (by decide)

/-- C8, as stated, fails. The pattern `lo = 0`, `hi = 0x6000_0000_0000_0000` is not
special and has bits 126-125 set, yet `decompose` returns the coefficient `2^113`, not 0. -/
theorem formB_coefficient_not_zero :
    (⟨0, 0x6000000000000000⟩ : Decimal).wf ∧
    (⟨0, 0x6000000000000000⟩ : Decimal).isSpecial = false ∧
    (0x6000000000000000 : Nat) &&& 0x6000000000000000 = 0x6000000000000000 ∧
    (⟨0, 0x6000000000000000⟩ : Decimal).decompose = (⟨0, 0x0002000000000000⟩, 0) ∧
    (⟨0, 0x6000000000000000⟩ : Decimal).decompose.1.toNat = 2 ^ 113 ∧
    (⟨0, 0x6000000000000000⟩ : Decimal).decompose.1.toNat ≠ 0 := by
  decide

/-- C8, amended. For every non-special `Decimal` whose bits 126-125 are both set,
`decompose` returns the form-B coefficient: the low 111 bits under the implicit prefix
`100`, that is `2^113 + (hi mod 2^47) * 2^64 + lo`. It lies in `[2^113, 2^113 + 2^111)`,
above `10^34 - 1`, and is never zero; the exponent is the field in bits 124-111. -/
theorem decompose_formB (d : Decimal) (hwf : d.wf) (hfin : d.isSpecial = false)
    (hB : d.hi &&& 0x6000000000000000 = 0x6000000000000000) :
    d.decompose = (⟨d.lo, 2 ^ 49 + d.hi % 2 ^ 47⟩, ((d.hi / 2 ^ 47 % 2 ^ 14 : Nat) : Int)) ∧
    d.decompose.1.toNat = 2 ^ 113 + (d.hi % 2 ^ 47) * 2 ^ 64 + d.lo ∧
    2 ^ 113 ≤ d.decompose.1.toNat ∧
    d.decompose.1.toNat < 2 ^ 113 + 2 ^ 111 ∧
    10 ^ 34 - 1 < d.decompose.1.toNat ∧
    d.decompose.1.toNat ≠ 0 ∧
    0 ≤ d.decompose.2 ∧ d.decompose.2 ≤ maxBiasedExponent := by
  have h3 : d.hi / 2 ^ 61 % 4 = 3 := by
    rw [and_6000] at hB; omega
  rw [isSpecial_false_iff] at hfin
  have hlo := hwf.1
  have hd : d.decompose
      = (⟨d.lo, 2 ^ 49 + d.hi % 2 ^ 47⟩, ((d.hi / 2 ^ 47 % 2 ^ 14 : Nat) : Int)) := by
    rw [decompose_eq, if_pos h3]
  rw [hd]
  simp only [uint128.toNat, maxBiasedExponent]
  refine ⟨trivial, ?_, ?_, ?_, ?_, ?_, ?_, ?_⟩ <;> omega

/-- The amended C8 on the counterexample's pattern. -/
theorem decompose_formB_witness :
    (⟨0, 0x6000000000000000⟩ : Decimal).decompose
      = (⟨0, 2 ^ 49 + 0x6000000000000000 % 2 ^ 47⟩,
          ((0x6000000000000000 / 2 ^ 47 % 2 ^ 14 : Nat) : Int)) ∧
    (⟨0, 0x6000000000000000⟩ : Decimal).decompose.1.toNat
      = 2 ^ 113 + (0x6000000000000000 % 2 ^ 47) * 2 ^ 64 + 0 ∧
    2 ^ 113 ≤ (⟨0, 0x6000000000000000⟩ : Decimal).decompose.1.toNat ∧
    (⟨0, 0x6000000000000000⟩ : Decimal).decompose.1.toNat < 2 ^ 113 + 2 ^ 111 ∧
    10 ^ 34 - 1 < (⟨0, 0x6000000000000000⟩ : Decimal).decompose.1.toNat ∧
    (⟨0, 0x6000000000000000⟩ : Decimal).decompose.1.toNat ≠ 0 ∧
    0 ≤ (⟨0, 0x6000000000000000⟩ : Decimal).decompose.2 ∧
    (⟨0, 0x6000000000000000⟩ : Decimal).decompose.2 ≤ maxBiasedExponent :=
  decompose_formB ⟨0, 0x6000000000000000⟩ (by decide) (by decide) (by decide)

/-- C9. `Neg` is an involution: for every `Decimal` (finite, zero, infinite or NaN)
negating twice gives back the same `lo` and `hi` words; and `Neg` does not change whether a
value is NaN, so the negation of a NaN is still NaN. -/
theorem Neg_Neg (d : Decimal) :
    d.Neg.Neg = d ∧ d.Neg.lo = d.lo ∧ d.Neg.IsNaN = d.IsNaN := by
  refine ⟨?_, rfl, ?_⟩
  · unfold Decimal.Neg
    simp only [Nat.xor_assoc, Nat.xor_self, Nat.xor_zero]
  · unfold Decimal.Neg Decimal.IsNaN
    have h0 : (0x8000000000000000 : Nat) &&& 0x7c00000000000000 = 0 := by decide
    simp only [Nat.and_xor_distrib_right, h0, Nat.xor_zero]

/-- C10. `Abs` is idempotent and clears the sign: for every `Decimal`, applying `Abs`
twice is bit-identical to applying it once, the sign bit of the result is clear, and the
result has the same decomposed coefficient and exponent and the same class (special or
finite, infinite, NaN) as the argument. -/
theorem Abs_idempotent (d : Decimal) :
    Abs (Abs d) = Abs d ∧ (Abs d).Signbit = false ∧
    (Abs d).decompose = d.decompose ∧
    (Abs d).isSpecial = d.isSpecial ∧ (Abs d).isInf = d.isInf ∧ (Abs d).IsNaN = d.IsNaN := by
  have habs : Abs d = ⟨d.lo, d.hi % 2 ^ 63⟩ := by
    unfold Abs; rw [and_7fff63]
  have habs2 : Abs (Abs d) = ⟨d.lo, d.hi % 2 ^ 63 % 2 ^ 63⟩ := by
    rw [habs]; unfold Abs; rw [and_7fff63]
  refine ⟨?_, ?_, ?_, ?_, ?_, ?_⟩
  · rw [habs2, habs, Nat.mod_mod]
  · rw [habs, Signbit_eq]; simp
  · rw [habs, decompose_eq, decompose_eq]
    simp only
    have e1 : d.hi % 2 ^ 63 / 2 ^ 61 % 4 = d.hi / 2 ^ 61 % 4 := by omega
    have e2 : d.hi % 2 ^ 63 % 2 ^ 47 = d.hi % 2 ^ 47 := by omega
    have e3 : d.hi % 2 ^ 63 / 2 ^ 47 % 2 ^ 14 = d.hi / 2 ^ 47 % 2 ^ 14 := by omega
    have e4 : d.hi % 2 ^ 63 % 2 ^ 49 = d.hi % 2 ^ 49 := by omega
    have e5 : d.hi % 2 ^ 63 / 2 ^ 49 % 2 ^ 14 = d.hi / 2 ^ 49 % 2 ^ 14 := by omega
    rw [e1, e2, e3, e4, e5]
  · rw [habs, isSpecial_eq, isSpecial_eq]
    have e1 : d.hi % 2 ^ 63 / 2 ^ 59 % 16 = d.hi / 2 ^ 59 % 16 := by omega
    simp only [e1]
  · rw [habs, isInf_eq, isInf_eq]
    have e1 : d.hi % 2 ^ 63 / 2 ^ 58 % 32 = d.hi / 2 ^ 58 % 32 := by omega
    simp only [e1]
  · rw [habs, IsNaN_eq, IsNaN_eq]
    have e1 : d.hi % 2 ^ 63 / 2 ^ 58 % 32 = d.hi / 2 ^ 58 % 32 := by omega
    simp only [e1]

/-! ## 128-bit values -/

theorem ofNat_wf (n : Nat) : (uint128.ofNat n).wf := by
  unfold uint128.wf uint128.ofNat
  constructor <;> exact Nat.mod_lt _ (by norm_num)

theorem toNat_ofNat (n : Nat) (h : n < 2 ^ 128) : (uint128.ofNat n).toNat = n := by
  unfold uint128.toNat uint128.ofNat
  simp only
  omega

theorem toNat_lt (u : uint128) (h : u.wf) : u.toNat < 2 ^ 128 := by
  unfold uint128.toNat
  unfold uint128.wf at h
  omega

theorem toNat_inj (u v : uint128) (hu : u.wf) (hv : v.wf) (h : u.toNat = v.toNat) : u = v := by
  obtain ⟨a, b⟩ := u
  obtain ⟨c, d⟩ := v
  unfold uint128.toNat at h
  unfold uint128.wf at hu hv
  simp only at h hu hv
  have h1 : a = c := by omega
  have h2 : b = d := by omega
  rw [h1, h2]

theorem mul64_10_toNat (u : uint128) (h : u.toNat < 2 ^ 113 + 2 ^ 111) :
    (u.mul64 10).toNat = u.toNat * 10 := by
  unfold uint128.mul64
  exact toNat_ofNat _ (by omega)

/-- The `break` test of the first loop, `tmp[1] > 0x0002_7fff_ffff_ffff`, on the product. -/
theorem mul64_10_break_iff (u : uint128) (h : u.toNat < 2 ^ 113 + 2 ^ 111) :
    (u.mul64 10).w1 > 0x00027fffffffffff ↔ 2 ^ 113 + 2 ^ 111 ≤ u.toNat * 10 := by
  have h1 := mul64_10_toNat u h
  have h2 : (u.mul64 10).wf := ofNat_wf (u.toNat * 10)
  have h3 : (u.mul64 10).toNat = (u.mul64 10).w1 * 2 ^ 64 + (u.mul64 10).w0 := rfl
  unfold uint128.wf at h2
  omega

theorem div10_toNat (u : uint128) (h : u.wf) :
    u.div10.1.toNat = u.toNat / 10 ∧ u.div10.2 = u.toNat % 10 ∧ u.div10.1.wf := by
  have hlt := toNat_lt u h
  unfold uint128.div10
  exact ⟨toNat_ofNat _ (by omega), rfl, ofNat_wf _⟩

/-! ## The loops of `Canonical` -/

theorem canonicalMulLoop_stop (fuel : Nat) (sig : uint128) (e : Int)
    (h : e ≤ exponentBias ∨ (sig.mul64 10).w1 > 0x00027fffffffffff) :
    canonicalMulLoop fuel sig e = (sig, e) := by
  cases fuel with
  | zero => rfl
  | succ n =>
    unfold canonicalMulLoop
    rcases h with h | h
    · rw [if_neg (by omega)]
    · rw [if_pos h]; simp

theorem canonicalDivLoop_stop (fuel : Nat) (sig : uint128) (e : Int)
    (h : exponentBias ≤ e ∨ sig.div10.2 ≠ 0) :
    canonicalDivLoop fuel sig e = (sig, e) := by
  cases fuel with
  | zero => rfl
  | succ n =>
    unfold canonicalDivLoop
    rcases h with h | h
    · rw [if_neg (by omega)]
    · rw [if_pos h]; simp

/-- What the first loop maintains, for any bound on its rounds, and where it stops when the
bound is at least `exp - exponentBias`. -/
theorem canonicalMulLoop_spec (fuel : Nat) : ∀ (sig : uint128) (e : Int), sig.wf →
    sig.toNat < 2 ^ 113 + 2 ^ 111 →
    (canonicalMulLoop fuel sig e).1.wf ∧
    (canonicalMulLoop fuel sig e).1.toNat < 2 ^ 113 + 2 ^ 111 ∧
    (canonicalMulLoop fuel sig e).2 ≤ e ∧
    (exponentBias ≤ e → exponentBias ≤ (canonicalMulLoop fuel sig e).2) ∧
    (canonicalMulLoop fuel sig e).1.toNat
      = sig.toNat * 10 ^ (e - (canonicalMulLoop fuel sig e).2).toNat ∧
    (e - exponentBias ≤ fuel →
      ((canonicalMulLoop fuel sig e).2 ≤ exponentBias ∨
        2 ^ 113 + 2 ^ 111 ≤ (canonicalMulLoop fuel sig e).1.toNat * 10)) := by
  induction fuel with
  | zero =>
    intro sig e hwf hc
    have hr : canonicalMulLoop 0 sig e = (sig, e) := rfl
    rw [hr]
    refine ⟨hwf, hc, le_refl _, fun h => h, ?_, ?_⟩
    · simp
    · intro h; left; simp only; omega
  | succ n ih =>
    intro sig e hwf hc
    by_cases he : e > exponentBias
    · by_cases hb : (sig.mul64 10).w1 > 0x00027fffffffffff
      · rw [canonicalMulLoop_stop _ _ _ (Or.inr hb)]
        refine ⟨hwf, hc, le_refl _, fun h => h, ?_, ?_⟩
        · simp
        · intro _; right; exact (mul64_10_break_iff sig hc).1 hb
      · have hstep : canonicalMulLoop (n + 1) sig e
            = canonicalMulLoop n (sig.mul64 10) (e - 1) := by
          rw [canonicalMulLoop, if_pos he, if_neg hb]
        have hprod := mul64_10_toNat sig hc
        have hlt : (sig.mul64 10).toNat < 2 ^ 113 + 2 ^ 111 := by
          have := (mul64_10_break_iff sig hc).not.1 hb
          omega
        obtain ⟨i1, i2, i3, i4, i5, i6⟩ := ih (sig.mul64 10) (e - 1) (ofNat_wf _) hlt
        rw [hstep]
        refine ⟨i1, i2, by omega, ?_, ?_, ?_⟩
        · intro _; exact i4 (by omega)
        · rw [i5, hprod]
          have hk : (e - (canonicalMulLoop n (sig.mul64 10) (e - 1)).2).toNat
              = (e - 1 - (canonicalMulLoop n (sig.mul64 10) (e - 1)).2).toNat + 1 := by omega
          rw [hk, pow_succ]; ring
        · intro hf; exact i6 (by omega)
    · rw [canonicalMulLoop_stop _ _ _ (Or.inl (by omega))]
      refine ⟨hwf, hc, le_refl _, fun h => h, ?_, ?_⟩
      · simp
      · intro _; left; simp only; omega

/-- What the second loop maintains, for any bound on its rounds, and where it stops when the
bound is at least `exponentBias - exp`. -/
theorem canonicalDivLoop_spec (fuel : Nat) : ∀ (sig : uint128) (e : Int), sig.wf →
    (canonicalDivLoop fuel sig e).1.wf ∧
    (canonicalDivLoop fuel sig e).1.toNat ≤ sig.toNat ∧
    e ≤ (canonicalDivLoop fuel sig e).2 ∧
    (e ≤ exponentBias → (canonicalDivLoop fuel sig e).2 ≤ exponentBias) ∧
    sig.toNat
      = (canonicalDivLoop fuel sig e).1.toNat * 10 ^ ((canonicalDivLoop fuel sig e).2 - e).toNat ∧
    (exponentBias - e ≤ fuel →
      (exponentBias ≤ (canonicalDivLoop fuel sig e).2 ∨
        (canonicalDivLoop fuel sig e).1.toNat % 10 ≠ 0)) := by
  induction fuel with
  | zero =>
    intro sig e hwf
    have hr : canonicalDivLoop 0 sig e = (sig, e) := rfl
    rw [hr]
    refine ⟨hwf, le_refl _, le_refl _, fun h => h, ?_, ?_⟩
    · simp
    · intro h; left; simp only; omega
  | succ n ih =>
    intro sig e hwf
    obtain ⟨hq, hrem, hqwf⟩ := div10_toNat sig hwf
    by_cases he : e < exponentBias
    · by_cases hb : sig.div10.2 ≠ 0
      · rw [canonicalDivLoop_stop _ _ _ (Or.inr hb)]
        refine ⟨hwf, le_refl _, le_refl _, fun h => h, ?_, ?_⟩
        · simp
        · intro _; right; simp only; omega
      · have hstep : canonicalDivLoop (n + 1) sig e
            = canonicalDivLoop n sig.div10.1 (e + 1) := by
          rw [canonicalDivLoop, if_pos he, if_neg hb]
        obtain ⟨i1, i2, i3, i4, i5, i6⟩ := ih sig.div10.1 (e + 1) hqwf
        rw [hstep]
        have hdiv : sig.toNat = sig.div10.1.toNat * 10 := by
          have : sig.toNat % 10 = 0 := by
            rw [← hrem]; exact not_not.1 hb
          omega
        refine ⟨i1, by omega, by omega, ?_, ?_, ?_⟩
        · intro _; exact i4 (by omega)
        · have hk : ((canonicalDivLoop n sig.div10.1 (e + 1)).2 - e).toNat
              = ((canonicalDivLoop n sig.div10.1 (e + 1)).2 - (e + 1)).toNat + 1 := by omega
          rw [hk, pow_succ, hdiv]
          conv_lhs => rw [i5]
          ring
        · intro hf; exact i6 (by omega)
    · rw [canonicalDivLoop_stop _ _ _ (Or.inl (by omega))]
      refine ⟨hwf, le_refl _, le_refl _, fun h => h, ?_, ?_⟩
      · simp
      · intro _; left; simp only; omega

/-- Any bound of at least `exp - exponentBias` rounds gives the first loop the same result:
the loop stops by its own test. -/
theorem canonicalMulLoop_fuel (f1 : Nat) : ∀ (f2 : Nat) (sig : uint128) (e : Int),
    e - exponentBias ≤ f1 → e - exponentBias ≤ f2 →
    canonicalMulLoop f1 sig e = canonicalMulLoop f2 sig e := by
  induction f1 with
  | zero =>
    intro f2 sig e h1 _
    rw [canonicalMulLoop_stop 0 sig e (Or.inl (by omega)),
      canonicalMulLoop_stop f2 sig e (Or.inl (by omega))]
  | succ f1 ih =>
    intro f2 sig e h1 h2
    cases f2 with
    | zero =>
      rw [canonicalMulLoop_stop _ sig e (Or.inl (by omega)),
        canonicalMulLoop_stop 0 sig e (Or.inl (by omega))]
    | succ f2 =>
      rw [canonicalMulLoop, canonicalMulLoop]
      by_cases he : e > exponentBias
      · rw [if_pos he, if_pos he]
        by_cases hb : (sig.mul64 10).w1 > 0x00027fffffffffff
        · rw [if_pos hb, if_pos hb]
        · rw [if_neg hb, if_neg hb]
          exact ih f2 _ _ (by omega) (by omega)
      · rw [if_neg he, if_neg he]

/-- Any bound of at least `exponentBias - exp` rounds gives the second loop the same result. -/
theorem canonicalDivLoop_fuel (f1 : Nat) : ∀ (f2 : Nat) (sig : uint128) (e : Int),
    exponentBias - e ≤ f1 → exponentBias - e ≤ f2 →
    canonicalDivLoop f1 sig e = canonicalDivLoop f2 sig e := by
  induction f1 with
  | zero =>
    intro f2 sig e h1 _
    rw [canonicalDivLoop_stop 0 sig e (Or.inl (by omega)),
      canonicalDivLoop_stop f2 sig e (Or.inl (by omega))]
  | succ f1 ih =>
    intro f2 sig e h1 h2
    cases f2 with
    | zero =>
      rw [canonicalDivLoop_stop _ sig e (Or.inl (by omega)),
        canonicalDivLoop_stop 0 sig e (Or.inl (by omega))]
    | succ f2 =>
      rw [canonicalDivLoop, canonicalDivLoop]
      by_cases he : e < exponentBias
      · rw [if_pos he, if_pos he]
        by_cases hb : sig.div10.2 ≠ 0
        · rw [if_pos hb, if_pos hb]
        · rw [if_neg hb, if_neg hb]
          exact ih f2 _ _ (by omega) (by omega)
      · rw [if_neg he, if_neg he]

theorem canonicalLoops_spec (sig : uint128) (e : Int) (hwf : sig.wf)
    (hc : sig.toNat < 2 ^ 113 + 2 ^ 111) (h0 : 0 ≤ e) :
    (canonicalLoops sig e).1.wf ∧
    IsCanonicalPair (canonicalLoops sig e).1.toNat (canonicalLoops sig e).2 ∧
    (canonicalLoops sig e).1.toNat * 10 ^ (canonicalLoops sig e).2.toNat
      = sig.toNat * 10 ^ e.toNat ∧
    (exponentBias ≤ e → exponentBias ≤ (canonicalLoops sig e).2 ∧ (canonicalLoops sig e).2 ≤ e) ∧
    (e ≤ exponentBias → e ≤ (canonicalLoops sig e).2 ∧ (canonicalLoops sig e).2 ≤ exponentBias ∧
      (canonicalLoops sig e).1.toNat ≤ sig.toNat) := by
  unfold IsCanonicalPair
  by_cases he : e ≤ exponentBias
  · have hm : canonicalMulLoop (e - exponentBias).toNat sig e = (sig, e) :=
      canonicalMulLoop_stop _ _ _ (Or.inl he)
    have hr : canonicalLoops sig e = canonicalDivLoop (exponentBias - e).toNat sig e := by
      unfold canonicalLoops; rw [hm]
    obtain ⟨d1, d2, d3, d4, d5, d6⟩ := canonicalDivLoop_spec (exponentBias - e).toNat sig e hwf
    rw [hr]
    have d4' := d4 he
    have d6' := d6 (by omega)
    refine ⟨d1, ⟨by omega, ?_⟩, ?_, ?_, fun _ => ⟨d3, d4', d2⟩⟩
    · rcases d6' with h | h
      · left; omega
      · by_cases hb : (canonicalDivLoop (exponentBias - e).toNat sig e).2 = exponentBias
        · left; exact hb
        · right; right; exact ⟨by omega, h⟩
    · have hk : (canonicalDivLoop (exponentBias - e).toNat sig e).2.toNat
          = ((canonicalDivLoop (exponentBias - e).toNat sig e).2 - e).toNat + e.toNat := by
        omega
      rw [hk, pow_add, ← mul_assoc, ← d5]
    · intro h; exact ⟨by omega, by omega⟩
  · have he' : exponentBias ≤ e := by omega
    obtain ⟨m1, m2, m3, m4, m5, m6⟩ :=
      canonicalMulLoop_spec (e - exponentBias).toNat sig e hwf hc
    have m4' := m4 he'
    have m6' := m6 (by omega)
    have hr : canonicalLoops sig e = canonicalMulLoop (e - exponentBias).toNat sig e := by
      unfold canonicalLoops
      exact canonicalDivLoop_stop _ _ _ (Or.inl m4')
    rw [hr]
    refine ⟨m1, ⟨m2, ?_⟩, ?_, fun _ => ⟨m4', m3⟩, fun h => absurd h he⟩
    · rcases m6' with h | h
      · left; omega
      · by_cases hb : (canonicalMulLoop (e - exponentBias).toNat sig e).2 = exponentBias
        · left; exact hb
        · right; left; exact ⟨by omega, h⟩
    · have hk : e.toNat = (e - (canonicalMulLoop (e - exponentBias).toNat sig e).2).toNat
          + (canonicalMulLoop (e - exponentBias).toNat sig e).2.toNat := by
        have hb0 : (0 : Int) ≤ exponentBias := by unfold exponentBias; omega
        omega
      rw [m5, hk, pow_add, mul_assoc]

/-- A pair at rest is left alone by the loops. -/
theorem canonicalLoops_fixed (sig : uint128) (e : Int)
    (h : IsCanonicalPair sig.toNat e) (hwf : sig.wf) : canonicalLoops sig e = (sig, e) := by
  obtain ⟨hc, hrest⟩ := h
  have hd := div10_toNat sig hwf
  have hm : canonicalMulLoop (e - exponentBias).toNat sig e = (sig, e) := by
    apply canonicalMulLoop_stop
    rcases hrest with h | ⟨_, h⟩ | ⟨h, _⟩
    · left; omega
    · right; exact (mul64_10_break_iff sig hc).2 h
    · left; omega
  unfold canonicalLoops
  rw [hm]
  apply canonicalDivLoop_stop
  rcases hrest with h | ⟨h, _⟩ | ⟨_, h⟩
  · left; omega
  · left; omega
  · right; rw [hd.2.1]; exact h

/-- Of two pairs with the same value, the one with the smaller exponent has a coefficient
that ends in 0 and is at least ten times the other. -/
theorem lower_exponent_pair (c1 c2 : Nat) (q1 q2 : Int) (h0 : 0 ≤ q1) (hlt : q1 < q2)
    (hv : c1 * 10 ^ q1.toNat = c2 * 10 ^ q2.toNat) : c1 % 10 = 0 ∧ c2 * 10 ≤ c1 := by
  obtain ⟨k, hk⟩ : ∃ k : Nat, q2.toNat = k + 1 + q1.toNat := ⟨(q2 - q1).toNat - 1, by omega⟩
  rw [hk, pow_add, ← mul_assoc] at hv
  have hc : c1 = c2 * 10 ^ (k + 1) := Nat.eq_of_mul_eq_mul_right (by positivity) hv
  rw [pow_succ, ← mul_assoc] at hc
  have hpos : 1 ≤ 10 ^ k := Nat.one_le_pow _ _ (by norm_num)
  have hle : c2 ≤ c2 * 10 ^ k := Nat.le_mul_of_pos_right _ (by omega)
  constructor <;> omega

/-- A value has at most one pair at rest. -/
theorem canonical_pair_unique (c1 c2 : Nat) (q1 q2 : Int) (h1 : IsCanonicalPair c1 q1)
    (h2 : IsCanonicalPair c2 q2) (hq1 : 0 ≤ q1) (hq2 : 0 ≤ q2)
    (hv : c1 * 10 ^ q1.toNat = c2 * 10 ^ q2.toNat) : c1 = c2 ∧ q1 = q2 := by
  obtain ⟨hc1, hr1⟩ := h1
  obtain ⟨hc2, hr2⟩ := h2
  rcases lt_trichotomy q1 q2 with hlt | heq | hgt
  · obtain ⟨ha, hb⟩ := lower_exponent_pair c1 c2 q1 q2 hq1 hlt hv
    exfalso
    rcases hr1 with h | ⟨h, _⟩ | ⟨_, h⟩
    · rcases hr2 with h' | ⟨_, h'⟩ | ⟨h', _⟩ <;> omega
    · rcases hr2 with h' | ⟨_, h'⟩ | ⟨h', _⟩ <;> omega
    · exact h ha
  · subst heq
    exact ⟨Nat.eq_of_mul_eq_mul_right (by positivity) hv, rfl⟩
  · obtain ⟨ha, hb⟩ := lower_exponent_pair c2 c1 q2 q1 hq2 hgt hv.symm
    exfalso
    rcases hr2 with h | ⟨h, _⟩ | ⟨_, h⟩
    · rcases hr1 with h' | ⟨_, h'⟩ | ⟨h', _⟩ <;> omega
    · rcases hr1 with h' | ⟨_, h'⟩ | ⟨h', _⟩ <;> omega
    · exact h ha

/-! ## `Canonical` -/

theorem decompose_finite (d : Decimal) (hwf : d.wf) (hfin : d.isSpecial = false) :
    d.decompose.1.wf ∧ d.decompose.1.toNat < 2 ^ 113 + 2 ^ 111 ∧
    0 ≤ d.decompose.2 ∧ d.decompose.2 ≤ 12287 := by
  rw [isSpecial_false_iff] at hfin
  have hlo := hwf.1
  rw [decompose_eq]
  by_cases hB : d.hi / 2 ^ 61 % 4 = 3
  · rw [if_pos hB]
    simp only [uint128.wf, uint128.toNat]
    refine ⟨⟨hlo, ?_⟩, ?_, ?_, ?_⟩ <;> omega
  · rw [if_neg hB]
    simp only [uint128.wf, uint128.toNat]
    refine ⟨⟨hlo, ?_⟩, ?_, ?_, ?_⟩ <;> omega

theorem Canonical_eq (d : Decimal) (hfin : d.isSpecial = false) :
    d.Canonical = compose d.Signbit (canonicalLoops d.decompose.1 d.decompose.2).1
      (canonicalLoops d.decompose.1 d.decompose.2).2 := by
  unfold Decimal.Canonical canonicalLoops
  simp [hfin]

/-- The canonical form of a finite value: what it decomposes to, its sign and its class. -/
theorem Canonical_finite (d : Decimal) (hwf : d.wf) (hfin : d.isSpecial = false) :
    d.Canonical.decompose = canonicalLoops d.decompose.1 d.decompose.2 ∧
    d.Canonical.Signbit = d.Signbit ∧ d.Canonical.isSpecial = false ∧ d.Canonical.wf := by
  obtain ⟨f1, f2, f3, f4⟩ := decompose_finite d hwf hfin
  obtain ⟨s1, ⟨s2, _⟩, _, s4, s5⟩ := canonicalLoops_spec d.decompose.1 d.decompose.2 f1 f2 f3
  have hb : exponentBias = 6176 := rfl
  have hr0 : 0 ≤ (canonicalLoops d.decompose.1 d.decompose.2).2 := by
    rcases le_total exponentBias d.decompose.2 with h | h
    · have := s4 h; omega
    · have := s5 h; omega
  have hr1 : (canonicalLoops d.decompose.1 d.decompose.2).2 ≤ 12287 := by
    rcases le_total exponentBias d.decompose.2 with h | h
    · have := s4 h; omega
    · have := s5 h; omega
  obtain ⟨n, hn⟩ := Int.eq_ofNat_of_zero_le hr0
  rw [Canonical_eq d hfin, hn]
  have := compose_roundtrip d.Signbit (canonicalLoops d.decompose.1 d.decompose.2).1 n
    s1 s2 (by omega)
  obtain ⟨c1, c2, c3, c4⟩ := this
  refine ⟨?_, c2, c3, c4⟩
  rw [c1]
  exact Prod.ext rfl hn.symm

/-- Equal values as rationals are equal values as naturals, for exponents that are not
negative. -/
theorem value_eq_iff (c1 c2 : Nat) (q1 q2 : Int) (h1 : 0 ≤ q1) (h2 : 0 ≤ q2) :
    ((c1 : ℚ) * (10 : ℚ) ^ q1 = (c2 : ℚ) * (10 : ℚ) ^ q2) ↔
      c1 * 10 ^ q1.toNat = c2 * 10 ^ q2.toNat := by
  obtain ⟨n1, rfl⟩ := Int.eq_ofNat_of_zero_le h1
  obtain ⟨n2, rfl⟩ := Int.eq_ofNat_of_zero_le h2
  simp only [zpow_natCast, Int.toNat_ofNat]
  norm_cast

/-- C3. `Canonical` is idempotent bit for bit: for every 128-bit pattern (finite in form
A or form B, zero, infinite, NaN with any payload) canonicalising the canonical form gives
exactly the same `lo` and `hi` words. -/
theorem Canonical_idempotent (d : Decimal) (hwf : d.wf) :
    d.Canonical.Canonical = d.Canonical ∧
    d.Canonical.Canonical.lo = d.Canonical.lo ∧ d.Canonical.Canonical.hi = d.Canonical.hi := by
  have key : d.Canonical.Canonical = d.Canonical := by
    by_cases hsp : d.isSpecial = true
    · have h1 : d.Canonical = nan 0 0 0 ∨ d.Canonical = inf true ∨ d.Canonical = inf false := by
        unfold Decimal.Canonical
        rw [if_pos hsp]
        cases d.IsNaN
        · cases d.Signbit <;> simp
        · simp
      rcases h1 with h | h | h <;> rw [h] <;> decide
    · have hfin : d.isSpecial = false := by simpa using hsp
      obtain ⟨f1, f2, f3, f4⟩ := decompose_finite d hwf hfin
      obtain ⟨s1, s2, _, _, _⟩ := canonicalLoops_spec d.decompose.1 d.decompose.2 f1 f2 f3
      obtain ⟨c1, c2, c3, c4⟩ := Canonical_finite d hwf hfin
      rw [Canonical_eq d.Canonical c3, c1, c2, canonicalLoops_fixed _ _ s2 s1]
      exact (Canonical_eq d hfin).symm
  exact ⟨key, by rw [key], by rw [key]⟩

/-- C3 on a non-canonical NaN: sign bit set and every payload bit set. -/
theorem Canonical_idempotent_witness :
    (⟨0xffffffffffffffff, 0xffffffffffffffff⟩ : Decimal).Canonical.Canonical
      = (⟨0xffffffffffffffff, 0xffffffffffffffff⟩ : Decimal).Canonical ∧
    (⟨0xffffffffffffffff, 0xffffffffffffffff⟩ : Decimal).Canonical.Canonical.lo
      = (⟨0xffffffffffffffff, 0xffffffffffffffff⟩ : Decimal).Canonical.lo ∧
    (⟨0xffffffffffffffff, 0xffffffffffffffff⟩ : Decimal).Canonical.Canonical.hi
      = (⟨0xffffffffffffffff, 0xffffffffffffffff⟩ : Decimal).Canonical.hi :=
  Canonical_idempotent ⟨0xffffffffffffffff, 0xffffffffffffffff⟩ (by decide)

/-- The loops keep the value: the pair `Canonical` composes has the value of the pair it
decomposed, and is a pair at rest. -/
theorem Canonical_pair (d : Decimal) (hwf : d.wf) (hfin : d.isSpecial = false) :
    IsCanonicalPair d.Canonical.decompose.1.toNat d.Canonical.decompose.2 ∧
    0 ≤ d.Canonical.decompose.2 ∧
    d.Canonical.decompose.1.toNat * 10 ^ d.Canonical.decompose.2.toNat
      = d.decompose.1.toNat * 10 ^ d.decompose.2.toNat ∧
    d.Canonical.decompose.1.wf ∧
    (d.decompose.2 ≤ exponentBias → d.Canonical.decompose.1.toNat ≤ d.decompose.1.toNat) := by
  obtain ⟨f1, f2, f3, f4⟩ := decompose_finite d hwf hfin
  obtain ⟨s1, s2, s3, s4, s5⟩ := canonicalLoops_spec d.decompose.1 d.decompose.2 f1 f2 f3
  obtain ⟨c1, c2, c3, c4⟩ := Canonical_finite d hwf hfin
  rw [c1]
  refine ⟨s2, ?_, s3, s1, fun h => (s5 h).2.2⟩
  have hb : exponentBias = 6176 := rfl
  rcases le_total exponentBias d.decompose.2 with h | h
  · have := s4 h; omega
  · have := s5 h; omega

/-- C4. `Canonical` picks a single representation per value: two finite `Decimal`s with
the same sign bit and the same exact numeric value (coefficient times ten to the exponent,
compared as rationals, both taken from `decompose`) have bit-identical canonical forms. -/
theorem Canonical_unique (a b : Decimal) (ha : a.wf) (hb : b.wf)
    (hfa : a.isSpecial = false) (hfb : b.isSpecial = false)
    (hsign : a.Signbit = b.Signbit)
    (hval : (a.decompose.1.toNat : ℚ) * (10 : ℚ) ^ a.decompose.2
      = (b.decompose.1.toNat : ℚ) * (10 : ℚ) ^ b.decompose.2) :
    a.Canonical = b.Canonical := by
  obtain ⟨a1, a2, a3, a4, _⟩ := Canonical_pair a ha hfa
  obtain ⟨b1, b2, b3, b4, _⟩ := Canonical_pair b hb hfb
  obtain ⟨fa1, fa2, fa3, fa4⟩ := decompose_finite a ha hfa
  obtain ⟨fb1, fb2, fb3, fb4⟩ := decompose_finite b hb hfb
  have hv := (value_eq_iff _ _ _ _ fa3 fb3).1 hval
  obtain ⟨u1, u2⟩ := canonical_pair_unique _ _ _ _ a1 b1 a2 b2 (by rw [a3, b3, hv])
  have u3 := toNat_inj _ _ a4 b4 u1
  obtain ⟨ca, _, _, _⟩ := Canonical_finite a ha hfa
  obtain ⟨cb, _, _, _⟩ := Canonical_finite b hb hfb
  rw [ca] at u2 u3
  rw [cb] at u2 u3
  rw [Canonical_eq a hfa, Canonical_eq b hfb, hsign, u2, u3]

/-- C4 on coefficient 10 with biased exponent 0 and coefficient 1 with biased exponent 1:
both canonicalise to the same words. -/
theorem Canonical_unique_witness :
    (⟨10, 0⟩ : Decimal).Canonical = (⟨1, 0x0002000000000000⟩ : Decimal).Canonical :=
  Canonical_unique ⟨10, 0⟩ ⟨1, 0x0002000000000000⟩ (by decide) (by decide)
    (by decide) (by decide) (by decide)
    ((value_eq_iff _ _ _ _ (by decide) (by decide)).2 (by decide))

/-- C5. `Canonical` preserves the number: for every finite `Decimal`, the canonical form
is finite, has the same sign bit, and its coefficient times ten to its exponent equals that
of the argument exactly (no non-zero digit is lost); and on every state the first loop
reaches, the 128-bit multiplication by 10 gives the exact product (it never wraps). -/
theorem Canonical_preserves_value (d : Decimal) (hwf : d.wf) (hfin : d.isSpecial = false) :
    d.Canonical.isSpecial = false ∧ d.Canonical.Signbit = d.Signbit ∧
    (d.Canonical.decompose.1.toNat : ℚ) * (10 : ℚ) ^ d.Canonical.decompose.2
      = (d.decompose.1.toNat : ℚ) * (10 : ℚ) ^ d.decompose.2 ∧
    ∀ k : Nat, ((canonicalMulLoop k d.decompose.1 d.decompose.2).1.mul64 10).toNat
      = (canonicalMulLoop k d.decompose.1 d.decompose.2).1.toNat * 10 := by
  obtain ⟨f1, f2, f3, f4⟩ := decompose_finite d hwf hfin
  obtain ⟨_, c2, c3, _⟩ := Canonical_finite d hwf hfin
  obtain ⟨_, p2, p3, _, _⟩ := Canonical_pair d hwf hfin
  refine ⟨c3, c2, (value_eq_iff _ _ _ _ p2 f3).2 p3, ?_⟩
  intro k
  exact mul64_10_toNat _ (canonicalMulLoop_spec k d.decompose.1 d.decompose.2 f1 f2).2.1

/-- C5 on `1 * 10^1` (biased exponent 6177), which the first loop rewrites. -/
theorem Canonical_preserves_value_witness :
    (⟨1, 0x3042000000000000⟩ : Decimal).Canonical.isSpecial = false ∧
    (⟨1, 0x3042000000000000⟩ : Decimal).Canonical.Signbit
      = (⟨1, 0x3042000000000000⟩ : Decimal).Signbit ∧
    ((⟨1, 0x3042000000000000⟩ : Decimal).Canonical.decompose.1.toNat : ℚ)
        * (10 : ℚ) ^ (⟨1, 0x3042000000000000⟩ : Decimal).Canonical.decompose.2
      = ((⟨1, 0x3042000000000000⟩ : Decimal).decompose.1.toNat : ℚ)
        * (10 : ℚ) ^ (⟨1, 0x3042000000000000⟩ : Decimal).decompose.2 ∧
    ∀ k : Nat,
      ((canonicalMulLoop k (⟨1, 0x3042000000000000⟩ : Decimal).decompose.1
          (⟨1, 0x3042000000000000⟩ : Decimal).decompose.2).1.mul64 10).toNat
      = (canonicalMulLoop k (⟨1, 0x3042000000000000⟩ : Decimal).decompose.1
          (⟨1, 0x3042000000000000⟩ : Decimal).decompose.2).1.toNat * 10 :=
  Canonical_preserves_value ⟨1, 0x3042000000000000⟩ (by decide) (by decide)

/-- The first half of C6 on naturals: no pair of the same value with a coefficient of at
most 34 digits has its exponent nearer the bias than a pair at rest. -/
theorem canonical_pair_closest (c' c : Nat) (q' q : Int) (hp : IsCanonicalPair c' q')
    (hq' : 0 ≤ q') (hc : c ≤ 10 ^ 34 - 1) (hq : 0 ≤ q)
    (hv : c * 10 ^ q.toNat = c' * 10 ^ q'.toNat) :
    |q' - exponentBias| ≤ |q - exponentBias| := by
  obtain ⟨_, hrest⟩ := hp
  rcases hrest with h | ⟨h1, h2⟩ | ⟨h1, h2⟩
  · rw [h, sub_self, abs_zero]; exact abs_nonneg _
  · have hle : q' ≤ q := by
      by_contra hcon
      have := lower_exponent_pair c c' q q' hq (by omega) hv
      omega
    rw [abs_of_nonneg (by omega), abs_of_nonneg (by omega)]
    omega
  · have hle : q ≤ q' := by
      by_contra hcon
      have := lower_exponent_pair c' c q' q hq' (by omega) hv.symm
      omega
    rw [abs_of_nonpos (by omega), abs_of_nonpos (by omega)]
    omega

/-- C6. The exponent of the canonical form is the closest to zero that is possible: for
every finite `Decimal`, every pair of a coefficient of at most 34 digits and a biased
exponent in `[0, 12287]` with the value of the canonical form has its exponent at least as
far from the bias 6176 as the canonical form has; in particular every zero, and every
integer value of at most 34 digits, canonicalises to unbiased exponent 0. -/
theorem Canonical_exponent_closest (d : Decimal) (hwf : d.wf) (hfin : d.isSpecial = false) :
    (∀ (c : Nat) (q : Int), c ≤ 10 ^ 34 - 1 → 0 ≤ q → q ≤ maxBiasedExponent →
      (c : ℚ) * (10 : ℚ) ^ q
        = (d.Canonical.decompose.1.toNat : ℚ) * (10 : ℚ) ^ d.Canonical.decompose.2 →
      |d.Canonical.decompose.2 - exponentBias| ≤ |q - exponentBias|) ∧
    (d.decompose.1.toNat = 0 → d.Canonical.decompose.2 - exponentBias = 0) ∧
    (∀ N : Nat, N ≤ 10 ^ 34 - 1 →
      (d.decompose.1.toNat : ℚ) * (10 : ℚ) ^ (d.decompose.2 - exponentBias) = (N : ℚ) →
      d.Canonical.decompose.2 - exponentBias = 0) := by
  obtain ⟨f1, f2, f3, f4⟩ := decompose_finite d hwf hfin
  obtain ⟨p1, p2, p3, _, _⟩ := Canonical_pair d hwf hfin
  have main : ∀ (c : Nat) (q : Int), c ≤ 10 ^ 34 - 1 → 0 ≤ q →
      (c : ℚ) * (10 : ℚ) ^ q
        = (d.Canonical.decompose.1.toNat : ℚ) * (10 : ℚ) ^ d.Canonical.decompose.2 →
      |d.Canonical.decompose.2 - exponentBias| ≤ |q - exponentBias| := by
    intro c q hc hq hv
    exact canonical_pair_closest _ c _ q p1 p2 hc hq ((value_eq_iff _ _ _ _ hq p2).1 hv)
  have hpres : (d.Canonical.decompose.1.toNat : ℚ) * (10 : ℚ) ^ d.Canonical.decompose.2
      = (d.decompose.1.toNat : ℚ) * (10 : ℚ) ^ d.decompose.2 :=
    (value_eq_iff _ _ _ _ p2 f3).2 p3
  refine ⟨fun c q hc hq _ hv => main c q hc hq hv, ?_, ?_⟩
  · intro hz
    have h := main 0 exponentBias (by norm_num) (by decide) (by
      rw [hpres, hz]; simp)
    rw [sub_self, abs_zero] at h
    exact abs_eq_zero.1 (le_antisymm h (abs_nonneg _))
  · intro N hN hv
    have h := main N exponentBias hN (by decide) (by
      rw [hpres, ← hv, zpow_sub₀ (by norm_num : (10 : ℚ) ≠ 0)]
      have hne : (10 : ℚ) ^ exponentBias ≠ 0 := zpow_ne_zero _ (by norm_num)
      field_simp)
    rw [sub_self, abs_zero] at h
    exact abs_eq_zero.1 (le_antisymm h (abs_nonneg _))

/-- C6 on `1 * 10^1` (biased exponent 6177). -/
theorem Canonical_exponent_closest_witness :
    (∀ (c : Nat) (q : Int), c ≤ 10 ^ 34 - 1 → 0 ≤ q → q ≤ maxBiasedExponent →
      (c : ℚ) * (10 : ℚ) ^ q
        = ((⟨1, 0x3042000000000000⟩ : Decimal).Canonical.decompose.1.toNat : ℚ)
          * (10 : ℚ) ^ (⟨1, 0x3042000000000000⟩ : Decimal).Canonical.decompose.2 →
      |(⟨1, 0x3042000000000000⟩ : Decimal).Canonical.decompose.2 - exponentBias|
        ≤ |q - exponentBias|) ∧
    ((⟨1, 0x3042000000000000⟩ : Decimal).decompose.1.toNat = 0 →
      (⟨1, 0x3042000000000000⟩ : Decimal).Canonical.decompose.2 - exponentBias = 0) ∧
    (∀ N : Nat, N ≤ 10 ^ 34 - 1 →
      ((⟨1, 0x3042000000000000⟩ : Decimal).decompose.1.toNat : ℚ)
          * (10 : ℚ) ^ ((⟨1, 0x3042000000000000⟩ : Decimal).decompose.2 - exponentBias)
        = (N : ℚ) →
      (⟨1, 0x3042000000000000⟩ : Decimal).Canonical.decompose.2 - exponentBias = 0) :=
  Canonical_exponent_closest ⟨1, 0x3042000000000000⟩ (by decide) (by decide)

theorem byte_0 : byte '0' = 48 := rfl

theorem byte_9 : byte '9' = 57 := rfl

theorem leValue_append_single (l : List Nat) (b : Nat) :
    leValue (l ++ [b]) = leValue l + (b - 48) * 10 ^ l.length := by
  induction l with
  | nil => simp [leValue, byte_0]
  | cons a l ih =>
    have h : leValue ((a :: l) ++ [b]) = (a - byte '0') + 10 * leValue (l ++ [b]) := rfl
    rw [h, ih]
    simp only [leValue, List.length_cons, pow_succ, byte_0]
    ring

theorem digitsValue_append_single (l : List Nat) (b : Nat) :
    digitsValue (l ++ [b]) = digitsValue l * 10 + (b - 48) := by
  unfold digitsValue
  simp [List.foldl_append, byte_0]

theorem digitsValue_reverse (l : List Nat) : digitsValue l.reverse = leValue l := by
  induction l with
  | nil => rfl
  | cons a l ih =>
    rw [List.reverse_cons, digitsValue_append_single, ih]
    simp only [leValue, byte_0]
    omega

theorem digitsValue_append (a b : List Nat) :
    digitsValue (a ++ b) = digitsValue a * 10 ^ b.length + digitsValue b := by
  induction b using List.reverseRecOn with
  | nil => simp [digitsValue]
  | append_singleton b x ih =>
    rw [← List.append_assoc, digitsValue_append_single, ih, digitsValue_append_single,
      List.length_append, List.length_singleton, pow_succ]
    ring

theorem digitsValue_zeros (k : Nat) : digitsValue (List.replicate k 48) = 0 := by
  induction k with
  | zero => rfl
  | succ k ih =>
    rw [List.replicate_succ', digitsValue_append_single, ih]

theorem take_set_self (l : List Nat) (n b : Nat) (h : n < l.length) :
    (l.set n b).take (n + 1) = l.take n ++ [b] := by
  induction l generalizing n with
  | nil => simp at h
  | cons a l ih =>
    cases n with
    | zero => simp
    | succ n =>
      simp only [List.set_cons_succ, List.take_succ_cons, List.cons_append, List.cons.injEq,
        true_and]
      exact ih n (by simpa using h)

theorem take_set_ge (l : List Nat) (n m b : Nat) (h : m ≤ n) :
    (l.set n b).take m = l.take m := by
  induction l generalizing n m with
  | nil => simp
  | cons a l ih =>
    cases m with
    | zero => simp
    | succ m =>
      cases n with
      | zero => omega
      | succ n =>
        simp only [List.set_cons_succ, List.take_succ_cons, List.cons.injEq, true_and]
        exact ih n m (by omega)

theorem setDig_some (dig : List Nat) (n b : Nat) (h : n < dig.length) :
    setDig dig n b = some (dig.set n b) := by
  unfold setDig; rw [if_pos h]

set_option maxRecDepth 100000 in
/-- The entry of `digitPairs` at index `r` is the two digits of `r`. -/
theorem digitPairs_spec : ∀ r, r < 100 →
    digitPairs[r]? = some (digitPairs.getD r ('0', '0')) ∧
    byte (digitPairs.getD r ('0', '0')).1 = 48 + r / 10 ∧
    byte (digitPairs.getD r ('0', '0')).2 = 48 + r % 10 ∧
    ((digitPairs.getD r ('0', '0')).1 = '0' ↔ r / 10 = 0) ∧
    ((digitPairs.getD r ('0', '0')).2 = '0' ↔ r % 10 = 0) := by
  decide

theorem toNat_eq_zero_iff (sig : uint128) : sig = ⟨0, 0⟩ ↔ sig.toNat = 0 := by
  obtain ⟨a, b⟩ := sig
  unfold uint128.toNat
  simp only [uint128.mk.injEq]
  omega

theorem div100_toNat (u : uint128) (h : u.wf) :
    u.div100.1.toNat = u.toNat / 100 ∧ u.div100.2 = u.toNat % 100 ∧ u.div100.1.wf := by
  have hlt := toNat_lt u h
  unfold uint128.div100
  exact ⟨toNat_ofNat _ (by omega), rfl, ofNat_wf _⟩

theorem isDigitByte_add (x : Nat) (h : x ≤ 9) : isDigitByte (48 + x) := by
  unfold isDigitByte
  rw [byte_0, byte_9]
  omega

theorem pow_two_le_of_ten_le (s m : Nat) (h10 : 10 ≤ s) (hm : s < 10 ^ m) :
    ∃ k, m = k + 2 ∧ s / 100 < 10 ^ k := by
  match m, hm with
  | 0, hm => simp at hm; omega
  | 1, hm => simp at hm; omega
  | k + 2, hm =>
    refine ⟨k, rfl, ?_⟩
    rw [pow_add] at hm
    have : (10 : Nat) ^ 2 = 100 := by norm_num
    rw [this] at hm
    exact Nat.div_lt_of_lt_mul (by rw [Nat.mul_comm]; exact hm)

/-- The division loop of `Decimal.digits` does not fail, and what it returns: with fewer
than `m` digits left to produce and room for them in the array, it ends with `n'` digits,
least significant first, whose value scaled by the zeros it dropped is the value it started
from plus the value of `sig` at position `n`. -/
theorem digitsLoop_spec (fuel : Nat) : ∀ (sig : uint128) (n : Nat) (exp : Int)
    (dig : List Nat) (m : Nat), sig.wf → sig.toNat ≤ fuel → sig.toNat < 10 ^ m →
    n + m ≤ 39 → dig.length = 39 → (∀ b ∈ dig.take n, isDigitByte b) →
    ∃ n' exp' dig', digitsLoop fuel sig n exp dig = some (n', exp', dig') ∧
      dig'.length = 39 ∧ n ≤ n' ∧ exp ≤ exp' ∧ (n' : Int) + (exp' - exp) ≤ (n : Int) + m ∧
      (0 < n → exp' = exp) ∧ (sig.toNat ≠ 0 → n < n') ∧
      (sig.toNat = 0 → n' = n ∧ exp' = exp) ∧
      (∀ b ∈ dig'.take n', isDigitByte b) ∧
      leValue (dig'.take n') * 10 ^ (exp' - exp).toNat
        = leValue (dig.take n) + sig.toNat * 10 ^ n := by
  induction fuel with
  | zero =>
    intro sig n exp dig m _ hfuel _ _ hlen hdig
    have hs0 : sig.toNat = 0 := by omega
    refine ⟨n, exp, dig, rfl, hlen, le_refl _, le_refl _, by omega, fun _ => rfl,
      fun h => absurd hs0 h, fun _ => ⟨rfl, rfl⟩, hdig, ?_⟩
    simp [hs0]
  | succ fuel ih =>
    intro sig n exp dig m hwf hfuel hm hnm hlen hdig
    by_cases hs0 : sig.toNat = 0
    · have hsig : sig = ⟨0, 0⟩ := (toNat_eq_zero_iff sig).2 hs0
      have hr : digitsLoop (fuel + 1) sig n exp dig = some (n, exp, dig) := by
        rw [digitsLoop, if_neg (not_not.2 hsig)]
      refine ⟨n, exp, dig, hr, hlen, le_refl _, le_refl _, by omega, fun _ => rfl,
        fun h => absurd hs0 h, fun _ => ⟨rfl, rfl⟩, hdig, ?_⟩
      simp [hs0]
    · have hsig : sig ≠ ⟨0, 0⟩ := fun h => hs0 ((toNat_eq_zero_iff sig).1 h)
      obtain ⟨hq, hrem, hqwf⟩ := div100_toNat sig hwf
      have hqfuel : sig.div100.1.toNat ≤ fuel := by omega
      have hntake : (dig.take n).length = n := by
        rw [List.length_take]; omega
      by_cases ha : n = 0 ∧ sig.div100.2 = 0
      · -- a pair of trailing zeros: dropped
        obtain ⟨hn0, hr0⟩ := ha
        obtain ⟨k, hk, hqk⟩ := pow_two_le_of_ten_le sig.toNat m (by omega) hm
        have hstep : digitsLoop (fuel + 1) sig n exp dig
            = digitsLoop fuel sig.div100.1 n (exp + 2) dig := by
          rw [digitsLoop, if_pos hsig, if_pos ⟨hn0, hr0⟩]
        obtain ⟨n', exp', dig', e1, e2, e3, e4, e5, e6, e7, e8, e9, e10⟩ :=
          ih sig.div100.1 n (exp + 2) dig k hqwf hqfuel (by rw [hq]; exact hqk) (by omega)
            hlen hdig
        refine ⟨n', exp', dig', by rw [hstep, e1], e2, e3, by omega, by omega,
          fun h => by omega, fun _ => ?_, fun h => absurd h hs0, e9, ?_⟩
        · by_cases hq0 : sig.div100.1.toNat = 0
          · omega
          · have := e7 hq0; omega
        · have hk2 : (exp' - exp).toNat = (exp' - (exp + 2)).toNat + 2 := by omega
          have hs : sig.toNat = sig.div100.1.toNat * 100 := by omega
          have hl0 : leValue (dig.take n) = 0 := by rw [hn0]; rfl
          rw [hk2, pow_add, ← mul_assoc, e10, hs, hl0]
          ring
      · obtain ⟨t1, t2, t3, t4, t5⟩ := digitPairs_spec sig.div100.2 (by omega)
        have hm1 : 1 ≤ m := by
          rcases m with _ | m
          · simp at hm; omega
          · omega
        have hn39 : n < dig.length := by omega
        by_cases hb : n = 0 ∧ (digitPairs.getD sig.div100.2 ('0', '0')).2 = '0'
        · -- a single trailing zero: dropped, the other digit of the pair kept
          obtain ⟨hn0, hp0⟩ := hb
          have hr10 : sig.div100.2 % 10 = 0 := t5.1 hp0
          have hrne : sig.div100.2 ≠ 0 := fun h => ha ⟨hn0, h⟩
          obtain ⟨k, hk, hqk⟩ := pow_two_le_of_ten_le sig.toNat m (by omega) hm
          have hstep : digitsLoop (fuel + 1) sig n exp dig
              = digitsLoop fuel sig.div100.1 (n + 1) (exp + 1)
                  (dig.set n (48 + sig.div100.2 / 10)) := by
            rw [digitsLoop, if_pos hsig, if_neg ha, t1]
            simp only
            rw [if_pos ⟨hn0, hp0⟩, t2, setDig_some _ _ _ hn39]
            rfl
          have hdig1 : ∀ b ∈ (dig.set n (48 + sig.div100.2 / 10)).take (n + 1),
              isDigitByte b := by
            intro b hb
            rw [take_set_self _ _ _ hn39, List.mem_append, List.mem_singleton] at hb
            rcases hb with hb | hb
            · exact hdig b hb
            · rw [hb]; exact isDigitByte_add _ (by omega)
          obtain ⟨n', exp', dig', e1, e2, e3, e4, e5, e6, e7, e8, e9, e10⟩ :=
            ih sig.div100.1 (n + 1) (exp + 1) (dig.set n (48 + sig.div100.2 / 10)) k hqwf
              hqfuel (by rw [hq]; exact hqk) (by omega) (by rw [List.length_set]; exact hlen)
              hdig1
          have e6' := e6 (by omega)
          refine ⟨n', exp', dig', by rw [hstep, e1], e2, by omega, by omega, by omega,
            fun h => by omega, fun _ => by omega, fun h => absurd h hs0, e9, ?_⟩
          have hk1 : (exp' - exp).toNat = 1 := by omega
          have hk0 : (exp' - (exp + 1)).toNat = 0 := by omega
          rw [hk0, take_set_self _ _ _ hn39, leValue_append_single, hntake] at e10
          have hs : sig.toNat = sig.div100.1.toNat * 100 + sig.div100.2 / 10 * 10 := by omega
          have h48 : 48 + sig.div100.2 / 10 - 48 = sig.div100.2 / 10 := by omega
          rw [h48] at e10
          rw [hk1, hs]
          simp only [pow_zero, mul_one, pow_succ] at e10 ⊢
          rw [e10, hn0]
          simp only [pow_zero, mul_one, List.take_zero, leValue]
          ring
        · by_cases hc : (digitPairs.getD sig.div100.2 ('0', '0')).1 = '0' ∧
              sig.div100.1 = ⟨0, 0⟩
          · -- the last digit, alone in its pair
            obtain ⟨hp0, hq0⟩ := hc
            have hr10 : sig.div100.2 / 10 = 0 := t4.1 hp0
            have hq0' : sig.div100.1.toNat = 0 := (toNat_eq_zero_iff _).1 hq0
            have hstep : digitsLoop (fuel + 1) sig n exp dig
                = digitsLoop fuel sig.div100.1 (n + 1) exp
                    (dig.set n (48 + sig.div100.2 % 10)) := by
              rw [digitsLoop, if_pos hsig, if_neg ha, t1]
              simp only
              rw [if_neg hb, if_pos ⟨hp0, hq0⟩, t3, setDig_some _ _ _ hn39]
              rfl
            have hdig1 : ∀ b ∈ (dig.set n (48 + sig.div100.2 % 10)).take (n + 1),
                isDigitByte b := by
              intro b hb
              rw [take_set_self _ _ _ hn39, List.mem_append, List.mem_singleton] at hb
              rcases hb with hb | hb
              · exact hdig b hb
              · rw [hb]; exact isDigitByte_add _ (by omega)
            obtain ⟨n', exp', dig', e1, e2, e3, e4, e5, e6, e7, e8, e9, e10⟩ :=
              ih sig.div100.1 (n + 1) exp (dig.set n (48 + sig.div100.2 % 10)) 0 hqwf
                hqfuel (by rw [hq0']; norm_num) (by omega)
                (by rw [List.length_set]; exact hlen) hdig1
            have e6' := e6 (by omega)
            obtain ⟨e8a, e8b⟩ := e8 hq0'
            refine ⟨n', exp', dig', by rw [hstep, e1], e2, by omega, by omega, by omega,
              fun _ => e6', fun _ => by omega, fun h => absurd h hs0, e9, ?_⟩
            rw [take_set_self _ _ _ hn39, leValue_append_single, hntake, hq0'] at e10
            have hs : sig.toNat = sig.div100.2 % 10 := by omega
            have h48 : 48 + sig.div100.2 % 10 - 48 = sig.div100.2 % 10 := by omega
            rw [h48] at e10
            rw [e10, hs]
            simp
          · -- a full pair
            have h10 : 10 ≤ sig.toNat := by
              by_contra hlt
              apply hc
              refine ⟨t4.2 (by omega), (toNat_eq_zero_iff _).2 (by omega)⟩
            obtain ⟨k, hk, hqk⟩ := pow_two_le_of_ten_le sig.toNat m h10 hm
            have hn39' : n + 1 < (dig.set n (48 + sig.div100.2 % 10)).length := by
              rw [List.length_set]; omega
            have hstep : digitsLoop (fuel + 1) sig n exp dig
                = digitsLoop fuel sig.div100.1 (n + 2) exp
                    ((dig.set n (48 + sig.div100.2 % 10)).set (n + 1)
                      (48 + sig.div100.2 / 10)) := by
              rw [digitsLoop, if_pos hsig, if_neg ha, t1]
              simp only
              rw [if_neg hb, if_neg hc, t3, t2, setDig_some _ _ _ hn39]
              simp only [Option.bind]
              rw [setDig_some _ _ _ hn39']
            have htake : ((dig.set n (48 + sig.div100.2 % 10)).set (n + 1)
                (48 + sig.div100.2 / 10)).take (n + 2)
                = (dig.take n ++ [48 + sig.div100.2 % 10]) ++ [48 + sig.div100.2 / 10] := by
              rw [take_set_self _ _ _ hn39', take_set_self _ _ _ hn39]
            have hdig2 : ∀ b ∈ ((dig.set n (48 + sig.div100.2 % 10)).set (n + 1)
                (48 + sig.div100.2 / 10)).take (n + 2), isDigitByte b := by
              intro b hb
              rw [htake, List.mem_append, List.mem_append, List.mem_singleton,
                List.mem_singleton] at hb
              rcases hb with (hb | hb) | hb
              · exact hdig b hb
              · rw [hb]; exact isDigitByte_add _ (by omega)
              · rw [hb]; exact isDigitByte_add _ (by omega)
            obtain ⟨n', exp', dig', e1, e2, e3, e4, e5, e6, e7, e8, e9, e10⟩ :=
              ih sig.div100.1 (n + 2) exp _ k hqwf hqfuel (by rw [hq]; exact hqk) (by omega)
                (by rw [List.length_set, List.length_set]; exact hlen) hdig2
            have e6' := e6 (by omega)
            refine ⟨n', exp', dig', by rw [hstep, e1], e2, by omega, by omega, by omega,
              fun _ => e6', fun _ => by omega, fun h => absurd h hs0, e9, ?_⟩
            rw [htake, leValue_append_single, leValue_append_single, List.length_append,
              hntake, List.length_singleton] at e10
            have hs : sig.toNat = sig.div100.1.toNat * 100
                + (sig.div100.2 / 10 * 10 + sig.div100.2 % 10) := by omega
            have h48 : 48 + sig.div100.2 % 10 - 48 = sig.div100.2 % 10 := by omega
            have h48' : 48 + sig.div100.2 / 10 - 48 = sig.div100.2 / 10 := by omega
            rw [h48, h48'] at e10
            rw [e10, hs]
            ring

/-- Any bound of at least `sig` rounds gives the division loop of `Decimal.digits` the same
result: the loop stops because `sig` has reached zero. -/
theorem digitsLoop_fuel (f1 : Nat) : ∀ (f2 : Nat) (sig : uint128) (n : Nat) (exp : Int)
    (dig : List Nat), sig.wf → sig.toNat ≤ f1 → sig.toNat ≤ f2 →
    digitsLoop f1 sig n exp dig = digitsLoop f2 sig n exp dig := by
  induction f1 with
  | zero =>
    intro f2 sig n exp dig _ h1 _
    have hs : sig = ⟨0, 0⟩ := (toNat_eq_zero_iff sig).2 (by omega)
    cases f2 with
    | zero => rfl
    | succ f2 => rw [digitsLoop, digitsLoop, if_neg (not_not.2 hs)]
  | succ f1 ih =>
    intro f2 sig n exp dig hwf h1 h2
    by_cases hs : sig = ⟨0, 0⟩
    · cases f2 with
      | zero => rw [digitsLoop, digitsLoop, if_neg (not_not.2 hs)]
      | succ f2 => rw [digitsLoop, digitsLoop, if_neg (not_not.2 hs), if_neg (not_not.2 hs)]
    · have hs0 : sig.toNat ≠ 0 := fun h => hs ((toNat_eq_zero_iff sig).2 h)
      obtain ⟨hq, _, hqwf⟩ := div100_toNat sig hwf
      cases f2 with
      | zero => omega
      | succ f2 =>
        have hrec : ∀ n' exp' dig', digitsLoop f1 sig.div100.1 n' exp' dig'
            = digitsLoop f2 sig.div100.1 n' exp' dig' :=
          fun n' exp' dig' => ih f2 _ n' exp' dig' hqwf (by omega) (by omega)
        rw [digitsLoop, digitsLoop]
        simp only [hrec]

theorem getD_some (dig : List Nat) (i : Nat) (h : i < dig.length) :
    some (dig.getD i 0) = dig[i]? := by
  rw [List.getD_eq_getElem?_getD, List.getElem?_eq_getElem h]
  rfl

/-- The reversal loop of `Decimal.digits` reverses the stretch between its two indices and
leaves the rest of the array alone. -/
theorem reverseLoop_getElem (fuel : Nat) : ∀ (a b : Nat) (dig : List Nat),
    b < dig.length → b ≤ a + 2 * fuel →
    (reverseLoop fuel (a : Int) (b : Int) dig).length = dig.length ∧
    ∀ k, (reverseLoop fuel (a : Int) (b : Int) dig)[k]?
      = if a ≤ k ∧ k ≤ b then dig[a + b - k]? else dig[k]? := by
  induction fuel with
  | zero =>
    intro a b dig _ hab
    refine ⟨rfl, fun k => ?_⟩
    have hr : reverseLoop 0 (a : Int) (b : Int) dig = dig := rfl
    rw [hr]
    split_ifs with h
    · have : a + b - k = k := by omega
      rw [this]
    · rfl
  | succ fuel ih =>
    intro a b dig hb hab
    by_cases hlt : a < b
    · have hstep : reverseLoop (fuel + 1) (a : Int) (b : Int) dig
          = reverseLoop fuel ((a + 1 : Nat) : Int) ((b - 1 : Nat) : Int)
              ((dig.set a (dig.getD b 0)).set b (dig.getD a 0)) := by
        have h1 : (a : Int) + 1 = ((a + 1 : Nat) : Int) := by push_cast; rfl
        have h2 : (b : Int) - 1 = ((b - 1 : Nat) : Int) := by omega
        rw [reverseLoop, if_pos (by exact_mod_cast hlt), h1, h2]
        simp only [Int.toNat_ofNat]
      have hlen : ((dig.set a (dig.getD b 0)).set b (dig.getD a 0)).length = dig.length := by
        rw [List.length_set, List.length_set]
      obtain ⟨i1, i2⟩ := ih (a + 1) (b - 1) _ (by rw [hlen]; omega) (by omega)
      rw [hstep]
      refine ⟨by rw [i1, hlen], fun k => ?_⟩
      rw [i2 k]
      have ha : a < dig.length := by omega
      by_cases hk1 : a + 1 ≤ k ∧ k ≤ b - 1
      · rw [if_pos hk1, if_pos (by omega)]
        have e : a + 1 + (b - 1) - k = a + b - k := by omega
        rw [e, List.getElem?_set_ne (by omega), List.getElem?_set_ne (by omega)]
      · rw [if_neg hk1]
        by_cases hka : k = a
        · have hab' : b ≠ a := by omega
          rw [if_pos (by omega), hka, List.getElem?_set_ne hab', List.getElem?_set_self ha]
          have e : a + b - a = b := by omega
          rw [e]; exact getD_some dig b hb
        · by_cases hkb : k = b
          · rw [if_pos (by omega), hkb,
              List.getElem?_set_self (by rw [List.length_set]; exact hb)]
            have e : a + b - b = a := by omega
            rw [e]; exact getD_some dig a ha
          · rw [if_neg (by omega), List.getElem?_set_ne (fun h => hkb h.symm),
              List.getElem?_set_ne (fun h => hka h.symm)]
    · have hr : reverseLoop (fuel + 1) (a : Int) (b : Int) dig = dig := by
        rw [reverseLoop, if_neg (by exact_mod_cast hlt)]
      rw [hr]
      refine ⟨rfl, fun k => ?_⟩
      split_ifs with h
      · have : a + b - k = k := by omega
        rw [this]
      · rfl

/-- After the reversal loop the first `n` bytes are the digits most significant first. -/
theorem reverseLoop_take (n : Nat) (dig : List Nat) (hn : 1 ≤ n) (hlen : n ≤ dig.length) :
    (reverseLoop n 0 ((n : Int) - 1) dig).length = dig.length ∧
    (reverseLoop n 0 ((n : Int) - 1) dig).take n = (dig.take n).reverse := by
  have h2 : (n : Int) - 1 = ((n - 1 : Nat) : Int) := by omega
  have h0 : (0 : Int) = ((0 : Nat) : Int) := rfl
  rw [h2, h0]
  obtain ⟨i1, i2⟩ := reverseLoop_getElem n 0 (n - 1) dig (by omega) (by omega)
  refine ⟨i1, ?_⟩
  apply List.ext_getElem?
  intro k
  by_cases hk : k < n
  · rw [List.getElem?_take_of_lt hk, i2 k, if_pos (by omega),
      List.getElem?_reverse (by rw [List.length_take]; omega), List.length_take,
      List.getElem?_take_of_lt (by omega)]
    congr 1
    omega
  · rw [List.getElem?_eq_none (by rw [List.length_take]; omega),
      List.getElem?_eq_none (by rw [List.length_reverse, List.length_take]; omega)]

/-- `Decimal.digits` does not fail on a finite value, and what it returns: no digit for a
zero coefficient; otherwise at least one digit byte, at most `m` digits and dropped zeros
for a coefficient below `10^m`, and the digits scaled by the dropped zeros are the
coefficient. -/
theorem digits_spec (d : Decimal) (hwf : d.wf) (hfin : d.isSpecial = false) (m : Nat)
    (hm : d.decompose.1.toNat < 10 ^ m) (hm39 : m ≤ 39) :
    ∃ digs, d.digits = some digs ∧ digs.neg = d.Signbit ∧ 0 ≤ digs.ndig ∧
      (digs.dig.take digs.ndig.toNat).length = digs.ndig.toNat ∧
      (∀ b ∈ digs.dig.take digs.ndig.toNat, isDigitByte b) ∧
      (d.decompose.1.toNat = 0 → digs.ndig = 0 ∧ digs.exp = 0) ∧
      (d.decompose.1.toNat ≠ 0 → 1 ≤ digs.ndig ∧
        d.decompose.2 - exponentBias ≤ digs.exp ∧
        digs.ndig + (digs.exp - (d.decompose.2 - exponentBias)) ≤ m ∧
        digitsValue (digs.dig.take digs.ndig.toNat)
            * 10 ^ (digs.exp - (d.decompose.2 - exponentBias)).toNat
          = d.decompose.1.toNat) := by
  obtain ⟨f1, f2, f3, f4⟩ := decompose_finite d hwf hfin
  by_cases hc : d.decompose.1.toNat = 0
  · have hsig : d.decompose.1 = ⟨0, 0⟩ := (toNat_eq_zero_iff _).2 hc
    refine ⟨⟨d.isNeg, List.replicate 39 0, 0, 0⟩, ?_, rfl, le_refl _, ?_, ?_,
      fun _ => ⟨rfl, rfl⟩, fun h => absurd hc h⟩
    · unfold Decimal.digits
      simp only [hsig, ne_eq, not_true_eq_false, if_false]
    · simp
    · simp
  · have hsig : d.decompose.1 ≠ ⟨0, 0⟩ := fun h => hc ((toNat_eq_zero_iff _).1 h)
    obtain ⟨n', exp', dig', e1, e2, e3, e4, e5, e6, e7, e8, e9, e10⟩ :=
      digitsLoop_spec d.decompose.1.toNat d.decompose.1 0 (d.decompose.2 - exponentBias)
        (List.replicate 39 0) m f1 (le_refl _) hm (by omega) (by simp) (by simp)
    have hn1 : 1 ≤ n' := e7 hc
    have hn39 : n' ≤ dig'.length := by omega
    obtain ⟨r1, r2⟩ := reverseLoop_take n' dig' hn1 hn39
    refine ⟨⟨d.isNeg, reverseLoop n' 0 ((n' : Int) - 1) dig', exp', n'⟩, ?_, rfl,
      by dsimp only; omega, ?_, ?_, fun h => absurd h hc,
      fun _ => ⟨by dsimp only; omega, e4, by dsimp only; omega, ?_⟩⟩
    · unfold Decimal.digits
      simp only [ne_eq, hsig, not_false_eq_true, if_true, e1, Option.bind]
    · simp only [Int.toNat_ofNat, List.length_take, r1]; omega
    · intro b hb
      simp only [Int.toNat_ofNat, r2, List.mem_reverse] at hb
      exact e9 b hb
    · simp only [Int.toNat_ofNat, r2, digitsValue_reverse, e10]
      simp [leValue]

theorem appendZeros_eq (fuel : Nat) : ∀ (i prec : Int) (buf : List Nat), prec - i ≤ fuel →
    appendZeros fuel i prec buf = buf ++ List.replicate (prec - i).toNat 48 := by
  induction fuel with
  | zero =>
    intro i prec buf h
    have h0 : (prec - i).toNat = 0 := by omega
    rw [h0]
    simp [appendZeros]
  | succ fuel ih =>
    intro i prec buf h
    by_cases hlt : i < prec
    · rw [appendZeros, if_pos hlt, ih _ _ _ (by omega), byte_0]
      have hk : (prec - i).toNat = (prec - (i + 1)).toNat + 1 := by omega
      rw [hk, List.replicate_succ, List.append_assoc]
      rfl
    · have h0 : (prec - i).toNat = 0 := by omega
      rw [appendZeros, if_neg hlt, h0]
      simp

theorem leadZeros_eq (fuel : Nat) : ∀ (dp prec : Int) (buf : List Nat), 0 - dp ≤ fuel →
    leadZeros fuel dp prec buf
      = if dp < 0 then (0, prec + dp, buf ++ List.replicate (0 - dp).toNat 48)
        else (dp, prec, buf) := by
  induction fuel with
  | zero =>
    intro dp prec buf h
    rw [if_neg (by omega)]
    rfl
  | succ fuel ih =>
    intro dp prec buf h
    by_cases hlt : dp < 0
    · rw [leadZeros, if_pos hlt, if_pos hlt, ih _ _ _ (by omega), byte_0]
      by_cases h1 : dp + 1 < 0
      · rw [if_pos h1]
        have hk : (0 - dp).toNat = (0 - (dp + 1)).toNat + 1 := by omega
        rw [hk, List.replicate_succ, List.append_assoc]
        refine Prod.ext rfl (Prod.ext ?_ rfl)
        simp only; omega
      · rw [if_neg h1]
        have hk : (0 - dp).toNat = 1 := by omega
        rw [hk]
        refine Prod.ext (by simp only; omega) (Prod.ext (by simp only; omega) rfl)
    · rw [leadZeros, if_neg hlt, if_neg hlt]

/-! ## The two forms `String` writes -/

theorem digitByte_small (x : Int) (h0 : 0 ≤ x) (h9 : x ≤ 9) : digitByte x = 48 + x.toNat := by
  unfold digitByte
  rw [byte_0]
  omega

/-- The exponent bytes: two to four digits that write the exponent. -/
theorem expBytes_spec (x : Int) (h0 : 0 ≤ x) (hx : x < 10000) :
    expBytes x true ≠ [] ∧ (∀ b ∈ expBytes x true, isDigitByte b) ∧
    digitsValue (expBytes x true) = x.toNat := by
  unfold expBytes
  simp only [if_true]
  by_cases h1 : x < 10
  · rw [if_pos h1, digitByte_small x h0 (by omega), byte_0]
    refine ⟨by simp, ?_, ?_⟩
    · intro b hb
      simp only [List.mem_cons, List.mem_singleton, List.not_mem_nil, or_false] at hb
      rcases hb with hb | hb
      · rw [hb]; exact isDigitByte_add 0 (by omega)
      · rw [hb]; exact isDigitByte_add _ (by omega)
    · simp [digitsValue, byte_0]
  rw [if_neg h1]
  by_cases h2 : x < 100
  · rw [if_pos h2, digitByte_small (x / 10) (by omega) (by omega),
      digitByte_small (x % 10) (by omega) (by omega)]
    refine ⟨by simp, ?_, ?_⟩
    · intro b hb
      simp only [List.mem_cons, List.mem_singleton, List.not_mem_nil, or_false] at hb
      rcases hb with hb | hb
      · rw [hb]; exact isDigitByte_add _ (by omega)
      · rw [hb]; exact isDigitByte_add _ (by omega)
    · simp only [digitsValue, List.foldl, byte_0]
      omega
  rw [if_neg h2]
  by_cases h3 : x < 1000
  · rw [if_pos h3, digitByte_small (x / 100) (by omega) (by omega),
      digitByte_small (x / 10 % 10) (by omega) (by omega),
      digitByte_small (x % 10) (by omega) (by omega)]
    refine ⟨by simp, ?_, ?_⟩
    · intro b hb
      simp only [List.mem_cons, List.mem_singleton, List.not_mem_nil, or_false] at hb
      rcases hb with hb | hb | hb
      · rw [hb]; exact isDigitByte_add _ (by omega)
      · rw [hb]; exact isDigitByte_add _ (by omega)
      · rw [hb]; exact isDigitByte_add _ (by omega)
    · simp only [digitsValue, List.foldl, byte_0]
      omega
  · rw [if_neg h3, digitByte_small (x / 1000) (by omega) (by omega),
      digitByte_small (x / 100 % 10) (by omega) (by omega),
      digitByte_small (x / 10 % 10) (by omega) (by omega),
      digitByte_small (x % 10) (by omega) (by omega)]
    refine ⟨by simp, ?_, ?_⟩
    · intro b hb
      simp only [List.mem_cons, List.mem_singleton, List.not_mem_nil, or_false] at hb
      rcases hb with hb | hb | hb | hb
      · rw [hb]; exact isDigitByte_add _ (by omega)
      · rw [hb]; exact isDigitByte_add _ (by omega)
      · rw [hb]; exact isDigitByte_add _ (by omega)
      · rw [hb]; exact isDigitByte_add _ (by omega)
    · simp only [digitsValue, List.foldl, byte_0]
      omega

theorem slice_eq (dig : List Nat) (lo hi N : Nat) (h : hi ≤ N) :
    slice dig (lo : Int) (hi : Int) = ((dig.take N).take hi).drop lo := by
  unfold slice
  simp only [Int.toNat_ofNat, List.take_take, min_eq_left h]

theorem getD_zero_take (dig : List Nat) (N : Nat) (d0 : Nat) (t : List Nat)
    (hD : dig.take N = d0 :: t) : dig.getD 0 0 = d0 := by
  cases dig with
  | nil => simp at hD
  | cons a l =>
    cases N with
    | zero => simp at hD
    | succ N =>
      simp only [List.take_succ_cons, List.cons.injEq] at hD
      simp [hD.1]

/-- The scientific form `String` asks for: all digits, one before the point. -/
theorem fmtE_String (neg : Bool) (dig : List Nat) (E : Int) (N : Nat) (d0 : Nat)
    (t : List Nat) (hD : dig.take N = d0 :: t) (hlen : (dig.take N).length = N) :
    (⟨neg, dig, E, (N : Int)⟩ : digits).fmtE ((N : Int) - 1) false false false true (byte 'e')
      = Numeral.text ⟨neg, [d0], t,
          some (decide (E + ((N : Int) - 1) < 0),
            expBytes (if E + ((N : Int) - 1) < 0 then -(E + ((N : Int) - 1))
              else E + ((N : Int) - 1)) true)⟩ := by
  have hg := getD_zero_take dig N d0 t hD
  have htl : t.length + 1 = N := by rw [← hlen, hD]; rfl
  have hsl : slice dig 1 (N : Int) = t := by
    have := slice_eq dig 1 N N (le_refl _)
    rw [List.take_take, min_self, hD] at this
    simpa using this
  unfold digits.fmtE Numeral.text signPrefix
  simp only [hg]
  by_cases h1 : N = 1
  · have ht : t = [] := List.eq_nil_of_length_eq_zero (by omega)
    subst h1
    cases neg <;> by_cases hX : E < 0 <;> simp [ht, hX]
  · have ht : t ≠ [] := by
      intro h; rw [h] at htl; simp at htl; omega
    have hN0 : ¬ (N : Int) = 0 := by omega
    have hN1 : (N : Int) > 1 := by omega
    have hp : (N : Int) - 1 > 0 := by omega
    simp only [hN0, hN1, hp, if_true, if_false, hsl, ht]
    rw [appendZeros_eq _ _ _ _ (by omega)]
    have hz : ((N : Int) - 1 - ((N : Int) - 1)).toNat = 0 := by omega
    rw [hz]
    cases neg <;> by_cases hX : E + ((N : Int) - 1) < 0 <;> simp [hX]

/-- The fixed form `String` asks for when there is no digit: a lone `0`. -/
theorem fmtF_String_zero (neg : Bool) (dig : List Nat) (E : Int) :
    (⟨neg, dig, E, 0⟩ : digits).fmtF 0 false false false
      = Numeral.text ⟨neg, [byte '0'], [], none⟩ := by
  unfold digits.fmtF Numeral.text signPrefix
  cases neg <;> simp

/-- The fixed form `String` asks for when the exponent is 0: the digits. -/
theorem fmtF_String_int (neg : Bool) (dig : List Nat) (N : Nat) (hN : 1 ≤ N) :
    (⟨neg, dig, 0, (N : Int)⟩ : digits).fmtF 0 false false false
      = Numeral.text ⟨neg, dig.take N, [], none⟩ := by
  have hN0 : ¬ (N : Int) = 0 := by omega
  have hdp : (N : Int) + 0 > 0 := by omega
  have hgt : ¬ (N : Int) > (N : Int) + 0 := by omega
  unfold digits.fmtF Numeral.text signPrefix slice
  simp only [hN0, hdp, hgt, if_true, if_false]
  rw [appendZeros_eq _ _ _ _ (by omega)]
  have hz : ((N : Int) + 0 - (N : Int)).toNat = 0 := by omega
  rw [hz]
  cases neg <;> simp

/-- The fixed form `String` asks for when the point falls inside the digits. -/
theorem fmtF_String_split (neg : Bool) (dig : List Nat) (E : Int) (N : Nat)
    (hE : E < 0) (hdp : 0 < (N : Int) + E) (hlen : (dig.take N).length = N) :
    (⟨neg, dig, E, (N : Int)⟩ : digits).fmtF (-E) false false false
      = Numeral.text ⟨neg, (dig.take N).take ((N : Int) + E).toNat,
          (dig.take N).drop ((N : Int) + E).toNat, none⟩ := by
  have hN0 : ¬ (N : Int) = 0 := by omega
  have hdp' : (N : Int) + E > 0 := hdp
  have hgt : (N : Int) > (N : Int) + E := by omega
  have hp : -E > 0 := by omega
  have hk : ((N : Int) + E).toNat ≤ N := by omega
  have hne : (dig.take N).drop ((N : Int) + E).toNat ≠ [] := by
    intro h
    have := congrArg List.length h
    rw [List.length_drop, hlen] at this
    simp at this
    omega
  have hl : leadZeros (0 - ((N : Int) + E)).toNat ((N : Int) + E) (-E)
      (signPrefix neg false false ++ List.take ((N : Int) + E).toNat dig ++ [byte '.'])
      = ((N : Int) + E, -E,
          signPrefix neg false false ++ List.take ((N : Int) + E).toNat dig ++ [byte '.']) := by
    rw [leadZeros_eq _ _ _ _ (by omega), if_neg (by omega)]
  unfold digits.fmtF Numeral.text slice
  simp only [hN0, hdp', hgt, hp, if_true, if_false, Int.toNat_zero, List.drop_zero, hl,
    Int.toNat_ofNat, hne, List.take_take, min_eq_left hk]
  rw [appendZeros_eq _ _ _ _ (by omega)]
  have hz : (-E - ((N : Int) - ((N : Int) + E))).toNat = 0 := by omega
  rw [hz]
  unfold signPrefix
  cases neg <;> simp [List.drop_take]

/-- The fixed form `String` asks for when the point falls before the digits. -/
theorem fmtF_String_frac (neg : Bool) (dig : List Nat) (E : Int) (N : Nat) (hN : 1 ≤ N)
    (hE : E < 0) (hdp : (N : Int) + E ≤ 0) (hlen : (dig.take N).length = N) :
    (⟨neg, dig, E, (N : Int)⟩ : digits).fmtF (-E) false false false
      = Numeral.text ⟨neg, [byte '0'],
          List.replicate (0 - ((N : Int) + E)).toNat 48 ++ dig.take N, none⟩ := by
  have hN0 : ¬ (N : Int) = 0 := by omega
  have hdp' : ¬ (N : Int) + E > 0 := by omega
  have hp : -E > 0 := by omega
  have hne : List.replicate (0 - ((N : Int) + E)).toNat 48 ++ dig.take N ≠ [] := by
    intro h
    have := congrArg List.length h
    rw [List.length_append, hlen] at this
    simp at this
    omega
  have hl : leadZeros (0 - ((N : Int) + E)).toNat ((N : Int) + E) (-E)
      (signPrefix neg false false ++ [byte '0'] ++ [byte '.'])
      = (0, (N : Int),
          signPrefix neg false false ++ [byte '0'] ++ [byte '.']
            ++ List.replicate (0 - ((N : Int) + E)).toNat 48) := by
    rw [leadZeros_eq _ _ _ _ (by omega)]
    by_cases h : (N : Int) + E < 0
    · rw [if_pos h]
      refine Prod.ext rfl (Prod.ext ?_ rfl)
      simp only; omega
    · rw [if_neg h]
      have h0 : (N : Int) + E = 0 := by omega
      have hE' : -E = (N : Int) := by omega
      rw [h0, hE']
      simp
  have hgt : (N : Int) > 0 := by omega
  unfold digits.fmtF Numeral.text slice
  simp only [hN0, hdp', hp, if_true, if_false, hl, hgt, Int.toNat_zero, List.drop_zero,
    Int.toNat_ofNat, hne]
  rw [appendZeros_eq _ _ _ _ (by omega)]
  have hz : ((N : Int) - ((N : Int) - 0)).toNat = 0 := by omega
  rw [hz]
  unfold signPrefix
  cases neg <;> simp

/-! ## `String` -/

theorem byte_minus : byte '-' = 45 := rfl

/-- A well-formed numeral starts with `-` exactly when its sign is set. -/
theorem Numeral.head_minus_iff (n : Numeral) (h : n.wf) :
    n.text.head? = some (byte '-') ↔ n.neg = true := by
  obtain ⟨h1, h2, _, _⟩ := h
  obtain ⟨neg, ip, fp, ex⟩ := n
  simp only at h1 h2 ⊢
  cases ip with
  | nil => exact absurd rfl h1
  | cons a l =>
    have ha := h2 a (List.mem_cons_self _ _)
    unfold isDigitByte at ha
    rw [byte_0, byte_9] at ha
    unfold Numeral.text
    cases neg
    · simp [byte_minus]; omega
    · simp

/-- The coefficient times ten to the unbiased exponent, from the digits and the zeros
dropped. -/
theorem value_of_digits (v c : Nat) (E Q : Int) (hQ : Q ≤ E)
    (hc : v * 10 ^ (E - Q).toNat = c) : (c : ℚ) * (10 : ℚ) ^ Q = (v : ℚ) * (10 : ℚ) ^ E := by
  rw [← hc]
  push_cast
  rw [mul_assoc, ← zpow_natCast, ← zpow_add₀ (by norm_num : (10 : ℚ) ≠ 0)]
  congr 2
  rw [Int.toNat_of_nonneg (by omega)]
  ring

theorem String_eq (d : Decimal) (hfin : d.isSpecial = false) (digs : digits)
    (hd : d.digits = some digs) :
    d.String =
      if digs.exp + (digs.ndig - 1) < -4 ∨ digs.exp + (digs.ndig - 1) > digs.ndig - 1 then
        some (digs.fmtE (digs.ndig - 1) false false false true (byte 'e'))
      else if digs.exp < 0 then some (digs.fmtF (-digs.exp) false false false)
      else some (digs.fmtF 0 false false false) := by
  unfold Decimal.String
  rw [hfin, hd]
  rfl

/-- On a finite value `String` writes a numeral with the sign and the value of the decimal. -/
theorem String_numeral (d : Decimal) (hwf : d.wf) (hfin : d.isSpecial = false) :
    ∃ n : Numeral, d.String = some n.text ∧ n.wf ∧ n.neg = d.Signbit ∧
      n.value = (d.decompose.1.toNat : ℚ) * (10 : ℚ) ^ (d.decompose.2 - exponentBias) ∧
      (d.decompose.1.toNat = 0 → n = ⟨d.Signbit, [byte '0'], [], none⟩) := by
  obtain ⟨f1, f2, f3, f4⟩ := decompose_finite d hwf hfin
  obtain ⟨digs, hd, hneg, hN0, hlen, hdigit, hzero, hnz⟩ :=
    digits_spec d hwf hfin 35 (lt_trans f2 (by norm_num)) (by norm_num)
  have hS := String_eq d hfin digs hd
  obtain ⟨neg, dig, E, Ni⟩ := digs
  simp only at hneg hN0 hlen hdigit hzero hnz hS
  obtain ⟨N, rfl⟩ := Int.eq_ofNat_of_zero_le hN0
  simp only [Int.toNat_ofNat] at hlen hdigit hnz
  have hb : exponentBias = 6176 := rfl
  by_cases hc : d.decompose.1.toNat = 0
  · -- zero
    obtain ⟨z1, z2⟩ := hzero hc
    have hN : N = 0 := by exact_mod_cast z1
    subst hN
    subst z2
    refine ⟨⟨neg, [byte '0'], [], none⟩, ?_, ?_, hneg, ?_, fun _ => by rw [hneg]⟩
    · rw [hS, if_neg (by simp), if_neg (by simp)]
      exact congrArg some (fmtF_String_zero neg dig 0)
    · refine ⟨by simp, ?_, by simp, by simp⟩
      intro b hb
      simp only [List.mem_singleton] at hb
      rw [hb]; exact isDigitByte_add 0 (by omega)
    · unfold Numeral.value Numeral.exponent
      simp [digitsValue, hc]
  · obtain ⟨n1, n2, n3, n4⟩ := hnz hc
    have hN1 : 1 ≤ N := by omega
    have hval := value_of_digits _ _ E (d.decompose.2 - exponentBias) n2 n4
    rw [hval]
    by_cases hcond : E + ((N : Int) - 1) < -4 ∨ E + ((N : Int) - 1) > (N : Int) - 1
    · -- scientific form
      rw [if_pos hcond] at hS
      obtain ⟨d0, t, hD⟩ : ∃ d0 t, dig.take N = d0 :: t := by
        cases hD : dig.take N with
        | nil => rw [hD] at hlen; simp at hlen; omega
        | cons a l => exact ⟨a, l, rfl⟩
      have htl : t.length + 1 = N := by rw [← hlen, hD]; rfl
      have hX0 : 0 ≤ (if E + ((N : Int) - 1) < 0 then -(E + ((N : Int) - 1))
          else E + ((N : Int) - 1)) := by split_ifs <;> omega
      have hX1 : (if E + ((N : Int) - 1) < 0 then -(E + ((N : Int) - 1))
          else E + ((N : Int) - 1)) < 10000 := by split_ifs <;> omega
      obtain ⟨x1, x2, x3⟩ := expBytes_spec _ hX0 hX1
      refine ⟨_, by rw [hS, fmtE_String neg dig E N d0 t hD hlen], ?_, hneg, ?_,
        fun h => absurd h hc⟩
      · refine ⟨by simp, ?_, ?_, ?_⟩
        · intro b hb
          simp only [List.mem_singleton] at hb
          exact hdigit b (by rw [hD, hb]; exact List.mem_cons_self _ _)
        · intro b hb
          exact hdigit b (by rw [hD]; exact List.mem_cons_of_mem _ hb)
        · intro s ed hex
          simp only [Option.some.injEq, Prod.mk.injEq] at hex
          rw [← hex.2]
          exact ⟨x1, x2⟩
      · unfold Numeral.value Numeral.exponent
        simp only [List.singleton_append, ← hD, x3]
        congr 2
        by_cases hX : E + ((N : Int) - 1) < 0
        · simp only [hX, decide_True, if_true]
          omega
        · simp only [hX, decide_False, if_false, Bool.false_eq_true]
          omega
    · rw [if_neg hcond] at hS
      by_cases hE : E < 0
      · rw [if_pos hE] at hS
        by_cases hdp : 0 < (N : Int) + E
        · -- fixed form, the point inside the digits
          have hk : ((N : Int) + E).toNat ≤ N := by omega
          refine ⟨_, by rw [hS, fmtF_String_split neg dig E N hE hdp hlen], ?_, hneg, ?_,
            fun h => absurd h hc⟩
          · refine ⟨?_, ?_, ?_, by simp⟩
            · intro h
              have := congrArg List.length h
              simp only [List.length_take, List.length_nil] at this
              simp only [List.length_take] at hlen
              omega
            · intro b hb
              exact hdigit b (List.mem_of_mem_take hb)
            · intro b hb
              exact hdigit b (List.mem_of_mem_drop hb)
          · unfold Numeral.value Numeral.exponent
            simp only [List.take_append_drop, List.length_drop, hlen]
            congr 2
            omega
        · -- fixed form, the point before the digits
          refine ⟨_, by rw [hS, fmtF_String_frac neg dig E N hN1 hE (by omega) hlen], ?_,
            hneg, ?_, fun h => absurd h hc⟩
          · refine ⟨by simp, ?_, ?_, by simp⟩
            · intro b hb
              simp only [List.mem_singleton] at hb
              rw [hb]; exact isDigitByte_add 0 (by omega)
            · intro b hb
              rw [List.mem_append] at hb
              rcases hb with hb | hb
              · rw [(List.mem_replicate.1 hb).2]; exact isDigitByte_add 0 (by omega)
              · exact hdigit b hb
          · unfold Numeral.value Numeral.exponent
            simp only [List.length_append, List.length_replicate, hlen]
            rw [← List.append_assoc, digitsValue_append, byte_0]
            have hz : digitsValue ([48] ++ List.replicate (0 - ((N : Int) + E)).toNat 48) = 0 := by
              have := digitsValue_zeros ((0 - ((N : Int) + E)).toNat + 1)
              rw [List.replicate_succ] at this
              exact this
            rw [hz, zero_mul, zero_add]
            congr 2
            omega
      · -- fixed form, an integer
        rw [if_neg hE] at hS
        have hE0 : E = 0 := by omega
        subst hE0
        refine ⟨_, by rw [hS, fmtF_String_int neg dig N hN1], ?_, hneg, ?_,
          fun h => absurd h hc⟩
        · refine ⟨?_, hdigit, by simp, by simp⟩
          intro h
          have h' : dig.take N = [] := h
          rw [h'] at hlen
          simp at hlen
          omega
        · unfold Numeral.value Numeral.exponent
          simp

/-- A value with a one-digit coefficient and unbiased exponent 0 prints as that digit. -/
theorem String_one_digit (d : Decimal) (hwf : d.wf) (hfin : d.isSpecial = false)
    (hc : d.decompose.1.toNat ≤ 9) (hq : d.decompose.2 = exponentBias) :
    d.String = some ((if d.Signbit then [byte '-'] else [])
      ++ [byte '0' + d.decompose.1.toNat]) := by
  obtain ⟨digs, hd, hneg, hN0, hlen, hdigit, hzero, hnz⟩ :=
    digits_spec d hwf hfin 1 (by omega) (by norm_num)
  have hS := String_eq d hfin digs hd
  obtain ⟨neg, dig, E, Ni⟩ := digs
  simp only at hneg hN0 hlen hdigit hzero hnz hS
  obtain ⟨N, rfl⟩ := Int.eq_ofNat_of_zero_le hN0
  simp only [Int.toNat_ofNat] at hlen hdigit hnz
  rw [hq, sub_self] at hnz
  by_cases hc0 : d.decompose.1.toNat = 0
  · obtain ⟨z1, z2⟩ := hzero hc0
    have hN : N = 0 := by exact_mod_cast z1
    subst hN
    subst z2
    have hz : (⟨neg, dig, 0, ((0 : Nat) : Int)⟩ : digits).fmtF 0 false false false
        = Numeral.text ⟨neg, [byte '0'], [], none⟩ := fmtF_String_zero neg dig 0
    rw [hS, if_neg (by simp), if_neg (by simp), hz, hc0, hneg]
    unfold Numeral.text
    simp
  · obtain ⟨n1, n2, n3, n4⟩ := hnz hc0
    have hN : N = 1 := by omega
    have hE : E = 0 := by omega
    subst hN
    subst hE
    rw [hS, if_neg (by simp), if_neg (by simp), fmtF_String_int neg dig 1 (le_refl _), hneg]
    obtain ⟨b, hD⟩ : ∃ b, dig.take 1 = [b] := by
      cases hD : dig.take 1 with
      | nil => rw [hD] at hlen; simp at hlen
      | cons a l =>
        rw [hD] at hlen
        simp only [List.length_cons, add_left_eq_self, List.length_eq_zero] at hlen
        exact ⟨a, by rw [hlen]⟩
    have hbd := hdigit b (by rw [hD]; exact List.mem_singleton_self b)
    unfold isDigitByte at hbd
    rw [byte_0, byte_9] at hbd
    rw [hD] at n4
    simp only [digitsValue, List.foldl, byte_0] at n4
    have hb48 : b = 48 + d.decompose.1.toNat := by
      have h0 : ((0 : Int) - 0).toNat = 0 := rfl
      rw [h0] at n4
      omega
    unfold Numeral.text
    simp only [hD, hb48, byte_0]
    simp

/-- C2. `String` is faithful: for every finite `Decimal` with coefficient `c`, biased
exponent `q` and sign bit `s`, `String` returns a numeral of the form
`[-] digits ['.' digits] ['e' ('+'|'-') exp-digits]` with at least one digit before the
point; it starts with `-` exactly when `s` is set; its exact value is `c * 10^(q - 6176)`;
every zero prints as `0` or `-0`, and a one-digit integer prints as its digit. -/
theorem String_faithful (d : Decimal) (hwf : d.wf) (hfin : d.isSpecial = false) :
    ∃ n : Numeral, d.String = some n.text ∧ n.wf ∧
      (n.text.head? = some (byte '-') ↔ d.Signbit = true) ∧
      n.value = (d.decompose.1.toNat : ℚ) * (10 : ℚ) ^ (d.decompose.2 - exponentBias) ∧
      (d.decompose.1.toNat = 0 →
        n.text = (if d.Signbit then [byte '-'] else []) ++ [byte '0']) ∧
      (d.decompose.1.toNat ≤ 9 → d.decompose.2 = exponentBias →
        n.text = (if d.Signbit then [byte '-'] else []) ++ [byte '0' + d.decompose.1.toNat]) := by
  obtain ⟨n, h1, h2, h3, h4, h5⟩ := String_numeral d hwf hfin
  refine ⟨n, h1, h2, ?_, h4, ?_, ?_⟩
  · rw [Numeral.head_minus_iff n h2, h3]
  · intro hc
    rw [h5 hc]
    unfold Numeral.text
    simp
  · intro hc hq
    have := String_one_digit d hwf hfin hc hq
    rw [h1] at this
    exact Option.some.inj this

/-- C2 on the value 7 (coefficient 7, biased exponent 6176), which prints as `7`. -/
theorem String_faithful_witness :
    (⟨7, 0x3040000000000000⟩ : Decimal).String = some ("7".toList.map byte) ∧
    ∃ n : Numeral, (⟨7, 0x3040000000000000⟩ : Decimal).String = some n.text ∧ n.wf ∧
      (n.text.head? = some (byte '-') ↔ (⟨7, 0x3040000000000000⟩ : Decimal).Signbit = true) ∧
      n.value = ((⟨7, 0x3040000000000000⟩ : Decimal).decompose.1.toNat : ℚ)
        * (10 : ℚ) ^ ((⟨7, 0x3040000000000000⟩ : Decimal).decompose.2 - exponentBias) ∧
      ((⟨7, 0x3040000000000000⟩ : Decimal).decompose.1.toNat = 0 →
        n.text = (if (⟨7, 0x3040000000000000⟩ : Decimal).Signbit then [byte '-'] else [])
          ++ [byte '0']) ∧
      ((⟨7, 0x3040000000000000⟩ : Decimal).decompose.1.toNat ≤ 9 →
        (⟨7, 0x3040000000000000⟩ : Decimal).decompose.2 = exponentBias →
        n.text = (if (⟨7, 0x3040000000000000⟩ : Decimal).Signbit then [byte '-'] else [])
          ++ [byte '0' + (⟨7, 0x3040000000000000⟩ : Decimal).decompose.1.toNat]) :=
  ⟨by decide, String_faithful ⟨7, 0x3040000000000000⟩ (by decide) (by decide)⟩

/-! ## `New` and `Sign` -/

/-- C11. `New` clamps out-of-range arguments before any rounding: whatever `reduce64` does,
for every `exp`, `New(0, exp)` is positive zero, the all-zero word pair; for every `sig`
other than 0 (the minimum `int64` included) and every `exp < -6157`, `New(sig, exp)` is a
zero whose sign bit is set exactly when `sig < 0`; and for every `sig` other than 0 and
every `exp > 6150`, `New(sig, exp)` is an infinity whose sign bit is set exactly when
`sig < 0`. -/
theorem New_clamps (reduce64 : Bool → Nat → Int → uint128 × Int) (sig exp : Int) :
    New reduce64 0 exp = ⟨0, 0⟩ ∧
    (sig ≠ 0 → exp < -6157 →
      New reduce64 sig exp = zero (decide (sig < 0)) ∧
      (New reduce64 sig exp).IsZero = true ∧
      (New reduce64 sig exp).Signbit = decide (sig < 0)) ∧
    (sig ≠ 0 → exp > 6150 →
      New reduce64 sig exp = inf (decide (sig < 0)) ∧
      (New reduce64 sig exp).isInf = true ∧
      (New reduce64 sig exp).Signbit = decide (sig < 0)) := by
  refine ⟨rfl, ?_, ?_⟩
  · intro hs he
    have h : New reduce64 sig exp = zero (decide (sig < 0)) := by
      unfold New
      rw [if_neg hs]
      simp only
      rw [if_pos (by unfold minUnbiasedExponent minBiasedExponent exponentBias; omega)]
    rw [h]
    refine ⟨rfl, ?_, ?_⟩ <;> by_cases hneg : sig < 0 <;> simp [hneg] <;> decide
  · intro hs he
    have h : New reduce64 sig exp = inf (decide (sig < 0)) := by
      unfold New
      rw [if_neg hs]
      simp only
      rw [if_neg (by unfold minUnbiasedExponent minBiasedExponent exponentBias; omega),
        if_pos (by unfold maxUnbiasedExponent maxBiasedExponent exponentBias; omega)]
    rw [h]
    refine ⟨rfl, ?_, ?_⟩ <;> by_cases hneg : sig < 0 <;> simp [hneg] <;> decide

/-- C11 on the minimum `int64`, below the exponent range and above it. -/
theorem New_clamps_witness :
    (New (fun _ _ _ => (⟨0, 0⟩, 0)) (-(2 ^ 63)) (-6158) = zero true ∧
      (New (fun _ _ _ => (⟨0, 0⟩, 0)) (-(2 ^ 63)) (-6158)).IsZero = true ∧
      (New (fun _ _ _ => (⟨0, 0⟩, 0)) (-(2 ^ 63)) (-6158)).Signbit = true) ∧
    (New (fun _ _ _ => (⟨0, 0⟩, 0)) (-(2 ^ 63)) 6151 = inf true ∧
      (New (fun _ _ _ => (⟨0, 0⟩, 0)) (-(2 ^ 63)) 6151).isInf = true ∧
      (New (fun _ _ _ => (⟨0, 0⟩, 0)) (-(2 ^ 63)) 6151).Signbit = true) :=
  ⟨(New_clamps (fun _ _ _ => (⟨0, 0⟩, 0)) (-(2 ^ 63)) (-6158)).2.1 (by decide) (by decide),
   (New_clamps (fun _ _ _ => (⟨0, 0⟩, 0)) (-(2 ^ 63)) 6151).2.2 (by decide) (by decide)⟩

/-- C12. `Sign` panics exactly on NaN: for every `Decimal`, `Sign` panics if and only if
`IsNaN` holds; for every other value it returns 0 when the value is a zero of either sign,
otherwise -1 when the sign bit is set and +1 when it is clear, so -1 on negative infinity
and +1 on positive infinity. -/
theorem Sign_spec (d : Decimal) :
    (d.Sign = none ↔ d.IsNaN = true) ∧
    (d.IsNaN = false →
      d.Sign = some (if d.IsZero then 0 else if d.Signbit then -1 else 1)) ∧
    (d.isInf = true → d.Sign = some (if d.Signbit then -1 else 1)) ∧
    (zero false).Sign = some 0 ∧ (zero true).Sign = some 0 ∧
    (inf true).Sign = some (-1) ∧ (inf false).Sign = some 1 := by
  refine ⟨?_, ?_, ?_, by decide, by decide, by decide, by decide⟩
  · unfold Decimal.Sign
    cases d.IsNaN
    · cases d.IsZero <;> cases d.Signbit <;> simp
    · simp
  · intro hn
    unfold Decimal.Sign
    rw [hn]
    simp only [Bool.false_eq_true, if_false]
    split_ifs <;> rfl
  · intro hi
    have hn : d.IsNaN = false := by
      rw [isInf_eq] at hi
      rw [IsNaN_eq]
      simp only [decide_eq_true_eq, decide_eq_false_iff_not] at hi ⊢
      omega
    have hs : d.isSpecial = true := by
      rw [isInf_eq] at hi
      rw [isSpecial_eq]
      simp only [decide_eq_true_eq] at hi ⊢
      omega
    have hz : d.IsZero = false := by
      unfold Decimal.IsZero; rw [hs]; rfl
    unfold Decimal.Sign
    rw [hn, hz]
    simp only [Bool.false_eq_true, if_false]
    split_ifs <;> rfl

/-- C12 on a NaN, where `Sign` panics, and on the negative infinity, where it returns -1. -/
theorem Sign_spec_witness :
    (⟨0, 0x7c00000000000000⟩ : Decimal).IsNaN = true ∧
    (⟨0, 0x7c00000000000000⟩ : Decimal).Sign = none ∧
    (inf true).isInf = true ∧
    (inf true).Sign = some (if (inf true).Signbit then -1 else 1) :=
  ⟨by decide, (Sign_spec ⟨0, 0x7c00000000000000⟩).1.mpr (by decide), by decide,
    (Sign_spec (inf true)).2.2.1 (by decide)⟩

/-- C20. `Canonical` of a special value keeps only the tag bits: for every NaN, with any
sign bit and any payload, the canonical form is `lo = 0`, `hi = 0x7c00_0000_0000_0000`; for
every infinity it is `lo = 0`, `hi = 0x7800_0000_0000_0000` with the sign bit of the
argument added and every other bit zero. -/
theorem Canonical_special (d : Decimal) :
    (d.IsNaN = true → d.Canonical = ⟨0, 0x7c00000000000000⟩) ∧
    (d.isInf = true →
      d.Canonical = ⟨0, 0x7800000000000000 + (if d.Signbit then 0x8000000000000000 else 0)⟩) := by
  constructor
  · intro hn
    have hs : d.isSpecial = true := by
      rw [IsNaN_eq] at hn
      rw [isSpecial_eq]
      simp only [decide_eq_true_eq] at hn ⊢
      omega
    unfold Decimal.Canonical
    rw [hs, hn]
    rfl
  · intro hi
    have hn : d.IsNaN = false := by
      rw [isInf_eq] at hi
      rw [IsNaN_eq]
      simp only [decide_eq_true_eq, decide_eq_false_iff_not] at hi ⊢
      omega
    have hs : d.isSpecial = true := by
      rw [isInf_eq] at hi
      rw [isSpecial_eq]
      simp only [decide_eq_true_eq] at hi ⊢
      omega
    unfold Decimal.Canonical
    rw [hs, hn]
    simp only [if_true, Bool.false_eq_true, if_false]
    cases d.Signbit <;> rfl

/-- C20 on a negative NaN with every payload bit set and on a negative infinity with low
bits set. -/
theorem Canonical_special_witness :
    (⟨0xffffffffffffffff, 0xffffffffffffffff⟩ : Decimal).Canonical
      = ⟨0, 0x7c00000000000000⟩ ∧
    (⟨0xffffffffffffffff, 0xfbffffffffffffff⟩ : Decimal).Canonical
      = ⟨0, 0x7800000000000000
          + (if (⟨0xffffffffffffffff, 0xfbffffffffffffff⟩ : Decimal).Signbit
              then 0x8000000000000000 else 0)⟩ :=
  ⟨(Canonical_special ⟨0xffffffffffffffff, 0xffffffffffffffff⟩).1 (by decide),
   (Canonical_special ⟨0xffffffffffffffff, 0xfbffffffffffffff⟩).2 (by decide)⟩

/-! ## `Format`: special values and unknown verbs -/

theorem Flag_plus (f : State) : f.Flag '+' = f.plus := by simp [State.Flag]

theorem Flag_minus (f : State) : f.Flag '-' = f.minus := by simp [State.Flag]

theorem Flag_sharp (f : State) : f.Flag '#' = f.sharp := by simp [State.Flag]

theorem Flag_space (f : State) : f.Flag ' ' = f.space := by simp [State.Flag]

theorem Format_special_eq (d : Decimal) (f : State) (verb : Char)
    (hsp : d.isSpecial = true) (hv : verb ≠ 'v') :
    d.Format f verb = some (d.fmtSpecial (f.width.getD 0) f.plus f.space f.minus false) := by
  unfold Decimal.Format
  rw [if_pos hsp]
  simp only [hv, ne_eq, not_false_eq_true, if_true, Flag_plus, Flag_minus, Flag_space]
  cases f.width <;> rfl

theorem special_of_NaN_or_Inf (d : Decimal) (hsp : d.IsNaN = true ∨ d.isInf = true) :
    d.isSpecial = true := by
  rw [isSpecial_eq]
  rcases hsp with h | h
  · rw [IsNaN_eq] at h
    simp only [decide_eq_true_eq] at h ⊢
    omega
  · rw [isInf_eq] at h
    simp only [decide_eq_true_eq] at h ⊢
    omega

/-- The text of a special value, then the padding. -/
theorem fmtSpecial_eq (d : Decimal) (pad : Int) (printSign padSign padRight : Bool)
    (T : List Nat)
    (hT : T = (if d.IsNaN then
            (if printSign then bytesOf "+NaN" else if padSign then bytesOf " NaN"
              else bytesOf "NaN")
          else if d.Signbit then bytesOf "-Inf"
          else if padSign = true ∧ ¬ printSign = true then bytesOf " Inf"
          else bytesOf "+Inf")) :
    d.fmtSpecial pad printSign padSign padRight false
      = (if padRight then T ++ List.replicate (pad - T.length).toNat (byte ' ')
          else List.replicate (pad - T.length).toNat (byte ' ') ++ T) := by
  have hdef : d.fmtSpecial pad printSign padSign padRight false
      = if pad - (T.length : Int) > 0 then
          (if padRight then T ++ List.replicate (pad - T.length).toNat (byte ' ')
            else List.replicate (pad - T.length).toNat (byte ' ') ++ T)
        else T := by
    rw [hT]; rfl
  rw [hdef]
  by_cases hp : pad - (T.length : Int) > 0
  · rw [if_pos hp]
  · rw [if_neg hp]
    have h0 : (pad - (T.length : Int)).toNat = 0 := by omega
    rw [h0]
    cases padRight <;> simp

/-- C19. Special values are formatted with sign and width: for every NaN or infinite
`Decimal`, every verb other than `v` and every width `w` (0 when none is set), `Format`
writes the text `T` padded with spaces to `max(w, len(T))` bytes, on the left by default
and on the right when the `-` flag is set; `T` is `NaN`, `+NaN` with the `+` flag or
` NaN` with the space flag and no `+`, whatever the sign bit of the NaN; `-Inf` for
negative infinity; and `+Inf`, or ` Inf` with the space flag and no `+`, for positive
infinity. -/
theorem Format_special (d : Decimal) (f : State) (verb : Char)
    (hsp : d.IsNaN = true ∨ d.isInf = true) (hv : verb ≠ 'v') :
    ∃ T out : List Nat,
      T = (if d.IsNaN then
            (if f.plus then bytesOf "+NaN" else if f.space then bytesOf " NaN"
              else bytesOf "NaN")
          else if d.Signbit then bytesOf "-Inf"
          else if f.space = true ∧ ¬ f.plus = true then bytesOf " Inf"
          else bytesOf "+Inf") ∧
      d.Format f verb = some out ∧
      out = (if f.minus then T ++ List.replicate (f.width.getD 0 - T.length).toNat (byte ' ')
              else List.replicate (f.width.getD 0 - T.length).toNat (byte ' ') ++ T) ∧
      (out.length : Int) = max (f.width.getD 0) (T.length : Int) := by
  have hs := special_of_NaN_or_Inf d hsp
  refine ⟨_, _, rfl, ?_, rfl, ?_⟩
  · rw [Format_special_eq d f verb hs hv]
    exact congrArg some (fmtSpecial_eq d _ _ _ _ _ rfl)
  · cases f.minus <;>
      simp only [Bool.false_eq_true, if_false, if_true, List.length_append,
        List.length_replicate] <;> omega

/-- C19 on a negative infinity, verb `x`, width 8 and the `-` flag. -/
theorem Format_special_witness :
    (⟨5, 0xf800000000000000⟩ : Decimal).Format
        ⟨some 8, none, false, true, false, false, false⟩ 'x' = some (bytesOf "-Inf    ") ∧
    ∃ T out : List Nat,
      T = (if (⟨5, 0xf800000000000000⟩ : Decimal).IsNaN then
            (if (⟨some 8, none, false, true, false, false, false⟩ : State).plus then
              bytesOf "+NaN"
            else if (⟨some 8, none, false, true, false, false, false⟩ : State).space then
              bytesOf " NaN"
            else bytesOf "NaN")
          else if (⟨5, 0xf800000000000000⟩ : Decimal).Signbit then bytesOf "-Inf"
          else if (⟨some 8, none, false, true, false, false, false⟩ : State).space = true ∧
              ¬ (⟨some 8, none, false, true, false, false, false⟩ : State).plus = true then
            bytesOf " Inf"
          else bytesOf "+Inf") ∧
      (⟨5, 0xf800000000000000⟩ : Decimal).Format
        ⟨some 8, none, false, true, false, false, false⟩ 'x' = some out ∧
      out = (if (⟨some 8, none, false, true, false, false, false⟩ : State).minus then
              T ++ List.replicate
                ((⟨some 8, none, false, true, false, false, false⟩ : State).width.getD 0
                  - T.length).toNat (byte ' ')
            else List.replicate
                ((⟨some 8, none, false, true, false, false, false⟩ : State).width.getD 0
                  - T.length).toNat (byte ' ') ++ T) ∧
      (out.length : Int)
        = max ((⟨some 8, none, false, true, false, false, false⟩ : State).width.getD 0)
            (T.length : Int) :=
  ⟨by decide, Format_special ⟨5, 0xf800000000000000⟩
    ⟨some 8, none, false, true, false, false, false⟩ 'x' (Or.inr (by decide)) (by decide)⟩

/-- C18, as stated, fails. For a NaN the verb `x` is not answered with the placeholder:
`Format` writes the text `NaN`. -/
theorem Format_unknown_verb_NaN :
    (⟨0, 0x7c00000000000000⟩ : Decimal).String = some (bytesOf "NaN") ∧
    (⟨0, 0x7c00000000000000⟩ : Decimal).Format
        ⟨none, none, false, false, false, false, false⟩ 'x' = some (bytesOf "NaN") ∧
    (⟨0, 0x7c00000000000000⟩ : Decimal).Format
        ⟨none, none, false, false, false, false, false⟩ 'x'
      ≠ some (bytesOf "%!" ++ runeBytes 'x' ++ bytesOf "(decimal128.Decimal=" ++ bytesOf "NaN"
          ++ bytesOf ")") := by
  decide

/-- C18, amended. For every finite `Decimal` and every verb other than `e`, `E`, `f`, `F`,
`g`, `G`, `v`, `Format` writes exactly `%!`, the verb character, `(decimal128.Decimal=`,
the string `String` returns and `)`. For a NaN or an infinity `Format` never reaches the
verb: with such a verb it writes the special-value text, padded to the width. -/
theorem Format_unknown_verb (d : Decimal) (f : State) (verb : Char) (hwf : d.wf)
    (he : verb ≠ 'e') (hE : verb ≠ 'E') (hf : verb ≠ 'f') (hF : verb ≠ 'F')
    (hg : verb ≠ 'g') (hG : verb ≠ 'G') (hv : verb ≠ 'v') :
    (d.isSpecial = false → ∃ str, d.String = some str ∧
      d.Format f verb = some (bytesOf "%!" ++ runeBytes verb
        ++ bytesOf "(decimal128.Decimal=" ++ str ++ bytesOf ")")) ∧
    (d.isSpecial = true →
      d.Format f verb = some (d.fmtSpecial (f.width.getD 0) f.plus f.space f.minus false)) := by
  constructor
  · intro hfin
    obtain ⟨n, hn, _⟩ := String_numeral d hwf hfin
    obtain ⟨digs, hd, _⟩ := digits_spec d hwf hfin 35
      (lt_trans (decompose_finite d hwf hfin).2.1 (by norm_num)) (by norm_num)
    refine ⟨n.text, hn, ?_⟩
    unfold Decimal.Format
    rw [hfin, hd, hn]
    simp [he, hE, hf, hF, hg, hG, hv]
  · intro hsp
    exact Format_special_eq d f verb hsp hv

/-- The amended C18 on the value 7 with verb `x`. -/
theorem Format_unknown_verb_witness :
    (⟨7, 0x3040000000000000⟩ : Decimal).Format
        ⟨none, none, false, false, false, false, false⟩ 'x'
      = some (bytesOf "%!x(decimal128.Decimal=7)") ∧
    ((⟨7, 0x3040000000000000⟩ : Decimal).isSpecial = false → ∃ str,
      (⟨7, 0x3040000000000000⟩ : Decimal).String = some str ∧
      (⟨7, 0x3040000000000000⟩ : Decimal).Format
          ⟨none, none, false, false, false, false, false⟩ 'x'
        = some (bytesOf "%!" ++ runeBytes 'x' ++ bytesOf "(decimal128.Decimal=" ++ str
            ++ bytesOf ")")) ∧
    ((⟨7, 0x3040000000000000⟩ : Decimal).isSpecial = true →
      (⟨7, 0x3040000000000000⟩ : Decimal).Format
          ⟨none, none, false, false, false, false, false⟩ 'x'
        = some ((⟨7, 0x3040000000000000⟩ : Decimal).fmtSpecial
            ((⟨none, none, false, false, false, false, false⟩ : State).width.getD 0)
            (⟨none, none, false, false, false, false, false⟩ : State).plus
            (⟨none, none, false, false, false, false, false⟩ : State).space
            (⟨none, none, false, false, false, false, false⟩ : State).minus false)) :=
  ⟨by decide, Format_unknown_verb ⟨7, 0x3040000000000000⟩
    ⟨none, none, false, false, false, false, false⟩ 'x' (by decide) (by decide) (by decide)
    (by decide) (by decide) (by decide) (by decide) (by decide)⟩

/-! ## `round` -/

/-- The scan of `round` stops below a run of the byte it skips, on a byte that differs or
on -1. -/
theorem scanDown_spec (dig : List Nat) (c : Nat) (fuel : Nat) : ∀ i : Int, -1 ≤ i →
    i + 1 ≤ fuel →
    -1 ≤ scanDown dig c fuel i ∧ scanDown dig c fuel i ≤ i ∧
    (∀ k : Int, scanDown dig c fuel i < k → k ≤ i → dig.getD k.toNat 0 = c) ∧
    (0 ≤ scanDown dig c fuel i → dig.getD (scanDown dig c fuel i).toNat 0 ≠ c) := by
  induction fuel with
  | zero =>
    intro i h1 h2
    have hi : i = -1 := by omega
    subst hi
    refine ⟨le_refl _, le_refl _, ?_, ?_⟩
    · intro k hk1 hk2
      have : scanDown dig c 0 (-1) = -1 := rfl
      omega
    · intro h
      have : scanDown dig c 0 (-1) = -1 := rfl
      omega
  | succ fuel ih =>
    intro i h1 h2
    by_cases hc : i ≥ 0 ∧ dig.getD i.toNat 0 = c
    · have hstep : scanDown dig c (fuel + 1) i = scanDown dig c fuel (i - 1) := by
        rw [scanDown, if_pos hc]
      obtain ⟨a1, a2, a3, a4⟩ := ih (i - 1) (by omega) (by omega)
      rw [hstep]
      refine ⟨a1, by omega, ?_, a4⟩
      intro k hk1 hk2
      by_cases hki : k = i
      · rw [hki]; exact hc.2
      · exact a3 k hk1 (by omega)
    · have hstep : scanDown dig c (fuel + 1) i = i := by
        rw [scanDown, if_neg hc]
      rw [hstep]
      refine ⟨h1, le_refl _, ?_, ?_⟩
      · intro k hk1 hk2; omega
      · intro h0 heq
        exact hc ⟨h0, heq⟩

theorem wf_getD_digit (d : digits) (h : d.wf) (k : Nat) (hk : (k : Int) < d.ndig) :
    isDigitByte (d.dig.getD k 0) := by
  obtain ⟨h0, h1, h2, _⟩ := h
  have hk' : k < d.ndig.toNat := by omega
  rw [List.length_take] at h1
  have hlen : k < d.dig.length := by omega
  apply h2
  rw [List.mem_iff_getElem?]
  refine ⟨k, ?_⟩
  rw [List.getElem?_take_of_lt hk', List.getD_eq_getElem?_getD,
    List.getElem?_eq_getElem hlen]
  rfl

theorem getD_set_self (l : List Nat) (i b : Nat) (h : i < l.length) :
    (l.set i b).getD i 0 = b := by
  rw [List.getD_eq_getElem?_getD, List.getElem?_set_self h]
  rfl

theorem getD_set_ne (l : List Nat) (i j b : Nat) (h : i ≠ j) :
    (l.set i b).getD j 0 = l.getD j 0 := by
  rw [List.getD_eq_getElem?_getD, List.getD_eq_getElem?_getD, List.getElem?_set_ne h]

theorem mem_take_of_le (l : List Nat) (a b x : Nat) (hab : a ≤ b) (h : x ∈ l.take a) :
    x ∈ l.take b := by
  have : l.take a = (l.take b).take a := by
    rw [List.take_take, min_eq_left hab]
  rw [this] at h
  exact List.mem_of_mem_take h

/-- The branch of `round` that keeps the digits: zeros at the end of the kept digits are
dropped, the rest stays. -/
theorem roundDown_spec (d : digits) (h : d.wf) (prec : Int) (hp : 0 ≤ prec)
    (hlt : prec < d.ndig) :
    (d.roundDown prec).neg = d.neg ∧ (d.roundDown prec).wf ∧
    (d.roundDown prec).ndig ≤ prec ∧
    (d.roundDown prec).exp + (d.roundDown prec).ndig = d.exp + d.ndig ∧
    (1 ≤ prec → 1 ≤ (d.roundDown prec).ndig) := by
  obtain ⟨s1, s2, s3, s4⟩ := scanDown_spec d.dig (byte '0') prec.toNat (prec - 1) (by omega)
    (by omega)
  have hwf := h
  obtain ⟨h0, h1, h2, h3⟩ := h
  unfold digits.roundDown
  refine ⟨rfl, ⟨?_, ?_, ?_, ?_⟩, ?_, ?_, ?_⟩
  · dsimp only; omega
  · dsimp only
    rw [List.length_take] at h1 ⊢
    omega
  · dsimp only
    intro b hb
    exact h2 b (mem_take_of_le _ _ _ _ (by omega) hb)
  · dsimp only
    intro _
    exact h3 (by omega)
  · dsimp only; omega
  · dsimp only; omega
  · dsimp only
    intro hp1
    by_contra hcon
    have hi : scanDown d.dig (byte '0') prec.toNat (prec - 1) = -1 := by omega
    have := s3 0 (by omega) (by omega)
    exact h3 (by omega) this

/-- The branch of `round` that rounds up: nines at the end of the kept digits are dropped
and the digit before them grows by one; when every kept digit is a nine, a lone `1` is
left, one decimal place higher. -/
theorem roundUp_spec (d : digits) (h : d.wf) (prec : Int) (hp : 0 ≤ prec)
    (hlt : prec < d.ndig) :
    (d.roundUp prec).neg = d.neg ∧ (d.roundUp prec).wf ∧
    1 ≤ (d.roundUp prec).ndig ∧
    ((d.roundUp prec).ndig ≤ prec ∨ (d.roundUp prec).ndig = 1) ∧
    d.exp + d.ndig ≤ (d.roundUp prec).exp + prec ∧
    d.exp + d.ndig ≤ (d.roundUp prec).exp + (d.roundUp prec).ndig ∧
    (d.roundUp prec).exp + (d.roundUp prec).ndig ≤ d.exp + d.ndig + 1 := by
  obtain ⟨s1, s2, s3, s4⟩ := scanDown_spec d.dig (byte '9') prec.toNat (prec - 1) (by omega)
    (by omega)
  have hwf := h
  obtain ⟨h0, h1, h2, h3⟩ := h
  have hlen : d.ndig.toNat ≤ d.dig.length := by
    rw [List.length_take] at h1; omega
  unfold digits.roundUp
  by_cases hi : scanDown d.dig (byte '9') prec.toNat (prec - 1) = -1
  · rw [if_pos hi]
    refine ⟨rfl, ⟨?_, ?_, ?_, ?_⟩, ?_, ?_, ?_, ?_, ?_⟩
    · dsimp only; omega
    · dsimp only
      rw [List.length_take, List.length_set]
      have : (1 : Int).toNat = 1 := rfl
      omega
    · dsimp only
      intro b hb
      have h1' : (1 : Int).toNat = 0 + 1 := rfl
      rw [h1', take_set_self _ _ _ (by omega)] at hb
      simp only [List.take_zero, List.nil_append, List.mem_singleton] at hb
      rw [hb]
      unfold isDigitByte
      decide
    · dsimp only
      intro _
      rw [getD_set_self _ _ _ (by omega)]
      decide
    · dsimp only; omega
    · dsimp only; omega
    · dsimp only; omega
    · dsimp only; omega
    · dsimp only; omega
  · rw [if_neg hi]
    have hi0 : 0 ≤ scanDown d.dig (byte '9') prec.toNat (prec - 1) := by omega
    obtain ⟨j, hj⟩ := Int.eq_ofNat_of_zero_le hi0
    rw [hj] at s2 s4 ⊢
    simp only [Int.toNat_ofNat] at s4 ⊢
    have hjlt : (j : Int) < d.ndig := by omega
    have hjlen : j < d.dig.length := by omega
    have hdj := wf_getD_digit d hwf j hjlt
    have hne := s4 (by omega)
    unfold isDigitByte at hdj
    have hb9 : byte '9' = 57 := rfl
    have hb0 : byte '0' = 48 := rfl
    rw [hb9] at hne
    rw [hb0, hb9] at hdj
    have hmod : (d.dig.getD j 0 + 1) % 256 = d.dig.getD j 0 + 1 := by omega
    rw [hmod]
    have hj1 : ((j : Int) + 1).toNat = j + 1 := by omega
    refine ⟨trivial, ⟨?_, ?_, ?_, ?_⟩, ?_, ?_, ?_, ?_, ?_⟩
    · dsimp only; omega
    · dsimp only
      rw [hj1, List.length_take, List.length_set]
      omega
    · dsimp only
      intro b hb
      rw [hj1, take_set_self _ _ _ hjlen, List.mem_append, List.mem_singleton] at hb
      rcases hb with hb | hb
      · exact h2 b (mem_take_of_le _ _ _ _ (by omega) hb)
      · rw [hb]; unfold isDigitByte; rw [hb0, hb9]; omega
    · dsimp only
      intro _
      by_cases hj0 : j = 0
      · subst hj0
        rw [getD_set_self _ _ _ hjlen, hb0]
        omega
      · rw [getD_set_ne _ _ _ _ hj0]
        exact h3 (by omega)
    · dsimp only; omega
    · dsimp only; omega
    · dsimp only; omega
    · dsimp only; omega
    · dsimp only; omega

/-- What `round` leaves: a digit string again, unchanged when it was short enough, empty
for a negative count, otherwise of at most `prec` digits (or a lone `1`) and ending no
lower than `prec` places below the old leading digit. -/
theorem round_spec (d : digits) (h : d.wf) (prec : Int) :
    (d.round prec).neg = d.neg ∧ (d.round prec).wf ∧
    (d.ndig ≤ prec → d.round prec = d) ∧
    (prec < d.ndig → prec < 0 → (d.round prec).ndig = 0) ∧
    (prec < d.ndig → 0 ≤ prec →
      ((d.round prec).ndig ≤ prec ∨ (d.round prec).ndig = 1) ∧
      d.exp + d.ndig ≤ (d.round prec).exp + prec ∧
      (1 ≤ prec → 1 ≤ (d.round prec).ndig) ∧
      (1 ≤ (d.round prec).ndig →
        d.exp + d.ndig ≤ (d.round prec).exp + (d.round prec).ndig ∧
        (d.round prec).exp + (d.round prec).ndig ≤ d.exp + d.ndig + 1)) := by
  by_cases h1 : d.ndig ≤ prec
  · have hr : d.round prec = d := by unfold digits.round; rw [if_pos h1]
    rw [hr]
    exact ⟨rfl, h, fun _ => rfl, fun hc => absurd h1 (by omega), fun hc => absurd h1 (by omega)⟩
  · by_cases h2 : prec < 0
    · have hr : d.round prec = { d with exp := d.exp + d.ndig, ndig := 0 } := by
        unfold digits.round; rw [if_neg h1, if_pos h2]
      rw [hr]
      refine ⟨rfl, ⟨le_refl _, ?_, ?_, ?_⟩, fun hc => absurd hc h1, fun _ _ => rfl,
        fun _ hc => absurd h2 (by omega)⟩
      · simp
      · simp
      · intro hc; exact absurd hc (lt_irrefl _)
    · by_cases hu : d.roundsUp prec = true
      · have hr : d.round prec = d.roundUp prec := by
          unfold digits.round; rw [if_neg h1, if_neg h2, if_pos hu]
        rw [hr]
        obtain ⟨u1, u2, u3, u4, u5, u6, u7⟩ := roundUp_spec d h prec (by omega) (by omega)
        exact ⟨u1, u2, fun hc => absurd hc h1, fun _ hc => absurd hc h2,
          fun _ _ => ⟨u4, u5, fun _ => u3, fun _ => ⟨u6, u7⟩⟩⟩
      · have hr : d.round prec = d.roundDown prec := by
          unfold digits.round; rw [if_neg h1, if_neg h2, if_neg hu]
        rw [hr]
        obtain ⟨w1, w2, w3, w4, w5⟩ := roundDown_spec d h prec (by omega) (by omega)
        exact ⟨w1, w2, fun hc => absurd hc h1, fun _ hc => absurd hc h2,
          fun _ _ => ⟨Or.inl w3, by omega, w5, fun _ => ⟨by omega, by omega⟩⟩⟩

/-! ## Digit strings of finite values -/

theorem digitsValue_lt (l : List Nat) (h : ∀ b ∈ l, isDigitByte b) :
    digitsValue l < 10 ^ l.length := by
  induction l using List.reverseRecOn with
  | nil => simp [digitsValue]
  | append_singleton l x ih =>
    have hx := h x (by simp)
    have hl := ih (fun b hb => h b (by simp [hb]))
    unfold isDigitByte at hx
    rw [byte_0, byte_9] at hx
    rw [digitsValue_append_single, List.length_append, List.length_singleton, pow_succ]
    omega

theorem take_eq_cons (dig : List Nat) (N : Nat) (hN : 1 ≤ N)
    (hlen : (dig.take N).length = N) :
    dig.take N = dig.getD 0 0 :: (dig.take N).drop 1 := by
  cases dig with
  | nil => simp at hlen; omega
  | cons a l =>
    cases N with
    | zero => omega
    | succ N => simp

/-- The digit string `Decimal.digits` returns for a finite value is well formed: its first
digit is not `0`. -/
theorem digits_wf (d : Decimal) (hwf : d.wf) (hfin : d.isSpecial = false) (digs : digits)
    (hd : d.digits = some digs) : digs.wf := by
  obtain ⟨f1, f2, f3, f4⟩ := decompose_finite d hwf hfin
  obtain ⟨digs1, hd1, _, hN0, hlen, hdigit, hzero, hnz⟩ :=
    digits_spec d hwf hfin 35 (lt_trans f2 (by norm_num)) (by norm_num)
  have he : digs1 = digs := Option.some.inj (hd1.symm.trans hd)
  subst he
  refine ⟨hN0, hlen, hdigit, ?_⟩
  intro hpos h48
  rw [byte_0] at h48
  have hc : d.decompose.1.toNat ≠ 0 := by
    intro hc
    have := (hzero hc).1
    omega
  obtain ⟨n1, n2, n3, n4⟩ := hnz hc
  have hcons := take_eq_cons digs1.dig digs1.ndig.toNat (by omega) hlen
  rw [h48] at hcons
  have hlt : digitsValue (digs1.dig.take digs1.ndig.toNat) < 10 ^ (digs1.ndig.toNat - 1) := by
    have hl := digitsValue_lt ((digs1.dig.take digs1.ndig.toNat).drop 1)
      (fun b hb => hdigit b (List.mem_of_mem_drop hb))
    rw [List.length_drop, hlen] at hl
    rw [hcons]
    have h1 : (48 :: (digs1.dig.take digs1.ndig.toNat).drop 1)
        = [48] ++ (digs1.dig.take digs1.ndig.toNat).drop 1 := rfl
    rw [h1, digitsValue_append]
    have h0 : digitsValue [48] = 0 := by simp [digitsValue, byte_0]
    rw [h0, zero_mul, zero_add]
    exact hl
  have hb : exponentBias = 6176 := rfl
  have hm : d.decompose.1.toNat
      < 10 ^ (digs1.ndig.toNat - 1 + (digs1.exp - (d.decompose.2 - exponentBias)).toNat) := by
    rw [← n4, pow_add]
    exact Nat.mul_lt_mul_of_lt_of_le hlt (le_refl _) (by positivity)
  obtain ⟨digs2, hd2, _, _, _, _, _, hnz2⟩ := digits_spec d hwf hfin _ hm (by omega)
  have he2 : digs2 = digs1 := Option.some.inj (hd2.symm.trans hd1)
  subst he2
  obtain ⟨_, _, m3, _⟩ := hnz2 hc
  rw [Nat.cast_add, Int.toNat_of_nonneg (by omega)] at m3
  omega

/-! ## `fmtE` in general -/

/-- The bytes `fmtE` writes for a digit string of at most `prec + 1` digits. -/
theorem fmtE_eq (d : digits) (h0 : 0 ≤ d.ndig) (p : Int) (hN : d.ndig ≤ p + 1)
    (forceDP printSign padSign : Bool) (e : Nat) :
    d.fmtE p forceDP printSign padSign true e
      = signPrefix d.neg printSign padSign
        ++ [if d.ndig = 0 then byte '0' else d.dig.getD 0 0]
        ++ (if p > 0 then
              byte '.' :: ((d.dig.take d.ndig.toNat).drop 1
                ++ List.replicate (p.toNat - (d.ndig.toNat - 1)) 48)
            else if forceDP then [byte '.'] else [])
        ++ [e]
        ++ [if (if d.ndig > 1 then d.exp + (d.ndig - 1) else d.exp) < 0 then byte '-'
            else byte '+']
        ++ expBytes
            (if (if d.ndig > 1 then d.exp + (d.ndig - 1) else d.exp) < 0 then
              -(if d.ndig > 1 then d.exp + (d.ndig - 1) else d.exp)
             else (if d.ndig > 1 then d.exp + (d.ndig - 1) else d.exp)) true := by
  obtain ⟨neg, dig, E, Ni⟩ := d
  simp only at h0 hN ⊢
  obtain ⟨N, rfl⟩ := Int.eq_ofNat_of_zero_le h0
  unfold digits.fmtE
  simp only [Int.toNat_ofNat]
  generalize hX : (if (N : Int) > 1 then E + ((N : Int) - 1) else E) = X
  have hsign : ∀ buf : List Nat,
      (if X < 0 then buf ++ [byte '-'] else buf ++ [byte '+'])
        = buf ++ [if X < 0 then byte '-' else byte '+'] := by
    intro buf; split_ifs <;> rfl
  rw [hsign]
  have hA0 : ∀ buf : List Nat,
      appendZeros (p - 0).toNat 0 p buf = buf ++ List.replicate p.toNat 48 := by
    intro buf
    rw [appendZeros_eq _ _ _ _ (by omega), sub_zero]
  by_cases hN0 : (N : Int) = 0
  · have hN0' : N = 0 := by omega
    subst hN0'
    have hgt : ¬ ((0 : Int) > 1) := by omega
    by_cases hp : p > 0
    · simp only [Nat.cast_zero, if_true, hgt, if_false, hp, hA0]
      simp
    · simp only [Nat.cast_zero, if_true, hgt, if_false, hp]
      cases forceDP <;> simp
  · by_cases hN1 : (N : Int) > 1
    · have hp : p > 0 := by omega
      have hA : ∀ buf : List Nat,
          appendZeros (p - ((N : Int) - 1)).toNat ((N : Int) - 1) p buf
            = buf ++ List.replicate (p.toNat - (N - 1)) 48 := by
        intro buf
        rw [appendZeros_eq _ _ _ _ (by omega)]
        have hk : (p - ((N : Int) - 1)).toNat = p.toNat - (N - 1) := by omega
        rw [hk]
      have hs : slice dig 1 (N : Int) = (dig.take N).drop 1 := by
        unfold slice; simp
      simp only [hN0, hN1, hp, if_true, if_false, hs, hA]
      simp
    · have hN1' : N = 1 := by omega
      subst hN1'
      have hd1 : (dig.take 1).drop 1 = [] := by
        cases dig <;> simp
      by_cases hp : p > 0
      · simp only [hN0, hN1, hp, if_true, if_false, hd1, hA0]
        simp
      · simp only [hN0, hN1, hp, if_false, hd1]
        cases forceDP <;> simp

theorem expBytes_length (x : Int) : 2 ≤ (expBytes x true).length := by
  unfold expBytes
  simp only [if_true]
  split_ifs <;> simp

theorem byte_plus : byte '+' = 43 := rfl

/-- The first digit `fmtE` writes, and the digits after the point: `prec` digit bytes that
continue the digit string with zeros. -/
theorem fmtE_parts (d : digits) (h : d.wf) (p : Int) (hp : 0 ≤ p) (hN : d.ndig ≤ p + 1) :
    isDigitByte (if d.ndig = 0 then byte '0' else d.dig.getD 0 0) ∧
    ((d.dig.take d.ndig.toNat).drop 1
      ++ List.replicate (p.toNat - (d.ndig.toNat - 1)) 48).length = p.toNat ∧
    (∀ b ∈ (d.dig.take d.ndig.toNat).drop 1
      ++ List.replicate (p.toNat - (d.ndig.toNat - 1)) 48, isDigitByte b) ∧
    digitsValue ((if d.ndig = 0 then byte '0' else d.dig.getD 0 0)
        :: ((d.dig.take d.ndig.toNat).drop 1
          ++ List.replicate (p.toNat - (d.ndig.toNat - 1)) 48))
      = digitsValue (d.dig.take d.ndig.toNat) * 10 ^ (p.toNat - (d.ndig.toNat - 1)) := by
  have hwf := h
  obtain ⟨h0, h1, h2, h3⟩ := h
  refine ⟨?_, ?_, ?_, ?_⟩
  · by_cases hz : d.ndig = 0
    · rw [if_pos hz]; exact isDigitByte_add 0 (by omega)
    · rw [if_neg hz]
      exact wf_getD_digit d hwf 0 (by omega)
  · rw [List.length_append, List.length_drop, h1, List.length_replicate]
    omega
  · intro b hb
    rw [List.mem_append] at hb
    rcases hb with hb | hb
    · exact h2 b (List.mem_of_mem_drop hb)
    · rw [(List.mem_replicate.1 hb).2]; exact isDigitByte_add 0 (by omega)
  · by_cases hz : d.ndig = 0
    · have hz' : d.ndig.toNat = 0 := by omega
      rw [if_pos hz, hz']
      simp only [List.take_zero, List.drop_nil, List.nil_append]
      have : byte '0' :: List.replicate (p.toNat - (0 - 1)) 48
          = List.replicate (p.toNat - (0 - 1) + 1) 48 := by
        rw [List.replicate_succ]; rfl
      rw [this, digitsValue_zeros]
      simp [digitsValue]
    · rw [if_neg hz]
      have hc := take_eq_cons d.dig d.ndig.toNat (by omega) h1
      rw [← List.cons_append, ← hc, digitsValue_append, digitsValue_zeros,
        List.length_replicate, add_zero]

/-! ## `Format`: verb `e` -/

theorem Format_e_eq (d : Decimal) (f : State) (verb : Char) (hfin : d.isSpecial = false)
    (digs : digits) (hd : d.digits = some digs) (hverb : verb = 'e' ∨ verb = 'E') :
    d.Format f verb = some ((digs.round (f.prec.getD 6 + 1)).fmtE (f.prec.getD 6) f.sharp
      f.plus f.space true (byte verb)) := by
  unfold Decimal.Format
  rw [hfin, hd]
  simp only [Bool.false_eq_true, if_false, Option.bind, hverb, if_true, Flag_plus, Flag_sharp,
    Flag_space]
  cases f.prec <;> rfl

/-- C13. Scientific form: for every finite `Decimal` and every precision `p ≥ 0` (6 when none
is given), `Format` with verb `e` or `E` writes the sign character (`-` if the sign bit is
set, else `+` with the `+` flag, else a space with the space flag, else nothing), exactly one
digit, then `.` and exactly `p` digits (no point when `p = 0`, unless the `#` flag is set),
then the verb letter, then `+` or `-` and at least two exponent digits; and when the digit
string of the value has at most `p + 1` digits, the numeral has exactly the value of the
decimal. The value 1000000 with no precision is written `1.000000e+06`. -/
theorem Format_scientific (d : Decimal) (f : State) (verb : Char) (hwf : d.wf)
    (hfin : d.isSpecial = false) (hverb : verb = 'e' ∨ verb = 'E')
    (hp : 0 ≤ f.prec.getD 6) :
    (∃ (digs : digits) (d0 : Nat) (fp : List Nat) (s : Nat) (ed : List Nat),
      d.digits = some digs ∧
      d.Format f verb = some ((if d.Signbit then [byte '-']
          else if f.plus then [byte '+'] else if f.space then [byte ' '] else []) ++ [d0]
        ++ (if f.prec.getD 6 > 0 then byte '.' :: fp
            else if f.sharp then [byte '.'] else [])
        ++ [byte verb] ++ [s] ++ ed) ∧
      isDigitByte d0 ∧ (fp.length : Int) = f.prec.getD 6 ∧ (∀ b ∈ fp, isDigitByte b) ∧
      (s = byte '+' ∨ s = byte '-') ∧ 2 ≤ ed.length ∧ (∀ b ∈ ed, isDigitByte b) ∧
      (digs.ndig ≤ f.prec.getD 6 + 1 →
        (⟨d.Signbit, [d0], fp, some (decide (s = byte '-'), ed)⟩ : Numeral).value
          = (d.decompose.1.toNat : ℚ) * (10 : ℚ) ^ (d.decompose.2 - exponentBias))) ∧
    (⟨1000000, 0x3040000000000000⟩ : Decimal).Format
        ⟨none, none, false, false, false, false, false⟩ 'e'
      = some (bytesOf "1.000000e+06") := by
  refine ⟨?_, by decide⟩
  obtain ⟨f1, f2, f3, f4⟩ := decompose_finite d hwf hfin
  obtain ⟨digs, hd, hneg, hN0, hlen, hdigit, hzero, hnz⟩ :=
    digits_spec d hwf hfin 35 (lt_trans f2 (by norm_num)) (by norm_num)
  have hw := digits_wf d hwf hfin digs hd
  have hb : exponentBias = 6176 := rfl
  generalize hpdef : f.prec.getD 6 = p at hp ⊢
  obtain ⟨r1, r2, r3, r4, r5⟩ := round_spec digs hw (p + 1)
  have hF := Format_e_eq d f verb hfin digs hd hverb
  rw [hpdef] at hF
  have hrN : (digs.round (p + 1)).ndig ≤ p + 1 := by
    by_cases hle : digs.ndig ≤ p + 1
    · rw [r3 hle]; exact hle
    · rcases (r5 (by omega) (by omega)).1 with h | h <;> omega
  -- the exponent printed stays within four digits
  have hX : -10000 < (if (digs.round (p + 1)).ndig > 1 then
        (digs.round (p + 1)).exp + ((digs.round (p + 1)).ndig - 1)
      else (digs.round (p + 1)).exp) ∧
      (if (digs.round (p + 1)).ndig > 1 then
        (digs.round (p + 1)).exp + ((digs.round (p + 1)).ndig - 1)
      else (digs.round (p + 1)).exp) < 10000 := by
    by_cases hc : d.decompose.1.toNat = 0
    · obtain ⟨z1, z2⟩ := hzero hc
      rw [r3 (by omega), z1, z2]
      simp
    · obtain ⟨n1, n2, n3, _⟩ := hnz hc
      have hr0 := r2.1
      by_cases hle : digs.ndig ≤ p + 1
      · rw [r3 hle]
        split_ifs <;> omega
      · obtain ⟨_, _, q3, q4⟩ := r5 (by omega) (by omega)
        have q3' := q3 (by omega)
        obtain ⟨q5, q6⟩ := q4 q3'
        split_ifs <;> omega
  generalize hXdef : (if (digs.round (p + 1)).ndig > 1 then
        (digs.round (p + 1)).exp + ((digs.round (p + 1)).ndig - 1)
      else (digs.round (p + 1)).exp) = X at hX
  have hE := fmtE_eq (digs.round (p + 1)) r2.1 p hrN f.sharp f.plus f.space (byte verb)
  rw [hXdef, r1, hneg] at hE
  unfold signPrefix at hE
  obtain ⟨p1, p2, p3, p4⟩ := fmtE_parts (digs.round (p + 1)) r2 p hp hrN
  obtain ⟨x1, x2, x3⟩ := expBytes_spec (if X < 0 then -X else X) (by split_ifs <;> omega)
    (by split_ifs <;> omega)
  refine ⟨digs, _, _, _, _, hd, by rw [hF, hE], p1, by rw [p2]; omega, p3, ?_,
    expBytes_length _, x2, ?_⟩
  · split_ifs
    · right; rfl
    · left; rfl
  · intro hle
    have hr := r3 hle
    rw [hr] at p2 p4 hXdef
    unfold Numeral.value Numeral.exponent
    simp only [List.singleton_append, hr]
    rw [p4, p2]
    by_cases hc : d.decompose.1.toNat = 0
    · obtain ⟨z1, z2⟩ := hzero hc
      have : digs.ndig.toNat = 0 := by omega
      rw [hc, this]
      simp [digitsValue]
    · obtain ⟨n1, n2, n3, n4⟩ := hnz hc
      rw [value_of_digits _ _ digs.exp _ n2 n4]
      have hXe : X = digs.exp + (digs.ndig - 1) := by
        rw [← hXdef]; split_ifs <;> omega
      have hexp : (if decide ((if X < 0 then byte '-' else byte '+') = byte '-') = true then
            -(digitsValue (expBytes (if X < 0 then -X else X) true) : Int)
          else (digitsValue (expBytes (if X < 0 then -X else X) true) : Int)) = X := by
        rw [x3]
        by_cases hneg' : X < 0
        · simp only [hneg', if_true, decide_True]
          omega
        · have hne : byte '+' ≠ byte '-' := by decide
          simp only [hneg', if_false, hne, decide_False, Bool.false_eq_true]
          omega
      rw [hexp]
      push_cast
      rw [mul_assoc, ← zpow_natCast, ← zpow_add₀ (by norm_num : (10 : ℚ) ≠ 0)]
      congr 2
      omega

/-- C13 on the value 1000000 with verb `e` and no precision: `1.000000e+06`; with the `+`
flag `+1.000000e+06`, with the space flag alone a leading space, and `-` for -1000000
whatever the flags. -/
theorem Format_scientific_witness :
    (⟨1000000, 0x3040000000000000⟩ : Decimal).Format
        ⟨none, none, false, false, false, false, false⟩ 'e'
      = some (bytesOf "1.000000e+06") ∧
    (⟨1000000, 0x3040000000000000⟩ : Decimal).Format
        ⟨none, none, true, false, false, true, false⟩ 'e'
      = some (bytesOf "+1.000000e+06") ∧
    (⟨1000000, 0x3040000000000000⟩ : Decimal).Format
        ⟨none, none, false, false, false, true, false⟩ 'E'
      = some (bytesOf " 1.000000E+06") ∧
    (⟨1000000, 0xb040000000000000⟩ : Decimal).Format
        ⟨none, some 2, true, false, false, true, false⟩ 'e'
      = some (bytesOf "-1.00e+06") ∧
    (∃ (digs : digits) (d0 : Nat) (fp : List Nat) (s : Nat) (ed : List Nat),
      (⟨1000000, 0x3040000000000000⟩ : Decimal).digits = some digs ∧
      (⟨1000000, 0x3040000000000000⟩ : Decimal).Format
          ⟨none, none, false, false, false, false, false⟩ 'e'
        = some ((if (⟨1000000, 0x3040000000000000⟩ : Decimal).Signbit then [byte '-']
            else if (⟨none, none, false, false, false, false, false⟩ : State).plus then
              [byte '+']
            else if (⟨none, none, false, false, false, false, false⟩ : State).space then
              [byte ' ']
            else []) ++ [d0]
          ++ (if (⟨none, none, false, false, false, false, false⟩ : State).prec.getD 6 > 0 then
                byte '.' :: fp
              else if (⟨none, none, false, false, false, false, false⟩ : State).sharp then
                [byte '.']
              else [])
          ++ [byte 'e'] ++ [s] ++ ed) ∧
      isDigitByte d0 ∧
      (fp.length : Int) = (⟨none, none, false, false, false, false, false⟩ : State).prec.getD 6 ∧
      (∀ b ∈ fp, isDigitByte b) ∧
      (s = byte '+' ∨ s = byte '-') ∧ 2 ≤ ed.length ∧ (∀ b ∈ ed, isDigitByte b) ∧
      (digs.ndig ≤ (⟨none, none, false, false, false, false, false⟩ : State).prec.getD 6 + 1 →
        (⟨(⟨1000000, 0x3040000000000000⟩ : Decimal).Signbit, [d0], fp,
            some (decide (s = byte '-'), ed)⟩ : Numeral).value
          = ((⟨1000000, 0x3040000000000000⟩ : Decimal).decompose.1.toNat : ℚ)
            * (10 : ℚ) ^ ((⟨1000000, 0x3040000000000000⟩ : Decimal).decompose.2
                - exponentBias))) :=
  ⟨by decide, by decide, by decide, by decide,
    (Format_scientific ⟨1000000, 0x3040000000000000⟩
      ⟨none, none, false, false, false, false, false⟩ 'e' (by decide) (by decide) (by decide)
      (by decide)).1⟩

/-! ## `fmtF` in general -/

theorem replicate_digits (k : Nat) : ∀ b ∈ List.replicate k 48, isDigitByte b := by
  intro b hb
  rw [List.eq_of_mem_replicate hb]
  decide

theorem leadZeros_nonneg (fuel : Nat) (dp prec : Int) (buf : List Nat) (h : 0 ≤ dp) :
    leadZeros fuel dp prec buf = (dp, prec, buf) := by
  cases fuel with
  | zero => rfl
  | succ n => simp only [leadZeros]; rw [if_neg (by omega)]

/-- The fixed form in general: when no digit lies beyond the `p`-th decimal place, `fmtF`
writes the sign, an integer part without a leading zero (or a lone `0`), and exactly `p`
fraction digits, and the digits written are the digits of the value scaled by `10 ^ p`. -/
theorem fmtF_shape (d : digits) (h : d.wf) (p : Int) (hp : 0 ≤ p)
    (hE : d.ndig = 0 ∨ 0 ≤ d.exp + p) (forceDP printSign padSign : Bool) :
    ∃ ip fp : List Nat,
      d.fmtF p forceDP printSign padSign = signPrefix d.neg printSign padSign ++ ip
        ++ (if p > 0 then byte '.' :: fp else if forceDP then [byte '.'] else []) ∧
      ip ≠ [] ∧ (∀ b ∈ ip, isDigitByte b) ∧
      (ip = [byte '0'] ∨ ip.head? ≠ some (byte '0')) ∧
      fp.length = p.toNat ∧ (∀ b ∈ fp, isDigitByte b) ∧
      digitsValue (ip ++ fp)
        = digitsValue (d.dig.take d.ndig.toNat) * 10 ^ (d.exp + p).toNat := by
  obtain ⟨h0, hlen, hdig, htop⟩ := h
  obtain ⟨neg, dig, E, nd⟩ := d
  simp only at h0 hlen hdig htop hE ⊢
  obtain ⟨N, rfl⟩ := Int.eq_ofNat_of_zero_le h0
  obtain ⟨P, rfl⟩ := Int.eq_ofNat_of_zero_le hp
  simp only [Int.toNat_ofNat] at hlen hdig ⊢
  generalize hS : signPrefix neg printSign padSign = S
  by_cases hN : N = 0
  · subst hN
    refine ⟨[byte '0'], List.replicate P 48, ?_, by simp, ?_, Or.inl rfl, by simp,
      replicate_digits P, ?_⟩
    · unfold digits.fmtF
      simp only [Nat.cast_zero, if_true, hS]
      by_cases hP : (P : Int) > 0
      · simp only [hP, if_true]
        rw [leadZeros_nonneg _ _ _ _ (by omega)]
        simp only [gt_iff_lt, lt_self_iff_false, if_false]
        rw [appendZeros_eq _ _ _ _ (by omega)]
        simp
      · simp only [hP, if_false]
        cases forceDP <;> simp
    · intro b hb
      rw [List.mem_singleton] at hb
      rw [hb]; decide
    · rw [digitsValue_append, digitsValue_zeros]
      simp [digitsValue, byte_0]
  · have hN1 : 1 ≤ N := by omega
    have hN0 : ¬ (N : Int) = 0 := by omega
    have hE' : 0 ≤ E + P := by omega
    have hcons := take_eq_cons dig N hN1 hlen
    have htop' := htop (by omega)
    by_cases hdp : (N : Int) + E > 0
    · by_cases hgt : (N : Int) > (N : Int) + E
      · -- the point falls inside the digits
        obtain ⟨K, hK⟩ := Int.eq_ofNat_of_zero_le (le_of_lt hdp)
        have hK1 : 1 ≤ K := by omega
        have hKN : K ≤ N := by omega
        refine ⟨(dig.take N).take K,
          (dig.take N).drop K ++ List.replicate (P - (N - K)) 48, ?_, ?_, ?_, ?_, ?_, ?_, ?_⟩
        · unfold digits.fmtF
          simp only [hN0, hdp, hgt, if_true, if_false, hS]
          rw [hK]
          have hs1 : slice dig 0 (K : Int) = (dig.take N).take K := by
            have := slice_eq dig 0 K N hKN
            simpa using this
          have hs2 : slice dig (K : Int) (N : Int) = (dig.take N).drop K := by
            have := slice_eq dig K N N (le_refl _)
            rw [List.take_take, min_self] at this
            simpa using this
          by_cases hP : (P : Int) > 0
          · simp only [hP, if_true]
            rw [leadZeros_nonneg _ _ _ _ (by omega)]
            have : (N : Int) > (K : Int) := by omega
            simp only [this, if_true, hs1, hs2]
            rw [appendZeros_eq _ _ _ _ (by omega)]
            have hz : ((P : Int) - ((N : Int) - (K : Int))).toNat = P - (N - K) := by omega
            rw [hz]
            simp
          · omega
        · rw [hcons]
          obtain ⟨k, rfl⟩ : ∃ k, K = k + 1 := ⟨K - 1, by omega⟩
          simp
        · intro b hb
          exact hdig b (List.mem_of_mem_take hb)
        · right
          rw [hcons]
          obtain ⟨k, rfl⟩ : ∃ k, K = k + 1 := ⟨K - 1, by omega⟩
          simp only [List.take_succ_cons, List.head?_cons, ne_eq, Option.some.injEq]
          exact htop'
        · rw [List.length_append, List.length_drop, hlen, List.length_replicate]
          omega
        · intro b hb
          rw [List.mem_append] at hb
          rcases hb with hb | hb
          · exact hdig b (List.mem_of_mem_drop hb)
          · exact replicate_digits _ b hb
        · rw [← List.append_assoc, List.take_append_drop, digitsValue_append,
            digitsValue_zeros, List.length_replicate]
          have : (E + (P : Int)).toNat = P - (N - K) := by omega
          rw [this]
          omega
      · -- the digits end before the point
        refine ⟨dig.take N ++ List.replicate E.toNat 48, List.replicate P 48,
          ?_, ?_, ?_, ?_, ?_, ?_, ?_⟩
        · unfold digits.fmtF
          simp only [hN0, hdp, hgt, if_true, if_false, hS]
          have hs1 : slice dig 0 (N : Int) = dig.take N := by
            have := slice_eq dig 0 N N (le_refl _)
            rw [List.take_take, min_self] at this
            simpa using this
          rw [hs1, appendZeros_eq _ _ _ _ (by omega)]
          have hz : ((N : Int) + E - (N : Int)).toNat = E.toNat := by omega
          rw [hz]
          by_cases hP : (P : Int) > 0
          · simp only [hP, if_true]
            rw [leadZeros_nonneg _ _ _ _ (by omega)]
            simp only [hgt, if_false]
            rw [appendZeros_eq _ _ _ _ (by omega)]
            simp
          · simp only [hP, if_false]
            cases forceDP <;> simp
        · rw [hcons]; simp
        · intro b hb
          rw [List.mem_append] at hb
          rcases hb with hb | hb
          · exact hdig b hb
          · exact replicate_digits _ b hb
        · right
          rw [hcons]
          simp only [List.cons_append, List.head?_cons, ne_eq, Option.some.injEq]
          exact htop'
        · simp
        · exact replicate_digits P
        · rw [List.append_assoc, ← List.replicate_add, digitsValue_append, digitsValue_zeros,
            List.length_replicate]
          have : (E + (P : Int)).toNat = E.toNat + P := by omega
          rw [this]
          omega
    · -- the point falls before the digits
      have hP : (P : Int) > 0 := by omega
      refine ⟨[byte '0'],
        List.replicate (0 - ((N : Int) + E)).toNat 48 ++ dig.take N
          ++ List.replicate (E + P).toNat 48, ?_, by simp, ?_, Or.inl rfl, ?_, ?_, ?_⟩
      · unfold digits.fmtF
        simp only [hN0, hdp, hP, if_true, if_false, hS]
        have hl : leadZeros (0 - ((N : Int) + E)).toNat ((N : Int) + E) (P : Int)
            (S ++ [byte '0'] ++ [byte '.'])
            = (0, (P : Int) + ((N : Int) + E),
                S ++ [byte '0'] ++ [byte '.']
                  ++ List.replicate (0 - ((N : Int) + E)).toNat 48) := by
          rw [leadZeros_eq _ _ _ _ (by omega)]
          by_cases h : (N : Int) + E < 0
          · rw [if_pos h]
          · rw [if_neg h]
            have h0 : (N : Int) + E = 0 := by omega
            rw [h0]
            simp
        rw [hl]
        have hgt : (N : Int) > 0 := by omega
        have hs1 : slice dig 0 (N : Int) = dig.take N := by
          have := slice_eq dig 0 N N (le_refl _)
          rw [List.take_take, min_self] at this
          simpa using this
        simp only [hgt, if_true, hs1]
        rw [appendZeros_eq _ _ _ _ (by omega)]
        have hz : ((P : Int) + ((N : Int) + E) - ((N : Int) - 0)).toNat = (E + P).toNat := by
          omega
        rw [hz]
        simp
      · intro b hb
        rw [List.mem_singleton] at hb
        rw [hb]; decide
      · rw [List.length_append, List.length_append, hlen, List.length_replicate,
          List.length_replicate]
        omega
      · intro b hb
        rw [List.mem_append, List.mem_append] at hb
        rcases hb with (hb | hb) | hb
        · exact replicate_digits _ b hb
        · exact hdig b hb
        · exact replicate_digits _ b hb
      · have h1 : [byte '0'] ++ (List.replicate (0 - ((N : Int) + E)).toNat 48 ++ dig.take N
            ++ List.replicate (E + P).toNat 48)
            = List.replicate ((0 - ((N : Int) + E)).toNat + 1) 48
              ++ (dig.take N ++ List.replicate (E + P).toNat 48) := by
          rw [byte_0, List.replicate_succ]
          simp
        rw [h1, digitsValue_append, digitsValue_zeros, digitsValue_append, digitsValue_zeros,
          List.length_replicate]
        omega

/-! ## `Format`: verb `f` -/

theorem Format_f_eq (d : Decimal) (f : State) (verb : Char) (hfin : d.isSpecial = false)
    (digs : digits) (hd : d.digits = some digs) (hverb : verb = 'f' ∨ verb = 'F') :
    d.Format f verb = some ((if digs.exp < 0 then
        digs.round (digs.ndig + digs.exp + f.prec.getD 6) else digs).fmtF (f.prec.getD 6)
      f.sharp f.plus f.space) := by
  unfold Decimal.Format
  rw [hfin, hd]
  simp only [Bool.false_eq_true, if_false, Option.bind, Flag_plus, Flag_sharp, Flag_space]
  have h1 : ¬ (verb = 'e' ∨ verb = 'E') := by
    rcases hverb with rfl | rfl <;> decide
  rw [if_neg h1, if_pos hverb]
  cases f.prec <;> rfl

theorem signPrefix_bytes (neg printSign padSign : Bool) :
    ∀ b ∈ signPrefix neg printSign padSign, b = byte '-' ∨ b = byte '+' ∨ b = byte ' ' := by
  intro b hb
  unfold signPrefix at hb
  cases neg <;> cases printSign <;> cases padSign <;> simp at hb <;> simp [hb]

/-- C14. Fixed form: for every finite `Decimal` and every precision `p ≥ 0` (6 when none is
given), `Format` with verb `f` or `F` writes the sign character (`-` if the sign bit is set,
else `+` with the `+` flag, else a space with the space flag, else nothing), an integer part
of at least one digit, the single digit `0` when it is 0 (the rounded magnitude is below 1)
and without a leading `0` otherwise, then `.` and exactly `p` digits (no point when `p = 0`,
unless the `#` flag is set); no byte written is `e` or `E`; and when the digit string of the
value has no digit beyond the `p`-th decimal place, the numeral has exactly the value of the
decimal. -/
theorem Format_fixed (d : Decimal) (f : State) (verb : Char) (hwf : d.wf)
    (hfin : d.isSpecial = false) (hverb : verb = 'f' ∨ verb = 'F')
    (hp : 0 ≤ f.prec.getD 6) :
    ∃ (digs : digits) (ip fp : List Nat),
      d.digits = some digs ∧
      d.Format f verb = some (signPrefix d.Signbit f.plus f.space ++ ip
        ++ (if f.prec.getD 6 > 0 then byte '.' :: fp
            else if f.sharp then [byte '.'] else [])) ∧
      ip ≠ [] ∧ (∀ b ∈ ip, isDigitByte b) ∧
      (digitsValue ip = 0 → ip = [byte '0']) ∧
      (digitsValue ip ≠ 0 → ip.head? ≠ some (byte '0')) ∧
      (fp.length : Int) = f.prec.getD 6 ∧ (∀ b ∈ fp, isDigitByte b) ∧
      (∀ out, d.Format f verb = some out → ∀ b ∈ out, b ≠ byte 'e' ∧ b ≠ byte 'E') ∧
      (0 ≤ digs.exp + f.prec.getD 6 →
        (⟨d.Signbit, ip, fp, none⟩ : Numeral).value
          = (d.decompose.1.toNat : ℚ) * (10 : ℚ) ^ (d.decompose.2 - exponentBias)) := by
  obtain ⟨f1, f2, f3, f4⟩ := decompose_finite d hwf hfin
  obtain ⟨digs, hd, hneg, hN0, hlen, hdigit, hzero, hnz⟩ :=
    digits_spec d hwf hfin 35 (lt_trans f2 (by norm_num)) (by norm_num)
  have hw := digits_wf d hwf hfin digs hd
  have hb : exponentBias = 6176 := rfl
  have hF := Format_f_eq d f verb hfin digs hd hverb
  generalize hpdef : f.prec.getD 6 = p at hp hF ⊢
  have hr : ∃ r : digits, (if digs.exp < 0 then digs.round (digs.ndig + digs.exp + p)
        else digs) = r ∧ r.neg = digs.neg ∧ r.wf ∧ (r.ndig = 0 ∨ 0 ≤ r.exp + p) ∧
      (0 ≤ digs.exp + p → r = digs) := by
    by_cases hneg' : digs.exp < 0
    · obtain ⟨r1, r2, r3, r4, r5⟩ := round_spec digs hw (digs.ndig + digs.exp + p)
      refine ⟨_, rfl, ?_⟩
      rw [if_pos hneg']
      refine ⟨r1, r2, ?_, fun h => r3 (by omega)⟩
      by_cases hle : digs.ndig ≤ digs.ndig + digs.exp + p
      · rw [r3 hle]; right; omega
      · by_cases h0 : digs.ndig + digs.exp + p < 0
        · left; exact r4 (by omega) h0
        · right
          have := (r5 (by omega) (by omega)).2.1
          omega
    · refine ⟨digs, by rw [if_neg hneg'], rfl, hw, Or.inr (by omega), fun _ => rfl⟩
  obtain ⟨r, hr0, hr1, hr2, hr3, hr4⟩ := hr
  rw [hr0] at hF
  obtain ⟨ip, fp, s1, s2, s3, s4, s5, s6, s7⟩ := fmtF_shape r hr2 p hp hr3 f.sharp f.plus f.space
  rw [hr1, hneg] at s1
  rw [s1] at hF
  refine ⟨digs, ip, fp, hd, hF, s2, s3, ?_, ?_, by rw [s5]; omega, s6, ?_, ?_⟩
  · intro h0
    rcases s4 with h | h
    · exact h
    · exfalso
      cases ip with
      | nil => exact s2 rfl
      | cons a l =>
        have ha := s3 a (List.mem_cons_self _ _)
        unfold isDigitByte at ha
        simp only [List.head?_cons, ne_eq, Option.some.injEq] at h
        rw [byte_0] at ha h
        have hv := digitsValue_append [a] l
        have h1 : digitsValue [a] = a - 48 := by simp [digitsValue, byte_0]
        rw [List.singleton_append, h0, h1] at hv
        have hpos : 0 < 10 ^ l.length := Nat.pos_of_ne_zero (by positivity)
        have hz : (a - 48) * 10 ^ l.length = 0 := by omega
        rcases Nat.mul_eq_zero.mp hz with h2 | h2 <;> omega
  · intro hne
    rcases s4 with h | h
    · exact absurd (by rw [h]; rfl) hne
    · exact h
  · intro out hout b hb
    rw [hF] at hout
    rw [← Option.some.inj hout] at hb
    have hdot : byte '.' ≠ byte 'e' ∧ byte '.' ≠ byte 'E' := by decide
    have hdg : ∀ x, isDigitByte x → x ≠ byte 'e' ∧ x ≠ byte 'E' := by
      intro x hx
      unfold isDigitByte at hx
      rw [byte_0, byte_9] at hx
      have h1 : byte 'e' = 101 := rfl
      have h2 : byte 'E' = 69 := rfl
      rw [h1, h2]
      omega
    rw [List.mem_append, List.mem_append] at hb
    rcases hb with (hb | hb) | hb
    · rcases signPrefix_bytes _ _ _ b hb with h | h | h <;> rw [h] <;> decide
    · exact hdg b (s3 b hb)
    · split_ifs at hb
      · rw [List.mem_cons] at hb
        rcases hb with hb | hb
        · rw [hb]; exact hdot
        · exact hdg b (s6 b hb)
      · rw [List.mem_singleton] at hb
        rw [hb]; exact hdot
      · simp at hb
  · intro hE
    have hrd := hr4 hE
    rw [hrd] at s7
    unfold Numeral.value Numeral.exponent
    simp only
    rw [s7, s5]
    by_cases hc : d.decompose.1.toNat = 0
    · obtain ⟨z1, z2⟩ := hzero hc
      have : digs.ndig.toNat = 0 := by omega
      rw [hc, this]
      simp [digitsValue]
    · obtain ⟨n1, n2, n3, n4⟩ := hnz hc
      rw [value_of_digits _ _ digs.exp _ n2 n4]
      push_cast
      rw [mul_assoc, ← zpow_natCast, ← zpow_add₀ (by norm_num : (10 : ℚ) ≠ 0)]
      congr 2
      omega

/-- C14 on the value 123.45 with verb `f` and precision 1: `123.4`, the tie going to the
even digit; and with no precision, `123.450000`. -/
theorem Format_fixed_witness :
    (⟨12345, 0x303c000000000000⟩ : Decimal).Format
        ⟨none, some 1, false, false, false, false, false⟩ 'f' = some (bytesOf "123.4") ∧
    (⟨12345, 0x303c000000000000⟩ : Decimal).Format
        ⟨none, none, false, false, false, false, false⟩ 'f' = some (bytesOf "123.450000") ∧
    ∃ (digs : digits) (ip fp : List Nat),
      (⟨12345, 0x303c000000000000⟩ : Decimal).digits = some digs ∧
      (⟨12345, 0x303c000000000000⟩ : Decimal).Format
          ⟨none, none, false, false, false, false, false⟩ 'f'
        = some (signPrefix (⟨12345, 0x303c000000000000⟩ : Decimal).Signbit
            (⟨none, none, false, false, false, false, false⟩ : State).plus
            (⟨none, none, false, false, false, false, false⟩ : State).space ++ ip
          ++ (if (⟨none, none, false, false, false, false, false⟩ : State).prec.getD 6 > 0 then
                byte '.' :: fp
              else if (⟨none, none, false, false, false, false, false⟩ : State).sharp then
                [byte '.']
              else [])) ∧
      ip ≠ [] ∧ (∀ b ∈ ip, isDigitByte b) ∧
      (digitsValue ip = 0 → ip = [byte '0']) ∧
      (digitsValue ip ≠ 0 → ip.head? ≠ some (byte '0')) ∧
      (fp.length : Int) = (⟨none, none, false, false, false, false, false⟩ : State).prec.getD 6 ∧
      (∀ b ∈ fp, isDigitByte b) ∧
      (∀ out, (⟨12345, 0x303c000000000000⟩ : Decimal).Format
          ⟨none, none, false, false, false, false, false⟩ 'f' = some out →
        ∀ b ∈ out, b ≠ byte 'e' ∧ b ≠ byte 'E') ∧
      (0 ≤ digs.exp + (⟨none, none, false, false, false, false, false⟩ : State).prec.getD 6 →
        (⟨(⟨12345, 0x303c000000000000⟩ : Decimal).Signbit, ip, fp, none⟩ : Numeral).value
          = ((⟨12345, 0x303c000000000000⟩ : Decimal).decompose.1.toNat : ℚ)
            * (10 : ℚ) ^ ((⟨12345, 0x303c000000000000⟩ : Decimal).decompose.2
                - exponentBias)) :=
  ⟨by decide, by decide, Format_fixed ⟨12345, 0x303c000000000000⟩
    ⟨none, none, false, false, false, false, false⟩ 'f' (by decide) (by decide) (by decide)
    (by decide)⟩

/-! ## `Format`: verb `g`, and ties in `round` -/

/-- C15 fails on the code. With verb `g` and precision 3 the value 100 (coefficient 1,
exponent 2) has decimal exponent `X = digs.exp + digs.ndig - 1 = 2` after rounding, inside
`-4 ≤ X ≤ 3`, yet `Format` writes the scientific form `1.000e+02`; and the value 0.00001
(coefficient 1, exponent -5) has `X = -5 < -4`, yet `Format` writes the fixed form
`0.00001`. The branch compares `digs.exp + prec`, not `digs.exp + digs.ndig - 1`. -/
theorem Format_general_choice :
    ((⟨1, 0x3044000000000000⟩ : Decimal).digits.map
        fun g => (g.round 3).exp + (g.round 3).ndig - 1) = some 2 ∧
    (⟨1, 0x3044000000000000⟩ : Decimal).Format
        ⟨none, some 3, false, false, false, false, false⟩ 'g' = some (bytesOf "1.000e+02") ∧
    ((⟨1, 0x3036000000000000⟩ : Decimal).digits.map
        fun g => (g.round 3).exp + (g.round 3).ndig - 1) = some (-5) ∧
    (⟨1, 0x3036000000000000⟩ : Decimal).Format
        ⟨none, some 3, false, false, false, false, false⟩ 'g' = some (bytesOf "0.00001") := by
  decide

/-- C16 fails on the code. With verb `g`, no precision and no `#` flag, the value 123 is
written `1.20e+02` and the value 7 is written `1e+01`, while `String` and verb `v` write
`123` and `7`: the default precision is `digs.ndig - 1`, and `round` to it drops the last
digit. -/
theorem Format_general_default :
    (⟨123, 0x3040000000000000⟩ : Decimal).Format
        ⟨none, none, false, false, false, false, false⟩ 'g' = some (bytesOf "1.20e+02") ∧
    (⟨123, 0x3040000000000000⟩ : Decimal).Format
        ⟨none, none, false, false, false, false, false⟩ 'v' = some (bytesOf "123") ∧
    (⟨123, 0x3040000000000000⟩ : Decimal).String = some (bytesOf "123") ∧
    (⟨7, 0x3040000000000000⟩ : Decimal).Format
        ⟨none, none, false, false, false, false, false⟩ 'g' = some (bytesOf "1e+01") ∧
    (⟨7, 0x3040000000000000⟩ : Decimal).Format
        ⟨none, none, false, false, false, false, false⟩ 'G' = some (bytesOf "1E+01") ∧
    (⟨7, 0x3040000000000000⟩ : Decimal).String = some (bytesOf "7") := by
  decide

/-- C17 fails on the code at `prec = 0`. The digit string of 0.5 is the single digit `5`
with exponent -1; the value lies halfway between 0 and 1, and `round(0)` leaves the digit
`1` with exponent 0, the odd candidate: the test for a tie is skipped when `ndig = 1`. So
verb `f` with precision 0 writes `1` for 0.5, while it writes `2` for both 1.5 and 2.5. -/
theorem round_tie_at_zero :
    (⟨false, [byte '5'], -1, 1⟩ : digits).round 0 = ⟨false, [byte '1'], 0, 1⟩ ∧
    ((⟨5, 0x303e000000000000⟩ : Decimal).digits.map
        fun g => (g.ndig, g.exp, g.dig.getD 0 0)) = some (1, -1, byte '5') ∧
    ((⟨5, 0x303e000000000000⟩ : Decimal).digits.map
        fun g => ((g.round 0).ndig, (g.round 0).exp, (g.round 0).dig.getD 0 0))
      = some (1, 0, byte '1') ∧
    (⟨5, 0x303e000000000000⟩ : Decimal).Format
        ⟨none, some 0, false, false, false, false, false⟩ 'f' = some (bytesOf "1") ∧
    (⟨15, 0x303e000000000000⟩ : Decimal).Format
        ⟨none, some 0, false, false, false, false, false⟩ 'f' = some (bytesOf "2") ∧
    (⟨25, 0x303e000000000000⟩ : Decimal).Format
        ⟨none, some 0, false, false, false, false, false⟩ 'f' = some (bytesOf "2") := by
  decide

/-! ## `Reduce` -/

/-- The loop of `Reduce` folds the values from index `i` on, whatever bound of at least
`len(values) - i` rounds it is given. -/
theorem reduceLoop_spec (values : List Decimal) (reducer : Decimal → Decimal → Decimal)
    (fuel : Nat) : ∀ (i : Nat) (r : Decimal), values.length ≤ i + fuel →
    reduceLoop values reducer fuel i r = some ((values.drop i).foldl reducer r) := by
  induction fuel with
  | zero =>
    intro i r h
    rw [List.drop_eq_nil_of_le (by omega)]
    rfl
  | succ fuel ih =>
    intro i r h
    by_cases hi : i < values.length
    · rw [reduceLoop, if_pos hi, List.getElem?_eq_getElem hi]
      simp only [Option.bind]
      rw [ih (i + 1) _ (by omega), List.drop_eq_getElem_cons hi]
      rfl
    · rw [reduceLoop, if_neg hi, List.drop_eq_nil_of_le (by omega)]
      rfl

theorem Reduce_eq (Zero : Decimal) (values : List Decimal)
    (reducer : Decimal → Decimal → Decimal) (a : List Decimal) :
    Reduce Zero values reducer a = some (values.foldl reducer (a.headD Zero)) := by
  unfold Reduce
  have hinit : (if a.length > 0 then a[0]? else some Zero) = some (a.headD Zero) := by
    cases a <;> simp
  rw [hinit]
  simp only [Option.bind]
  cases values with
  | nil => rfl
  | cons v vs =>
    rw [if_neg (by simp)]
    simp only [List.getElem?_cons_zero, Option.bind]
    rw [reduceLoop_spec _ _ _ _ _ (by omega)]
    rfl

/-- C21. `Reduce` is a left fold and does not panic: for every list of values, every reducer
and every argument list `a`, it returns `r(...r(r(init, v0), v1)..., vn-1)`, where `init` is
`a[0]` when `a` is not empty and `Zero` otherwise; for an empty list it returns `init`;
arguments after `a[0]` are ignored; and with a reducer that adds 0 + 1 = 1, 1 + 2 = 3 and
3 + 3 = 6, the values 1, 2, 3 and `init` 0 give 6. -/
theorem Reduce_foldl (Zero : Decimal) (values : List Decimal)
    (reducer : Decimal → Decimal → Decimal) (a : List Decimal) :
    Reduce Zero values reducer a = some (values.foldl reducer (a.headD Zero)) ∧
    (values = [] → Reduce Zero values reducer a = some (a.headD Zero)) ∧
    (a = [] → Reduce Zero values reducer a = some (values.foldl reducer Zero)) ∧
    (∀ x rest, a = x :: rest →
      Reduce Zero values reducer a = some (values.foldl reducer x) ∧
      Reduce Zero values reducer a = Reduce Zero values reducer [x]) ∧
    (∀ zero one two three six : Decimal, reducer zero one = one → reducer one two = three →
      reducer three three = six →
      Reduce Zero [one, two, three] reducer [zero] = some six) := by
  refine ⟨Reduce_eq _ _ _ _, ?_, ?_, ?_, ?_⟩
  · intro h
    rw [Reduce_eq, h]
    rfl
  · intro h
    rw [Reduce_eq, h]
    rfl
  · intro x rest h
    rw [Reduce_eq, Reduce_eq, h]
    exact ⟨rfl, rfl⟩
  · intro zero one two three six h1 h2 h3
    rw [Reduce_eq]
    simp only [List.headD_cons, List.foldl_cons, List.foldl_nil, h1, h2, h3]

/-- C21 on the values 1, 2, 3 with a reducer that adds the low words, without an initial
value (`Zero` is used) and with the initial values 10 and 20 (20 is ignored). -/
theorem Reduce_foldl_witness :
    Reduce ⟨0, 0x3040000000000000⟩
        [⟨1, 0x3040000000000000⟩, ⟨2, 0x3040000000000000⟩, ⟨3, 0x3040000000000000⟩]
        (fun prev curr => ⟨prev.lo + curr.lo, 0x3040000000000000⟩) []
      = some ⟨6, 0x3040000000000000⟩ ∧
    Reduce ⟨0, 0x3040000000000000⟩
        [⟨1, 0x3040000000000000⟩, ⟨2, 0x3040000000000000⟩, ⟨3, 0x3040000000000000⟩]
        (fun prev curr => ⟨prev.lo + curr.lo, 0x3040000000000000⟩)
        [⟨10, 0x3040000000000000⟩, ⟨20, 0x3040000000000000⟩]
      = some ⟨16, 0x3040000000000000⟩ ∧
    Reduce ⟨0, 0x3040000000000000⟩
        [⟨1, 0x3040000000000000⟩, ⟨2, 0x3040000000000000⟩, ⟨3, 0x3040000000000000⟩]
        (fun prev curr => ⟨prev.lo + curr.lo, 0x3040000000000000⟩)
        [⟨0, 0x3040000000000000⟩]
      = some ⟨6, 0x3040000000000000⟩ :=
  ⟨by decide, by decide,
    (Reduce_foldl ⟨0, 0x3040000000000000⟩
      [⟨1, 0x3040000000000000⟩, ⟨2, 0x3040000000000000⟩, ⟨3, 0x3040000000000000⟩]
      (fun prev curr => ⟨prev.lo + curr.lo, 0x3040000000000000⟩)
      [⟨0, 0x3040000000000000⟩]).2.2.2.2 ⟨0, 0x3040000000000000⟩ ⟨1, 0x3040000000000000⟩
      ⟨2, 0x3040000000000000⟩ ⟨3, 0x3040000000000000⟩ ⟨6, 0x3040000000000000⟩
      (by decide) (by decide) (by decide)⟩

/-! ## `digits` on every bit pattern -/

/-- Whatever the bit pattern, the coefficient `decompose` returns is a 128-bit number below
`2^113 + 2^111`, and so below `10^35`. -/
theorem decompose_any (d : Decimal) (hwf : d.wf) :
    d.decompose.1.wf ∧ d.decompose.1.toNat < 2 ^ 113 + 2 ^ 111 := by
  have hlo := hwf.1
  rw [decompose_eq]
  by_cases hB : d.hi / 2 ^ 61 % 4 = 3
  · rw [if_pos hB]
    simp only [uint128.wf, uint128.toNat]
    refine ⟨⟨hlo, ?_⟩, ?_⟩ <;> omega
  · rw [if_neg hB]
    simp only [uint128.wf, uint128.toNat]
    refine ⟨⟨hlo, ?_⟩, ?_⟩ <;> omega

theorem setDig_getD_zero (dig : List Nat) (i b : Nat) (dig1 : List Nat)
    (hs : setDig dig i b = some dig1) :
    dig1.getD 0 0 = if i = 0 then b else dig.getD 0 0 := by
  unfold setDig at hs
  by_cases hlen : i < dig.length
  · rw [if_pos hlen] at hs
    rw [← Option.some.inj hs]
    by_cases hi : i = 0
    · rw [if_pos hi, hi, getD_set_self _ _ _ (by omega)]
    · rw [if_neg hi, getD_set_ne _ _ _ _ hi]
  · rw [if_neg hlen] at hs
    exact absurd hs (by simp)

/-- The division loop of `Decimal.digits` never stores `'0'` as the lowest digit: zeros at
the low end are dropped. -/
theorem digitsLoop_low (fuel : Nat) : ∀ (sig : uint128) (n : Nat) (exp : Int)
    (dig : List Nat) (r : Nat × Int × List Nat), sig.wf →
    (0 < n → dig.getD 0 0 ≠ 48) → digitsLoop fuel sig n exp dig = some r →
    0 < r.1 → r.2.2.getD 0 0 ≠ 48 := by
  induction fuel with
  | zero =>
    intro sig n exp dig r _ hinv h hpos
    have hr : r = (n, exp, dig) := (Option.some.inj h).symm
    rw [hr] at hpos ⊢
    exact hinv hpos
  | succ fuel ih =>
    intro sig n exp dig r hwf hinv h hpos
    rw [digitsLoop] at h
    by_cases hsig : sig = ⟨0, 0⟩
    · rw [if_neg (not_not.2 hsig)] at h
      have hr : r = (n, exp, dig) := (Option.some.inj h).symm
      rw [hr] at hpos ⊢
      exact hinv hpos
    · rw [if_pos hsig] at h
      obtain ⟨hq, hrem, hqwf⟩ := div100_toNat sig hwf
      by_cases ha : n = 0 ∧ sig.div100.2 = 0
      · rw [if_pos ha] at h
        exact ih _ _ _ _ _ hqwf hinv h hpos
      · rw [if_neg ha] at h
        obtain ⟨t1, t2, t3, t4, t5⟩ := digitPairs_spec sig.div100.2 (by omega)
        rw [t1] at h
        simp only at h
        by_cases hb : n = 0 ∧ (digitPairs.getD sig.div100.2 ('0', '0')).2 = '0'
        · rw [if_pos hb, t2] at h
          cases hs : setDig dig n (48 + sig.div100.2 / 10) with
          | none => rw [hs] at h; exact absurd h (by simp)
          | some dig1 =>
            rw [hs] at h
            simp only [Option.bind] at h
            refine ih _ _ _ _ _ hqwf (fun _ => ?_) h hpos
            rw [setDig_getD_zero _ _ _ _ hs, if_pos hb.1]
            have hr10 : sig.div100.2 % 10 = 0 := t5.1 hb.2
            have hrne : sig.div100.2 ≠ 0 := fun h0 => ha ⟨hb.1, h0⟩
            omega
        · rw [if_neg hb] at h
          have hlow : ∀ dig1, setDig dig n (48 + sig.div100.2 % 10) = some dig1 →
              dig1.getD 0 0 ≠ 48 := by
            intro dig1 hs
            rw [setDig_getD_zero _ _ _ _ hs]
            by_cases hn : n = 0
            · rw [if_pos hn]
              have hne : sig.div100.2 % 10 ≠ 0 := fun h0 => hb ⟨hn, t5.2 h0⟩
              omega
            · rw [if_neg hn]
              exact hinv (by omega)
          by_cases hc : (digitPairs.getD sig.div100.2 ('0', '0')).1 = '0' ∧
              sig.div100.1 = ⟨0, 0⟩
          · rw [if_pos hc, t3] at h
            cases hs : setDig dig n (48 + sig.div100.2 % 10) with
            | none => rw [hs] at h; exact absurd h (by simp)
            | some dig1 =>
              rw [hs] at h
              simp only [Option.bind] at h
              exact ih _ _ _ _ _ hqwf (fun _ => hlow dig1 hs) h hpos
          · rw [if_neg hc, t3, t2] at h
            cases hs : setDig dig n (48 + sig.div100.2 % 10) with
            | none => rw [hs] at h; exact absurd h (by simp)
            | some dig1 =>
              rw [hs] at h
              simp only [Option.bind] at h
              cases hs2 : setDig dig1 (n + 1) (48 + sig.div100.2 / 10) with
              | none => rw [hs2] at h; exact absurd h (by simp)
              | some dig2 =>
                rw [hs2] at h
                simp only at h
                refine ih _ _ _ _ _ hqwf (fun _ => ?_) h hpos
                rw [setDig_getD_zero _ _ _ _ hs2, if_neg (by omega)]
                exact hlow dig1 hs

/-- The last digit `Decimal.digits` returns is not `'0'`. -/
theorem digits_last (d : Decimal) (hwf : d.wf) (digs : digits) (hd : d.digits = some digs)
    (hpos : 0 < digs.ndig) :
    ∃ l, digs.dig.take digs.ndig.toNat = l ++ [digs.dig.getD (digs.ndig.toNat - 1) 0] ∧
      digs.dig.getD (digs.ndig.toNat - 1) 0 ≠ byte '0' := by
  obtain ⟨f1, f2⟩ := decompose_any d hwf
  unfold Decimal.digits at hd
  by_cases hsig : d.decompose.1 = ⟨0, 0⟩
  · simp only [hsig, ne_eq, not_true_eq_false, if_false] at hd
    rw [← Option.some.inj hd] at hpos
    simp at hpos
  · simp only [ne_eq, hsig, not_false_eq_true, if_true] at hd
    have hc : d.decompose.1.toNat ≠ 0 := fun h => hsig ((toNat_eq_zero_iff _).2 h)
    obtain ⟨n', exp', dig', e1, e2, e3, e4, e5, e6, e7, e8, e9, e10⟩ :=
      digitsLoop_spec d.decompose.1.toNat d.decompose.1 0 (d.decompose.2 - exponentBias)
        (List.replicate 39 0) 35 f1 (le_refl _) (lt_trans f2 (by norm_num)) (by omega)
        (by simp) (by simp)
    have hlow := digitsLoop_low _ _ _ _ _ _ f1 (fun h => absurd h (lt_irrefl 0)) e1
    simp only at hlow
    rw [e1] at hd
    simp only [Option.bind] at hd
    have hn1 : 1 ≤ n' := e7 hc
    have hn39 : n' ≤ dig'.length := by omega
    obtain ⟨r1, r2⟩ := reverseLoop_take n' dig' hn1 hn39
    rw [← Option.some.inj hd]
    simp only [Int.toNat_ofNat]
    have hlow2 := hlow hn1
    -- the low digit of the loop is the last one after the reversal
    have hl : (dig'.take n').length = n' := by rw [List.length_take]; omega
    obtain ⟨a, t, hat⟩ : ∃ a t, dig'.take n' = a :: t := by
      cases hX : dig'.take n' with
      | nil =>
        rw [hX] at hl
        simp at hl
        omega
      | cons a t => exact ⟨a, t, rfl⟩
    have ha : dig'.getD 0 0 = a := getD_zero_take dig' n' a t hat
    have htl : t.length + 1 = n' := by
      rw [hat] at hl
      simpa using hl
    have hget : (reverseLoop n' 0 ((n' : Int) - 1) dig').getD (n' - 1) 0 = a := by
      have h1 : (reverseLoop n' 0 ((n' : Int) - 1) dig').getD (n' - 1) 0
          = ((reverseLoop n' 0 ((n' : Int) - 1) dig').take n').getD (n' - 1) 0 := by
        rw [List.getD_eq_getElem?_getD, List.getD_eq_getElem?_getD,
          List.getElem?_take_of_lt (by omega)]
      rw [h1, r2, hat, List.reverse_cons, List.getD_eq_getElem?_getD,
        List.getElem?_append_right (by rw [List.length_reverse]; omega)]
      have : n' - 1 - t.reverse.length = 0 := by rw [List.length_reverse]; omega
      rw [this]
      rfl
    rw [hget, r2, hat, List.reverse_cons]
    refine ⟨t.reverse, rfl, ?_⟩
    rw [← ha, byte_0]
    exact hlow2

/-- `Decimal.digits` does not fail on any bit pattern, its array keeps its 39 bytes, and
what it returns is as for a finite value. -/
theorem digits_total (d : Decimal) (hwf : d.wf) (m : Nat)
    (hm : d.decompose.1.toNat < 10 ^ m) (hm39 : m ≤ 39) :
    ∃ digs, d.digits = some digs ∧ digs.dig.length = 39 ∧ 0 ≤ digs.ndig ∧
      (d.decompose.1.toNat = 0 → digs.ndig = 0 ∧ digs.exp = 0) ∧
      (d.decompose.1.toNat ≠ 0 → 1 ≤ digs.ndig ∧
        d.decompose.2 - exponentBias ≤ digs.exp ∧
        digs.ndig + (digs.exp - (d.decompose.2 - exponentBias)) ≤ m) := by
  obtain ⟨f1, f2⟩ := decompose_any d hwf
  by_cases hc : d.decompose.1.toNat = 0
  · have hsig : d.decompose.1 = ⟨0, 0⟩ := (toNat_eq_zero_iff _).2 hc
    refine ⟨⟨d.isNeg, List.replicate 39 0, 0, 0⟩, ?_, by simp, le_refl _,
      fun _ => ⟨rfl, rfl⟩, fun h => absurd hc h⟩
    unfold Decimal.digits
    simp only [hsig, ne_eq, not_true_eq_false, if_false]
  · have hsig : d.decompose.1 ≠ ⟨0, 0⟩ := fun h => hc ((toNat_eq_zero_iff _).1 h)
    obtain ⟨n', exp', dig', e1, e2, e3, e4, e5, e6, e7, e8, e9, e10⟩ :=
      digitsLoop_spec d.decompose.1.toNat d.decompose.1 0 (d.decompose.2 - exponentBias)
        (List.replicate 39 0) m f1 (le_refl _) hm (by omega) (by simp) (by simp)
    have hn1 : 1 ≤ n' := e7 hc
    have hn39 : n' ≤ dig'.length := by omega
    obtain ⟨r1, r2⟩ := reverseLoop_take n' dig' hn1 hn39
    refine ⟨⟨d.isNeg, reverseLoop n' 0 ((n' : Int) - 1) dig', exp', n'⟩, ?_,
      by dsimp only; rw [r1, e2], by dsimp only; omega, fun h => absurd h hc,
      fun _ => ⟨by dsimp only; omega, e4, by dsimp only; omega⟩⟩
    unfold Decimal.digits
    simp only [ne_eq, hsig, not_false_eq_true, if_true, e1, Option.bind]

theorem leValue_ofDigits (l : List Nat) :
    leValue l = Nat.ofDigits 10 (l.map fun b => b - 48) := by
  induction l with
  | nil => rfl
  | cons a l ih =>
    rw [List.map_cons, Nat.ofDigits_cons, ← ih]
    simp [leValue, byte_0]

/-- A string of digit bytes that does not start with `'0'` is the decimal expansion of its
value. -/
theorem expansion_of_digit_bytes (L : List Nat) (hd : ∀ b ∈ L, isDigitByte b)
    (htop : L.head? ≠ some 48) :
    L = (Nat.digits 10 (digitsValue L)).reverse.map fun x => byte '0' + x := by
  have hv : digitsValue L = Nat.ofDigits 10 (L.reverse.map fun b => b - 48) := by
    rw [← leValue_ofDigits, ← digitsValue_reverse, List.reverse_reverse]
  have hdig : Nat.digits 10 (digitsValue L) = L.reverse.map fun b => b - 48 := by
    rw [hv]
    apply Nat.digits_ofDigits 10 (by norm_num)
    · intro x hx
      rw [List.mem_map] at hx
      obtain ⟨b, hb, rfl⟩ := hx
      have := hd b (List.mem_reverse.1 hb)
      unfold isDigitByte at this
      rw [byte_0, byte_9] at this
      omega
    · intro hne
      cases L with
      | nil => simp at hne
      | cons a t =>
        have ha := hd a (List.mem_cons_self _ _)
        unfold isDigitByte at ha
        rw [byte_0, byte_9] at ha
        simp only [List.head?_cons, ne_eq, Option.some.injEq] at htop
        simp only [List.reverse_cons, List.map_append, List.map_cons, List.map_nil,
          List.getLast_append_singleton] 
        omega
  rw [hdig, ← List.map_reverse, List.reverse_reverse, List.map_map]
  symm
  conv_rhs => rw [← List.map_id L]
  apply List.map_congr_left
  intro b hb
  have := hd b hb
  unfold isDigitByte at this
  rw [byte_0, byte_9] at this
  simp only [Function.comp, byte_0, id]
  omega

/-- C22. The digits structure denotes the magnitude of the decimal: for every finite
`Decimal` with non-zero coefficient `c` and biased exponent `q`, `digits` returns
`ndig ≥ 1` bytes that are all ASCII digits, whose value `D` satisfies
`D * 10^digs.exp = c * 10^(q - 6176)`, and `digs.neg` is the sign bit; for a zero coefficient
it returns `ndig = 0` and `exp = 0`. -/
theorem digits_value (d : Decimal) (hwf : d.wf) (hfin : d.isSpecial = false) :
    ∃ digs, d.digits = some digs ∧ digs.neg = d.Signbit ∧ 0 ≤ digs.ndig ∧
      (digs.dig.take digs.ndig.toNat).length = digs.ndig.toNat ∧
      (∀ b ∈ digs.dig.take digs.ndig.toNat, isDigitByte b) ∧
      (d.decompose.1.toNat ≠ 0 → 1 ≤ digs.ndig ∧
        (digitsValue (digs.dig.take digs.ndig.toNat) : ℚ) * (10 : ℚ) ^ digs.exp
          = (d.decompose.1.toNat : ℚ) * (10 : ℚ) ^ (d.decompose.2 - 6176)) ∧
      (d.decompose.1.toNat = 0 → digs.ndig = 0 ∧ digs.exp = 0) := by
  obtain ⟨f1, f2, f3, f4⟩ := decompose_finite d hwf hfin
  obtain ⟨digs, hd, hneg, hN0, hlen, hdigit, hzero, hnz⟩ :=
    digits_spec d hwf hfin 35 (lt_trans f2 (by norm_num)) (by norm_num)
  refine ⟨digs, hd, hneg, hN0, hlen, hdigit, fun hc => ?_, hzero⟩
  obtain ⟨n1, n2, n3, n4⟩ := hnz hc
  have hb : exponentBias = 6176 := rfl
  rw [hb] at n2 n4
  exact ⟨n1, (value_of_digits _ _ digs.exp _ n2 n4).symm⟩

/-- C22 on the value 12.5 (coefficient 125, exponent -1). -/
theorem digits_value_witness :
    ((⟨125, 0x303e000000000000⟩ : Decimal).digits.map
        fun g => (g.neg, g.dig.take 3, g.exp, g.ndig))
      = some (false, bytesOf "125", -1, 3) ∧
    ∃ digs, (⟨125, 0x303e000000000000⟩ : Decimal).digits = some digs ∧
      digs.neg = (⟨125, 0x303e000000000000⟩ : Decimal).Signbit ∧ 0 ≤ digs.ndig ∧
      (digs.dig.take digs.ndig.toNat).length = digs.ndig.toNat ∧
      (∀ b ∈ digs.dig.take digs.ndig.toNat, isDigitByte b) ∧
      ((⟨125, 0x303e000000000000⟩ : Decimal).decompose.1.toNat ≠ 0 → 1 ≤ digs.ndig ∧
        (digitsValue (digs.dig.take digs.ndig.toNat) : ℚ) * (10 : ℚ) ^ digs.exp
          = ((⟨125, 0x303e000000000000⟩ : Decimal).decompose.1.toNat : ℚ)
            * (10 : ℚ) ^ ((⟨125, 0x303e000000000000⟩ : Decimal).decompose.2 - 6176)) ∧
      ((⟨125, 0x303e000000000000⟩ : Decimal).decompose.1.toNat = 0 →
        digs.ndig = 0 ∧ digs.exp = 0) :=
  ⟨by decide, digits_value ⟨125, 0x303e000000000000⟩ (by decide) (by decide)⟩

/-- C23, as stated, fails. The coefficient 100 with biased exponent 6176 has the decimal
expansion `100`, three digits; `digits` returns the single digit `1` with `exp = 2`, not
three digits with `exp = 0`. -/
theorem digits_drops_trailing_zeros :
    (⟨100, 0x3040000000000000⟩ : Decimal).isSpecial = false ∧
    (⟨100, 0x3040000000000000⟩ : Decimal).decompose = (⟨100, 0⟩, 6176) ∧
    ((⟨100, 0x3040000000000000⟩ : Decimal).digits.map
        fun g => (g.ndig, g.dig.take g.ndig.toNat, g.exp)) = some (1, bytesOf "1", 2) ∧
    ((⟨100, 0x3040000000000000⟩ : Decimal).digits.map
        fun g => (g.ndig, g.dig.take g.ndig.toNat, g.exp))
      ≠ some (3, bytesOf "100", 6176 - 6176) := by
  decide

/-- C23, amended. For every finite `Decimal` with non-zero coefficient `c` and biased
exponent `q`, `digits` returns the decimal expansion of `c` without its trailing zeros:
`c = D * 10^k` with `D` not a multiple of 10, the `ndig` digits are exactly the decimal
expansion of `D` (`ndig` is the number of decimal digits of `D`; the first digit and the
last digit are not `0`), and `digs.exp = q - 6176 + k`. -/
theorem digits_expansion (d : Decimal) (hwf : d.wf) (hfin : d.isSpecial = false)
    (hc : d.decompose.1.toNat ≠ 0) :
    ∃ (digs : digits) (D k : Nat), d.digits = some digs ∧
      d.decompose.1.toNat = D * 10 ^ k ∧ D % 10 ≠ 0 ∧
      digs.exp = d.decompose.2 - 6176 + k ∧
      digs.ndig = (Nat.digits 10 D).length ∧
      digs.dig.take digs.ndig.toNat
        = ((Nat.digits 10 D).reverse.map fun x => byte '0' + x) ∧
      digs.dig.getD 0 0 ≠ byte '0' ∧
      digs.dig.getD (digs.ndig.toNat - 1) 0 ≠ byte '0' := by
  obtain ⟨f1, f2, f3, f4⟩ := decompose_finite d hwf hfin
  obtain ⟨digs, hd, hneg, hN0, hlen, hdigit, hzero, hnz⟩ :=
    digits_spec d hwf hfin 35 (lt_trans f2 (by norm_num)) (by norm_num)
  obtain ⟨w1, w2, w3, w4⟩ := digits_wf d hwf hfin digs hd
  obtain ⟨n1, n2, n3, n4⟩ := hnz hc
  obtain ⟨l, hl1, hl2⟩ := digits_last d hwf digs hd (by omega)
  have hb : exponentBias = 6176 := rfl
  have htop := w4 (by omega)
  have hcons := take_eq_cons digs.dig digs.ndig.toNat (by omega) hlen
  have hexp := expansion_of_digit_bytes (digs.dig.take digs.ndig.toNat) hdigit (by
    rw [hcons, List.head?_cons]
    intro h
    rw [byte_0] at htop
    exact htop (Option.some.inj h))
  have hlast := hdigit (digs.dig.getD (digs.ndig.toNat - 1) 0) (by rw [hl1]; simp)
  unfold isDigitByte at hlast
  rw [byte_0, byte_9] at hlast
  refine ⟨digs, digitsValue (digs.dig.take digs.ndig.toNat),
    (digs.exp - (d.decompose.2 - exponentBias)).toNat, hd, n4.symm, ?_, by omega, ?_, hexp,
    htop, hl2⟩
  · rw [hl1, digitsValue_append_single]
    rw [byte_0] at hl2
    omega
  · have := congrArg List.length hexp
    rw [hlen, List.length_map, List.length_reverse] at this
    omega

/-- The amended C23 on the coefficient 1200 with biased exponent 6174: the digits `12` with
`exp = 0`. -/
theorem digits_expansion_witness :
    ((⟨1200, 0x303c000000000000⟩ : Decimal).digits.map
        fun g => (g.ndig, g.dig.take g.ndig.toNat, g.exp)) = some (2, bytesOf "12", 0) ∧
    ∃ (digs : digits) (D k : Nat),
      (⟨1200, 0x303c000000000000⟩ : Decimal).digits = some digs ∧
      (⟨1200, 0x303c000000000000⟩ : Decimal).decompose.1.toNat = D * 10 ^ k ∧ D % 10 ≠ 0 ∧
      digs.exp = (⟨1200, 0x303c000000000000⟩ : Decimal).decompose.2 - 6176 + k ∧
      digs.ndig = (Nat.digits 10 D).length ∧
      digs.dig.take digs.ndig.toNat
        = ((Nat.digits 10 D).reverse.map fun x => byte '0' + x) ∧
      digs.dig.getD 0 0 ≠ byte '0' ∧
      digs.dig.getD (digs.ndig.toNat - 1) 0 ≠ byte '0' :=
  ⟨by decide, digits_expansion ⟨1200, 0x303c000000000000⟩ (by decide) (by decide)
    (by decide)⟩

/-- C25. `digits` never leaves its scratch buffer, whatever the bit pattern (form B and
special patterns included): the coefficient `decompose` returns is below `10^35`; `digits`
returns without a panic, so every index written was inside the 39-byte array (`setDig`
fails outside it) and every index into `digitPairs` was below 100 (the table has 100
entries); the array still has 39 bytes; `ndig` is at most 35, and at most 34 when the
coefficient is at most `10^34 - 1`; and the division loop stops by its own test: every bound
of at least `sig` rounds gives the same result. -/
theorem digits_in_bounds (d : Decimal) (hwf : d.wf) :
    d.decompose.1.toNat < 10 ^ 35 ∧
    (∃ digs, d.digits = some digs ∧ digs.dig.length = 39 ∧ 0 ≤ digs.ndig ∧ digs.ndig ≤ 35 ∧
      (d.decompose.1.toNat ≤ 10 ^ 34 - 1 → digs.ndig ≤ 34)) ∧
    (∀ fuel, d.decompose.1.toNat ≤ fuel →
      digitsLoop fuel d.decompose.1 0 (d.decompose.2 - exponentBias) (List.replicate 39 0)
        = digitsLoop d.decompose.1.toNat d.decompose.1 0 (d.decompose.2 - exponentBias)
            (List.replicate 39 0)) ∧
    (∀ (dig : List Nat) (i b : Nat), dig.length = 39 →
      (setDig dig i b ≠ none ↔ i ≤ 38) ∧
      ∀ dig1, setDig dig i b = some dig1 → dig1.length = 39) ∧
    (∀ rem : Nat, digitPairs[rem]? ≠ none ↔ rem < 100) := by
  obtain ⟨f1, f2⟩ := decompose_any d hwf
  have h35 : d.decompose.1.toNat < 10 ^ 35 := lt_trans f2 (by norm_num)
  refine ⟨h35, ?_, ?_, ?_, ?_⟩
  · obtain ⟨digs, hd, hlen, h0, hz, hnz⟩ := digits_total d hwf 35 h35 (by norm_num)
    have hbound : ∀ m : Nat, d.decompose.1.toNat < 10 ^ m → m ≤ 39 → digs.ndig ≤ m := by
      intro m hm hm39
      obtain ⟨digs2, hd2, _, _, hz, hnz⟩ := digits_total d hwf m hm hm39
      have he : digs2 = digs := Option.some.inj (hd2.symm.trans hd)
      rw [he] at hz hnz
      by_cases hc : d.decompose.1.toNat = 0
      · have := (hz hc).1; omega
      · obtain ⟨n1, n2, n3⟩ := hnz hc
        omega
    refine ⟨digs, hd, hlen, h0, hbound 35 h35 (by norm_num), fun h34 => ?_⟩
    exact hbound 34 (by omega) (by norm_num)
  · intro fuel hfuel
    exact digitsLoop_fuel _ _ _ _ _ _ f1 hfuel (le_refl _)
  · intro dig i b hlen
    unfold setDig
    constructor
    · by_cases h : i < dig.length
      · rw [if_pos h]; simp; omega
      · rw [if_neg h]; simp; omega
    · intro dig1 h1
      by_cases h : i < dig.length
      · rw [if_pos h] at h1
        rw [← Option.some.inj h1, List.length_set, hlen]
      · rw [if_neg h] at h1
        exact absurd h1 (by simp)
  · intro rem
    have hlen : digitPairs.length = 100 := by decide
    rw [ne_eq, List.getElem?_eq_none_iff, hlen]
    omega

/-- C25 on the pattern with every bit set (a NaN whose coefficient, read as form B, is
`2^113 + 2^111 - 1`): 35 digits. -/
theorem digits_in_bounds_witness :
    ((⟨0xffffffffffffffff, 0xffffffffffffffff⟩ : Decimal).digits.map
        fun g => (g.ndig, g.dig.length)) = some (35, 39) ∧
    (⟨0xffffffffffffffff, 0xffffffffffffffff⟩ : Decimal).decompose.1.toNat < 10 ^ 35 ∧
    (∃ digs, (⟨0xffffffffffffffff, 0xffffffffffffffff⟩ : Decimal).digits = some digs ∧
      digs.dig.length = 39 ∧ 0 ≤ digs.ndig ∧ digs.ndig ≤ 35 ∧
      ((⟨0xffffffffffffffff, 0xffffffffffffffff⟩ : Decimal).decompose.1.toNat ≤ 10 ^ 34 - 1 →
        digs.ndig ≤ 34)) :=
  ⟨by decide,
    (digits_in_bounds ⟨0xffffffffffffffff, 0xffffffffffffffff⟩ (by decide)).1,
    (digits_in_bounds ⟨0xffffffffffffffff, 0xffffffffffffffff⟩ (by decide)).2.1⟩

/-! ## The default renderings -/

theorem MarshalText_eq (d : Decimal) :
    d.MarshalText = d.String.map fun out => (out, none) := by
  unfold Decimal.MarshalText Decimal.String
  by_cases hsp : d.isSpecial = true
  · rw [if_pos hsp, if_pos hsp]
    rfl
  · rw [if_neg hsp, if_neg hsp]
    cases d.digits with
    | none => rfl
    | some digs =>
      simp only [Option.bind]
      split_ifs <;> rfl

theorem Format_v_eq (d : Decimal) (f : State) : d.Format f 'v' = d.String := by
  unfold Decimal.Format Decimal.String
  by_cases hsp : d.isSpecial = true
  · rw [if_pos hsp, if_pos hsp]
    simp only [ne_eq, not_true_eq_false, if_false]
    rw [fmtSpecial_eq d 0 false false (f.Flag '-') _ rfl, fmtSpecial_eq d 0 false false false _ rfl]
    have h0 : ∀ T : List Nat, ((0 : Int) - (T.length : Int)).toNat = 0 := by
      intro T; omega
    simp only [h0, List.replicate_zero, List.append_nil, List.nil_append, ite_self,
      Bool.false_eq_true, if_false]
  · rw [if_neg hsp, if_neg hsp]
    have h1 : ¬ ('v' = 'e' ∨ 'v' = 'E') := by decide
    have h2 : ¬ ('v' = 'f' ∨ 'v' = 'F') := by decide
    have h3 : ¬ ('v' = 'g' ∨ 'v' = 'G') := by decide
    simp only [h1, h2, h3, if_false, if_true]

/-- C24. The three default renderings agree and none of them panics: for every `Decimal`,
finite or special, `String` returns a string, `MarshalText` returns the same bytes with a
`nil` error, and `Format` with verb `v` writes the same bytes, whatever width, precision and
flags the formatter state carries. -/
theorem default_renderings_agree (d : Decimal) (f : State) (hwf : d.wf) :
    ∃ out : List Nat, d.String = some out ∧ d.MarshalText = some (out, none) ∧
      d.Format f 'v' = some out := by
  have hS : ∃ out, d.String = some out := by
    by_cases hsp : d.isSpecial = true
    · exact ⟨_, by unfold Decimal.String; rw [if_pos hsp]⟩
    · obtain ⟨n, hn, _⟩ := String_numeral d hwf (by simpa using hsp)
      exact ⟨_, hn⟩
  obtain ⟨out, hout⟩ := hS
  refine ⟨out, hout, ?_, ?_⟩
  · rw [MarshalText_eq, hout]
    rfl
  · rw [Format_v_eq, hout]

/-- C24 on the value 0.0001234 with every flag, a width and a precision set, and on a
negative infinity. -/
theorem default_renderings_agree_witness :
    (⟨1234, 0x3032000000000000⟩ : Decimal).String = some (bytesOf "0.0001234") ∧
    (⟨5, 0xf800000000000000⟩ : Decimal).String = some (bytesOf "-Inf") ∧
    (∃ out : List Nat, (⟨1234, 0x3032000000000000⟩ : Decimal).String = some out ∧
      (⟨1234, 0x3032000000000000⟩ : Decimal).MarshalText = some (out, none) ∧
      (⟨1234, 0x3032000000000000⟩ : Decimal).Format
        ⟨some 20, some 2, true, true, true, true, true⟩ 'v' = some out) ∧
    (∃ out : List Nat, (⟨5, 0xf800000000000000⟩ : Decimal).String = some out ∧
      (⟨5, 0xf800000000000000⟩ : Decimal).MarshalText = some (out, none) ∧
      (⟨5, 0xf800000000000000⟩ : Decimal).Format
        ⟨some 20, some 2, true, true, true, true, true⟩ 'v' = some out) :=
  ⟨by decide, by decide,
    default_renderings_agree ⟨1234, 0x3032000000000000⟩
      ⟨some 20, some 2, true, true, true, true, true⟩ (by decide),
    default_renderings_agree ⟨5, 0xf800000000000000⟩
      ⟨some 20, some 2, true, true, true, true, true⟩ (by decide)⟩

end decimal128
